import Mathlib

/-!
# cloudtrail-streamer: batching worker, filters and handlers

A shallow embedding of `cloudtrail-streamer/main.go`.

* Go strings are lists of characters, byte slices are lists of bytes.
* The Kinesis client, the S3 fetch, gzip and the JSON codec are collaborators
  outside the repository: they appear as function parameters.
* The worker goroutine `KinesisStreamer.Stream` is a state machine.  Its
  channels are created by `make(chan string)` and `make(chan int)`, without a
  capacity, so a send on them completes only in a rendezvous with the
  worker's `select`.  The handler is the only goroutine that sends on them,
  one operation at a time, so the `select` never has two cases ready.
* `Send` and `Close` return no value, so what the handler does next never
  depends on the sinks.  The handler is therefore read as the sequence of
  calls it makes (`Streamer.streamToServices`, `S3Handler.calls`) and the
  value of the `return` statement it reaches (`S3Handler.result`); the
  sequence is then run against the sinks (`Machine.exec`), where a call on
  the batching sink may never return.
-/

namespace CloudTrailStreamer

/-- Byte slice `[]byte`. -/
abbrev Bytes := List UInt8

/-- Go `string`, as its sequence of characters. -/
abbrev Str := List Char

/-! ## The batching worker (`KinesisStreamer`) -/

/-- The `kinesis.PutRecordsRequestEntry` values the worker builds. -/
structure PutRecordsRequestEntry where
  Data : Bytes
  PartitionKey : Str
deriving DecidableEq, Repr

/-- The entry appended for a received record:
`&kinesis.PutRecordsRequestEntry{Data: record, PartitionKey: aws.String("key")}`. -/
def mkEntry (record : Bytes) : PutRecordsRequestEntry :=
  { Data := record, PartitionKey := "key".toList }

/-- The Kinesis client seen from the worker: given the `Records` of the calls
that already returned and the `Records` of this call, `PutRecords` returns an
error (`some e`) or succeeds (`none`). -/
abbrev PutRecords (E : Type) := List (List PutRecordsRequestEntry) → List PutRecordsRequestEntry → Option E

/-- Where the goroutine running `KinesisStreamer.Stream` stands. -/
inductive Phase (E : Type) where
  /-- waiting in `select` for `k.ch` or `k.quit` -/
  | selecting
  /-- inside a `PutRecords` call; `drain` tells the call of the `k.quit` case
  from the call of the `k.ch` case -/
  | putting (drain : Bool)
  /-- `Stream` has returned `err` -/
  | returned (err : Option E)
  /-- run-time panic: integer divide by zero in `len(kRecordsBuf) % batchSize` -/
  | panicked
deriving DecidableEq, Repr

/-- State of the worker: the local `kRecordsBuf`, the `PutRecords` calls that
have returned so far (their `Records`, in call order) and the phase.  A call
in progress has `kRecordsBuf` as its `Records`. -/
structure Worker (E : Type) where
  kRecordsBuf : List PutRecordsRequestEntry
  puts : List (List PutRecordsRequestEntry)
  phase : Phase E
deriving DecidableEq, Repr

/-- Entry of `Stream`: `var kRecordsBuf`, then the `for`/`select` loop. -/
def Worker.start {E : Type} : Worker E :=
  { kRecordsBuf := [], puts := [], phase := .selecting }

/-- The `case r := <-k.ch` branch up to the point where `PutRecords` is
called: append the entry, then test
`len(kRecordsBuf) > 0 && len(kRecordsBuf)%globalConfig.awsKinesisBatchSize == 0`
(Go `%` on `int` truncates; a zero divisor panics). -/
def Worker.receive {E : Type} (batchSize : Int) (w : Worker E) (r : Bytes) : Worker E :=
  let buf := w.kRecordsBuf ++ [mkEntry r]
  if buf.length > 0 then
    if batchSize = 0 then { w with kRecordsBuf := buf, phase := .panicked }
    else if Int.tmod (buf.length : Int) batchSize = 0 then
      { w with kRecordsBuf := buf, phase := .putting false }
    else { w with kRecordsBuf := buf }
  else { w with kRecordsBuf := buf }

/-- The `case <-k.quit` branch up to the point where `PutRecords` is called:
`if len(kRecordsBuf) != 0 { PutRecords ... }`, otherwise `return nil`. -/
def Worker.quitSignal {E : Type} (w : Worker E) : Worker E :=
  if w.kRecordsBuf.length ≠ 0 then { w with phase := .putting true }
  else { w with phase := .returned none }

/-- The `PutRecords` call in progress returns `res`.  On an error both
branches `return err`.  On success the `k.ch` branch truncates the buffer
(`kRecordsBuf = kRecordsBuf[:0]`) and loops, the `k.quit` branch falls through
to `return nil`. -/
def Worker.putReturns {E : Type} (w : Worker E) (res : Option E) : Worker E :=
  match w.phase with
  | .putting drain =>
    match res with
    | some e => { w with puts := w.puts ++ [w.kRecordsBuf], phase := .returned (some e) }
    | none =>
      if drain then { w with puts := w.puts ++ [w.kRecordsBuf], phase := .returned none }
      else { kRecordsBuf := [], puts := w.puts ++ [w.kRecordsBuf], phase := .selecting }
  | _ => w

/-- Let a call in progress run to its return, the client answering. -/
def Worker.settle {E : Type} (put : PutRecords E) (w : Worker E) : Worker E :=
  match w.phase with
  | .putting _ => w.putReturns (put w.puts w.kRecordsBuf)
  | _ => w

/-- What arrives at the worker's `select`. -/
inductive Msg where
  /-- a record on `k.ch` -/
  | item (r : Bytes)
  /-- the drain signal on `k.quit` -/
  | quit
deriving DecidableEq, Repr

/-- One turn of the `for`/`select` loop: the worker takes the message when it
is back at its `select` and runs the branch to the end, `PutRecords`
included.  A worker that has returned or panicked takes nothing. -/
def Worker.step {E : Type} (batchSize : Int) (put : PutRecords E) (w : Worker E) (m : Msg) :
    Worker E :=
  let w := w.settle put
  match w.phase with
  | .selecting =>
    match m with
    | .item r => (w.receive batchSize r).settle put
    | .quit => w.quitSignal.settle put
  | _ => w

/-- The worker fed a sequence of messages. -/
def Worker.run {E : Type} (batchSize : Int) (put : PutRecords E) (w : Worker E)
    (msgs : List Msg) : Worker E :=
  msgs.foldl (Worker.step batchSize put) w

/-- `N` items followed by the drain signal, from a fresh worker. -/
def Worker.drainAfter {E : Type} (batchSize : Int) (put : PutRecords E) (items : List Bytes) :
    Worker E :=
  Worker.run batchSize put Worker.start (items.map Msg.item ++ [Msg.quit])

/-- `KinesisStreamer.Send`: `k.ch <- string(record)`.  The channel has no
buffer, so the send waits while the worker is inside `PutRecords` and
completes when the worker, back at its `select`, takes the record; the worker
then goes on alone.  `none`: the worker has left its loop, nothing will ever
receive, and the sender stays blocked. -/
def KinesisStreamer.Send {E : Type} (batchSize : Int) (put : PutRecords E) (w : Worker E)
    (record : Bytes) : Option (Worker E) :=
  let w := w.settle put
  match w.phase with
  | .selecting => some (w.receive batchSize record)
  | _ => none

/-- `KinesisStreamer.Close`: `k.quit <- 0` (a rendezvous like `Send`), then
`k.wg.Wait()`, which returns once `Stream` has returned and run its deferred
`k.wg.Done()`. -/
def KinesisStreamer.Close {E : Type} (put : PutRecords E) (w : Worker E) : Option (Worker E) :=
  let w := w.settle put
  match w.phase with
  | .selecting => some (w.quitSignal.settle put)
  | _ => none

/-- Whether a `k.ch <- ...` started now completes without waiting: only when
the worker is waiting at its `select`. -/
def KinesisStreamer.sendReady {E : Type} (w : Worker E) : Bool :=
  match w.phase with
  | .selecting => true
  | _ => false

/-! ## Event filters -/

/-- Filter rule. -/
structure EventFilter where
  EventName : Str
  EventSource : Str
deriving DecidableEq, Repr

/-- `strings.Split(s, sep)` for a separator of one character: the pieces of
`s` between the separators, at least one piece. -/
def split (sep : Char) : Str → List Str
  | [] => [[]]
  | c :: cs =>
    if c = sep then [] :: split sep cs
    else
      match split sep cs with
      | [] => [[c]]
      | t :: ts => (c :: t) :: ts

/-- `newEventFilter`: `fmt.Sprintf("%s.amazonaws.com", source)`. -/
def newEventFilter (source name : Str) : EventFilter :=
  { EventName := name, EventSource := source ++ ".amazonaws.com".toList }

/-- `parseFilters`: the loop over `strings.Split(filters, ",")`; a token whose
split on `":"` has not two parts is passed over (`continue`), otherwise a
rule is appended. -/
def parseFilters (filters : Str) : List EventFilter :=
  (split ',' filters).foldl
    (fun eventFilters filter =>
      match split ':' filter with
      | [source, name] => eventFilters ++ [newEventFilter source name]
      | _ => eventFilters)
    []

/-- A decoded JSON value (`interface{}` as produced by `encoding/json`);
a number is kept as the bits of its `float64`. -/
inductive Value where
  | null
  | bool (b : Bool)
  | number (float64bits : Nat)
  | string (s : Str)
  | array (xs : List Value)
  | object (fields : List (Str × Value))

/-- One CloudTrail record, `map[string]interface{}`. -/
abbrev Record := List (Str × Value)

/-- Indexing the map, `record[key]`; `none` is the nil interface of a missing key. -/
def Record.index (record : Record) (key : Str) : Option Value :=
  match record with
  | [] => none
  | (k, v) :: rest => if k = key then some v else Record.index rest key

/-- The comparison `record[key] == s` of an `interface{}` with a `string`:
true when the dynamic value is a string equal to `s`. -/
def ifaceEqString : Option Value → Str → Bool
  | some (.string t), s => decide (t = s)
  | _, _ => false

/-- `EventFilter.DoesMatch`. -/
def EventFilter.DoesMatch (ef : EventFilter) (record : Record) : Bool :=
  ifaceEqString (record.index "eventName".toList) ef.EventName ||
    ifaceEqString (record.index "eventSource".toList) ef.EventSource

/-- `doFiltersMatch`, the rules of `globalConfig.eventFilters` being passed in:
return `true` at the first rule that matches. -/
def doFiltersMatch (eventFilters : List EventFilter) (record : Record) : Bool :=
  match eventFilters with
  | [] => false
  | ef :: rest => if ef.DoesMatch record then true else doFiltersMatch rest record

/-- The rule a token stands for, in the words of the specification: a token
`shortSource:eventName`, that is one with exactly one `':'`, gives the rule
with the source's full name and the event name; every other token gives none. -/
def tokenRule (token : Str) : Option EventFilter :=
  if token.count ':' = 1 then
    some { EventName := (token.dropWhile (fun c => c != ':')).tail,
           EventSource := token.takeWhile (fun c => c != ':') ++ ".amazonaws.com".toList }
  else none

/-! ## Reading an object -/

/-- `GZIP_CONTENT_TYPE`. -/
def GZIP_CONTENT_TYPE : Str := "application/x-gzip".toList

/-- The fields of `s3.GetObjectOutput` that are read. -/
structure GetObjectOutput where
  ContentType : Option Str
  Body : Bytes

/-- `CloudTrailFile`. -/
structure CloudTrailFile where
  Records : List Record

/-- The collaborators outside the repository. -/
structure Env (E : Type) where
  /-- `s3Client.GetObject` for a region, bucket and key -/
  GetObject : Str → Str → Str → Except E GetObjectOutput
  /-- `gzip.NewReader(object.Body)`: the error, if the header is refused -/
  gzipNewReader : Bytes → Option E
  /-- `blobBuf.ReadFrom(logFileBlob)`; the flag says that `logFileBlob` is the gzip reader -/
  ReadFrom : Bool → Bytes → Except E Bytes
  /-- `json.Unmarshal(..., &logFile)` -/
  Unmarshal : Bytes → Except E CloudTrailFile
  /-- `json.Marshal(record)` -/
  Marshal : Record → Except E Bytes
  /-- `awsKinesisClient.PutRecords` -/
  PutRecords : PutRecords E

/-- `readLogFile`. -/
def readLogFile {E : Type} (env : Env E) (object : GetObjectOutput) : Except E CloudTrailFile :=
  let gz : Bool := decide (object.ContentType = some GZIP_CONTENT_TYPE)
  match (if gz then env.gzipNewReader object.Body else none) with
  | some err => .error err
  | none =>
    match env.ReadFrom gz object.Body with
    | .error err => .error err
    | .ok blob =>
      match env.Unmarshal blob with
      | .error err => .error err
      | .ok logFile => .ok logFile

/-! ## The router (`Streamer`) and the handlers -/

/-- The fields of `Config` read after start-up. -/
structure Config where
  awsKinesisStream : Str
  awsKinesisBatchSize : Int
  gcpTopicId : Str
  gcpStackdriverName : Str
  eventFilters : List EventFilter

/-- The three sinks, in the order of the fields of `Streamer`. -/
inductive Sink where
  | kinesis
  | pubsub
  | stackdriver
deriving DecidableEq, Repr

/-- A call the handler makes on a sink. -/
inductive Call where
  | Send (sink : Sink) (record : Bytes)
  | Close (sink : Sink)
deriving DecidableEq, Repr

/-- `Streamer`: which of its three sink pointers are non-nil. -/
structure Streamer where
  kinesisStreamer : Bool
  pubsubStreamer : Bool
  stackdriverStreamer : Bool
deriving DecidableEq, Repr

/-- `NewStreamer`. -/
def NewStreamer (globalConfig : Config) : Streamer :=
  { kinesisStreamer := decide (globalConfig.awsKinesisStream ≠ [])
    pubsubStreamer := decide (globalConfig.gcpTopicId ≠ [])
    stackdriverStreamer := decide (globalConfig.gcpStackdriverName ≠ []) }

/-- The `Send` calls of one record that passed the filters and was encoded. -/
def Streamer.fanOut (s : Streamer) (encodedRecord : Bytes) : List Call :=
  (if s.kinesisStreamer then [Call.Send .kinesis encodedRecord] else []) ++
  (if s.pubsubStreamer then [Call.Send .pubsub encodedRecord] else []) ++
  (if s.stackdriverStreamer then [Call.Send .stackdriver encodedRecord] else [])

/-- `Streamer.streamToServices`: the `Send` calls the loop makes, in the order
it makes them.  `Send` returns no value, so the loop does not depend on what
the sinks do, except that a call that never returns stops it
(see `Machine.call`). -/
def Streamer.streamToServices {E : Type} (env : Env E) (globalConfig : Config) (s : Streamer)
    (records : List Record) : List Call :=
  match records with
  | [] => []
  | record :: rest =>
    if doFiltersMatch globalConfig.eventFilters record then
      Streamer.streamToServices env globalConfig s rest
    else
      match env.Marshal record with
      | .error _ => Streamer.streamToServices env globalConfig s rest
      | .ok encodedRecord =>
        s.fanOut encodedRecord ++ Streamer.streamToServices env globalConfig s rest

/-- `Streamer.Close`: the sinks that are set, in this order. -/
def Streamer.Close (s : Streamer) : List Call :=
  (if s.kinesisStreamer then [Call.Close .kinesis] else []) ++
  (if s.pubsubStreamer then [Call.Close .pubsub] else []) ++
  (if s.stackdriverStreamer then [Call.Close .stackdriver] else [])

/-- The fields of `events.S3EventRecord` that are read. -/
structure S3EventRecord where
  AWSRegion : Str
  Bucket : Str
  Key : Str
deriving DecidableEq, Repr

/-- `Streamer.Stream`: the calls made on the sinks and the error returned. -/
def Streamer.Stream {E : Type} (env : Env E) (globalConfig : Config) (s : Streamer)
    (awsRegion bucket objectKey : Str) : List Call × Option E :=
  match env.GetObject awsRegion bucket objectKey with
  | .error err => ([], some err)
  | .ok object =>
    match readLogFile env object with
    | .error err => ([], some err)
    | .ok logFile => (s.streamToServices env globalConfig logFile.Records, none)

/-- The `for` loop of `S3Handler`: the calls made on the sinks and the value
of the `return` statement reached. -/
def S3Handler.loop {E : Type} (env : Env E) (globalConfig : Config) (s : Streamer)
    (records : List S3EventRecord) : List Call × Option E :=
  match records with
  | [] => ([], none)
  | s3Record :: rest =>
    match s.Stream env globalConfig s3Record.AWSRegion s3Record.Bucket s3Record.Key with
    | (calls, some err) => (calls, some err)
    | (calls, none) =>
      let r := S3Handler.loop env globalConfig s rest
      (calls ++ r.1, r.2)

/-- The calls `S3Handler` makes on the sinks: those of the loop, then those
of the deferred `streamer.Close()`. -/
def S3Handler.calls {E : Type} (env : Env E) (globalConfig : Config)
    (records : List S3EventRecord) : List Call :=
  (S3Handler.loop env globalConfig (NewStreamer globalConfig) records).1 ++
    (NewStreamer globalConfig).Close

/-- The value of the `return` statement `S3Handler` reaches. -/
def S3Handler.result {E : Type} (env : Env E) (globalConfig : Config)
    (records : List S3EventRecord) : Option E :=
  (S3Handler.loop env globalConfig (NewStreamer globalConfig) records).2

/-- Whether the goroutine of the handler can go on. -/
inductive Status where
  | running
  /-- blocked for ever in a channel send that nothing will receive -/
  | blocked
  /-- the process died of the worker's panic -/
  | crashed
deriving DecidableEq, Repr

/-- The sinks during one invocation: the worker started by
`streamInBackground`, what was handed to `topic.Publish` and to `logger.Log`,
and the status of the handler. -/
structure Machine (E : Type) where
  worker : Worker E
  published : List Bytes
  logged : List Bytes
  status : Status
deriving DecidableEq, Repr

/-- The sinks at the start of an invocation. -/
def Machine.fresh {E : Type} : Machine E :=
  { worker := Worker.start, published := [], logged := [], status := .running }

/-- The effect of a channel operation of the handler on the worker. -/
def Machine.rendezvous {E : Type} (put : PutRecords E) (m : Machine E)
    (r : Option (Worker E)) : Machine E :=
  match r with
  | none => { m with worker := m.worker.settle put, status := .blocked }
  | some w =>
    match w.phase with
    | .panicked => { m with worker := w, status := .crashed }
    | _ => { m with worker := w }

/-- One call of the handler.  `topic.Publish` and `logger.Log` take the record
and return; `topic.Stop` and `logger.Flush` (whose error is only logged)
return.  A handler that is blocked or dead makes no call. -/
def Machine.call {E : Type} (batchSize : Int) (put : PutRecords E) (m : Machine E)
    (c : Call) : Machine E :=
  match m.status with
  | .running =>
    match c with
    | .Send .kinesis record =>
      m.rendezvous put (KinesisStreamer.Send batchSize put m.worker record)
    | .Send .pubsub record => { m with published := m.published ++ [record] }
    | .Send .stackdriver record => { m with logged := m.logged ++ [record] }
    | .Close .kinesis => m.rendezvous put (KinesisStreamer.Close put m.worker)
    | .Close .pubsub => m
    | .Close .stackdriver => m
  | _ => m

/-- A sequence of calls of the handler. -/
def Machine.exec {E : Type} (batchSize : Int) (put : PutRecords E) (m : Machine E)
    (calls : List Call) : Machine E :=
  calls.foldl (Machine.call batchSize put) m

/-- How an invocation of the handler ends. -/
inductive Outcome (E : Type) where
  | returned (err : Option E)
  | blocked
  | crashed
deriving DecidableEq, Repr

/-- The sinks after `S3Handler` has made its calls. -/
def S3Handler.machine {E : Type} (env : Env E) (globalConfig : Config)
    (records : List S3EventRecord) : Machine E :=
  Machine.exec globalConfig.awsKinesisBatchSize env.PutRecords Machine.fresh
    (S3Handler.calls env globalConfig records)

/-- `S3Handler` on the records of an S3 event: it returns the value of its
`return` statement once the deferred `streamer.Close()` has returned. -/
def S3Handler {E : Type} (env : Env E) (globalConfig : Config)
    (records : List S3EventRecord) : Outcome E :=
  match (S3Handler.machine env globalConfig records).status with
  | .running => .returned (S3Handler.result env globalConfig records)
  | .blocked => .blocked
  | .crashed => .crashed

/-! ## Reading the calls -/

/-- The record of a `Send` on the sink `k`; `none` for every other call. -/
def Call.sentTo (k : Sink) : Call → Option Bytes
  | .Send k' record => if k' = k then some record else none
  | .Close _ => none

/-- Whether the pointer of the sink `k` is non-nil in the `Streamer`. -/
def Streamer.has (s : Streamer) : Sink → Bool
  | .kinesis => s.kinesisStreamer
  | .pubsub => s.pubsubStreamer
  | .stackdriver => s.stackdriverStreamer

/-- The encoding of a record, when `json.Marshal` gives one. -/
def Env.encode {E : Type} (env : Env E) (record : Record) : Option Bytes :=
  match env.Marshal record with
  | .ok encodedRecord => some encodedRecord
  | .error _ => none

/-- The encodings, in order, of the records that match no rule and can be
encoded. -/
def survivors {E : Type} (env : Env E) (eventFilters : List EventFilter)
    (records : List Record) : List Bytes :=
  (records.filter (fun record => !doFiltersMatch eventFilters record)).filterMap env.encode

/-! ## The SNS handler -/

/-- `SNSHandler` on the messages of the records of an SNS event;
`unmarshalEvent` is `json.Unmarshal([]byte(snsRecord.SNS.Message), &s3Event)`,
giving the records of the S3 event.  The S3 events it hands to `S3Handler`,
in order, and how the invocation ends: an invocation of `S3Handler` that
never returns keeps `SNSHandler` from returning. -/
def SNSHandler.run {E : Type} (env : Env E)
    (unmarshalEvent : Str → Except E (List S3EventRecord))
    (globalConfig : Config) (messages : List Str) : List (List S3EventRecord) × Outcome E :=
  match messages with
  | [] => ([], .returned none)
  | message :: rest =>
    match unmarshalEvent message with
    | .error err => ([], .returned (some err))
    | .ok s3Event =>
      match S3Handler env globalConfig s3Event with
      | .returned none =>
        let r := SNSHandler.run env unmarshalEvent globalConfig rest
        (s3Event :: r.1, r.2)
      | .returned (some err) => ([s3Event], .returned (some err))
      | .blocked => ([s3Event], .blocked)
      | .crashed => ([s3Event], .crashed)

/-- `SNSHandler`: how the invocation ends. -/
def SNSHandler {E : Type} (env : Env E) (unmarshalEvent : Str → Except E (List S3EventRecord))
    (globalConfig : Config) (messages : List Str) : Outcome E :=
  (SNSHandler.run env unmarshalEvent globalConfig messages).2

/-- The S3 events `SNSHandler` hands to `S3Handler`, in order. -/
def SNSHandler.handed {E : Type} (env : Env E)
    (unmarshalEvent : Str → Except E (List S3EventRecord))
    (globalConfig : Config) (messages : List Str) : List (List S3EventRecord) :=
  (SNSHandler.run env unmarshalEvent globalConfig messages).1

/-! ## Start-up configuration -/

/-- The errors `Config.init` returns, one for each `fmt.Errorf`. -/
inductive InitError where
  /-- `CT_EVENT_TYPE is set to an invalid value` -/
  | eventType
  /-- `At least one of CT_KINESIS_STREAM, CT_TOPIC_ID, or CT_STACKDRIVER_NAME must be set` -/
  | noSink
  /-- `CT_KINESIS_REGION must be set` -/
  | kinesisRegion
  /-- `CT_KINESIS_BATCH_SIZE must be set to a value inbetween 1 and 500` -/
  | batchSize
  /-- `CT_PROJECT_ID must be set` -/
  | projectId
deriving DecidableEq, Repr

/-- How a part of `Config.init` stops it: it returns an error, or the process
exits in `log.Fatalf`. -/
inductive InitStop where
  | error (err : InitError)
  | fatal
deriving DecidableEq, Repr

/-- How `Config.init` ends: it returns `nil` with the configuration filled,
it is stopped, or `session.Must` panics. -/
inductive InitResult where
  | ok (c : Config)
  | stopped (stop : InitStop)
  | panicked

/-- What `Config.init` reads from outside: the environment, `strconv.Atoi`
(`none` for its error), and whether creating the AWS session, reading the GCP
credentials and creating the two GCP clients succeed. -/
structure Os where
  Getenv : Str → Str
  Atoi : Str → Option Int
  NewSession : Bool
  getGcpCredentials : Bool
  NewPubsubClient : Bool
  NewStackdriverClient : Bool

/-- The Kinesis part of `Config.init`: the batch size starts at 500; with a
stream name set, the region must be set and a batch size option, when
present, is converted by `strconv.Atoi` (`log.Fatalf` on its error) and must
lie in 1..500. -/
def Config.initBatchSize (os : Os) (awsKinesisStream : Str) : Except InitStop Int :=
  let awsKinesisRegion := os.Getenv "CT_KINESIS_REGION".toList
  let batchSize := os.Getenv "CT_KINESIS_BATCH_SIZE".toList
  if awsKinesisStream ≠ [] then
    if awsKinesisRegion = [] then .error (.error .kinesisRegion)
    else if batchSize ≠ [] then
      match os.Atoi batchSize with
      | none => .error .fatal
      | some n => if n ≤ 0 ∨ n > 500 then .error (.error .batchSize) else .ok n
    else .ok 500
  else .ok 500

/-- The GCP part of `Config.init`; `none` when it goes through. -/
def Config.initGcp (os : Os) (gcpTopicId gcpStackdriverName : Str) : Option InitStop :=
  if gcpTopicId ≠ [] ∨ gcpStackdriverName ≠ [] then
    if os.Getenv "CT_PROJECT_ID".toList = [] then some (.error .projectId)
    else if !os.getGcpCredentials then some .fatal
    else if gcpTopicId ≠ [] ∧ !os.NewPubsubClient then some .fatal
    else if gcpStackdriverName ≠ [] ∧ !os.NewStackdriverClient then some .fatal
    else none
  else none

/-- `Config.init`, the fields of `Config` that are read later being kept. -/
def Config.init (os : Os) : InitResult :=
  if !os.NewSession then .panicked
  else
    let eventType :=
      if os.Getenv "CT_EVENT_TYPE".toList ≠ [] then os.Getenv "CT_EVENT_TYPE".toList
      else "S3".toList
    if eventType ≠ "S3".toList ∧ eventType ≠ "SNS".toList then .stopped (.error .eventType)
    else
      let filters := os.Getenv "CT_EVENT_FILTERS".toList
      let eventFilters := if filters ≠ [] then parseFilters filters else []
      let awsKinesisStream := os.Getenv "CT_KINESIS_STREAM".toList
      let gcpTopicId := os.Getenv "CT_TOPIC_ID".toList
      let gcpStackdriverName := os.Getenv "CT_STACKDRIVER_NAME".toList
      if awsKinesisStream = [] ∧ gcpTopicId = [] ∧ gcpStackdriverName = [] then
        .stopped (.error .noSink)
      else
        match Config.initBatchSize os awsKinesisStream with
        | .error stop => .stopped stop
        | .ok awsKinesisBatchSize =>
          match Config.initGcp os gcpTopicId gcpStackdriverName with
          | some stop => .stopped stop
          | none =>
            .ok { awsKinesisStream := awsKinesisStream
                  awsKinesisBatchSize := awsKinesisBatchSize
                  gcpTopicId := gcpTopicId
                  gcpStackdriverName := gcpStackdriverName
                  eventFilters := eventFilters }

/-- What a call of the handler puts on the worker's channels. -/
def Call.toMsg : Call → Option Msg
  | .Send .kinesis record => some (.item record)
  | .Close .kinesis => some .quit
  | _ => none

/-! ## A small event for the examples -/

/-- A record with an event name and an event source. -/
def sampleRecord : Record :=
  [("eventName".toList, .string "PutObject".toList),
   ("eventSource".toList, .string "s3.amazonaws.com".toList)]

/-- Collaborators for the examples: the object under the key `bad` holds
bytes that `json.Unmarshal` refuses, every other object decodes to the one
record `sampleRecord`, encoded as the byte `1`; `put` is the Kinesis client. -/
def sampleEnv (put : PutRecords String) : Env String :=
  { GetObject := fun _ _ objectKey =>
      .ok { ContentType := none, Body := if objectKey = "bad".toList then [0] else [1] }
    gzipNewReader := fun _ => none
    ReadFrom := fun _ body => .ok body
    Unmarshal := fun blob =>
      if blob = [1] then .ok { Records := [sampleRecord] }
      else .error "invalid character".toList.asString
    Marshal := fun _ => .ok [1]
    PutRecords := put }

/-- A configuration with the batching sink alone and no filter. -/
def sampleConfig (batchSize : Int) : Config :=
  { awsKinesisStream := "stream".toList
    awsKinesisBatchSize := batchSize
    gcpTopicId := []
    gcpStackdriverName := []
    eventFilters := [] }

/-- The reference of an object in an S3 event. -/
def sampleObject (objectKey : String) : S3EventRecord :=
  { AWSRegion := "us-west-2".toList, Bucket := "logs".toList, Key := objectKey.toList }

/-- An environment for the examples: the batching sink alone, with its
region, and the given batch size option; `strconv.Atoi` reads the options
`0`, `200` and `501`. -/
def sampleOs (batchSize : String) : Os :=
  { Getenv := fun name =>
      if name = "CT_KINESIS_STREAM".toList then "stream".toList
      else if name = "CT_KINESIS_REGION".toList then "us-west-2".toList
      else if name = "CT_KINESIS_BATCH_SIZE".toList then batchSize.toList
      else []
    Atoi := fun s =>
      if s = "0".toList then some 0
      else if s = "200".toList then some 200
      else if s = "501".toList then some 501
      else none
    NewSession := true
    getGcpCredentials := true
    NewPubsubClient := true
    NewStackdriverClient := true }

/-- The `Streamer` with the batching sink alone. -/
def Streamer.batchingOnly : Streamer :=
  { kinesisStreamer := true, pubsubStreamer := false, stackdriverStreamer := false }

end CloudTrailStreamer

/-!
# common: alerts and their stored state

A shallow embedding of `common/alert.go` and of `StateToAlert` and
`AlertToState` in `common/db.go`.

* A Go string is the list of its bytes, because `encoding/json` treats bytes
  that are not valid UTF-8 in its own way.
* `[]*AlertMeta` is a slice of pointers: the `AlertMeta` values live in a
  heap, an entry of the slice is nil or an address, and the functions that
  write through a pointer or allocate take the heap and return it.  A nil
  slice and an empty slice are kept apart.  The pointer to the alert itself,
  the receiver of the methods and the argument of `AlertToState`, is taken to
  be non-nil.
* `encoding/json` and `time` are outside the repository and are embedded as
  documented, for Go 1.20 and later.  The `State` string is a JSON document;
  it is represented by the value tree it spells, the encoder's text and the
  decoder's reading of that text being inverse to each other, so that a
  string of the tree is the text between its quotes as it is read, with no
  escapes left.  The mapping between `Alert` and that tree follows the `json`
  tags of the struct and the behaviour of `json.Marshal` and
  `json.Unmarshal`, the latter decoding into the values that are there when
  a member comes twice.
* A `time.Time` is its instant and the offset of its location.  Its JSON text
  is written by `Time.MarshalJSON` and read by `parseRFC3339`; what
  `time.Parse` makes of a text that is not RFC 3339 is a parameter.
-/

namespace Common

/-- Go `string`, as its bytes. -/
abbrev GoString := List UInt8

/-- A string literal of ASCII characters. -/
def ascii (s : String) : GoString :=
  s.toList.map (fun c => c.toNat.toUInt8)

/-- `AlertMeta`. -/
structure AlertMeta where
  Key : GoString
  Value : GoString
deriving DecidableEq, Repr

/-- The `AlertMeta` values that pointers point to: the value at the address
`i` is the entry `i` of the list, and `&AlertMeta{...}` takes the next
address. -/
abbrev Heap := List AlertMeta

/-- `*AlertMeta`: `none` is nil, `some i` is the address `i`. -/
abbrev Ptr := Option Nat

/-- The value a pointer points to, `none` for nil.  Go forms no address but
that of a value; an address outside the heap is read like nil. -/
def deref (h : Heap) (p : Ptr) : Option AlertMeta :=
  match p with
  | none => none
  | some i => h[i]?

/-- `time.Time`: the instant, in nanoseconds since January 1 of year 1,
00:00:00 UTC, and the offset, in seconds east of UTC, that the location of
the value has at that instant.  The reading of the monotonic clock and the
name of the zone, which `MarshalJSON` does not write, are left out. -/
structure Time where
  ns : Int
  offset : Int
deriving DecidableEq, Repr

/-- `Alert`.  `Metadata` is a slice of pointers, `none` being the nil slice. -/
structure Alert where
  Id : GoString
  Severity : GoString
  Category : GoString
  Summary : GoString
  Payload : GoString
  Metadata : Option (List Ptr)
  Timestamp : Time
deriving DecidableEq, Repr

/-- The elements `range a.Metadata` goes through. -/
def Alert.entries (a : Alert) : List Ptr :=
  a.Metadata.getD []

/-- The loop of `IsStatus`; `none` is the run-time panic of `am.Key` on a nil
`am`. -/
def isStatusIn (h : Heap) (metadata : List Ptr) (s : GoString) : Option Bool :=
  match metadata with
  | [] => some false
  | p :: rest =>
    match deref h p with
    | none => none
    | some am =>
      if am.Key = ascii "status" then some (decide (am.Value = s)) else isStatusIn h rest s

/-- `Alert.IsStatus`; `none` is a run-time panic. -/
def Alert.IsStatus (a : Alert) (h : Heap) (s : GoString) : Option Bool :=
  isStatusIn h a.entries s

/-- The loop of `GetMetadata`; `[]` is the empty string returned at the end,
`none` is the run-time panic of `am.Key` on a nil `am`. -/
def getMetadataIn (h : Heap) (metadata : List Ptr) (key : GoString) : Option GoString :=
  match metadata with
  | [] => some []
  | p :: rest =>
    match deref h p with
    | none => none
    | some am => if am.Key = key then some am.Value else getMetadataIn h rest key

/-- `Alert.GetMetadata`; `none` is a run-time panic. -/
def Alert.GetMetadata (a : Alert) (h : Heap) (key : GoString) : Option GoString :=
  getMetadataIn h a.entries key

/-- How the loop of `SetMetadata` ends. -/
inductive SetLoop where
  /-- `am.Value = value; return`, with the heap after the assignment -/
  | assigned (h : Heap)
  /-- the loop ended without a `return` -/
  | ended
  /-- run-time panic: `am.Key` on a nil `am` -/
  | panicked
deriving DecidableEq, Repr

/-- The loop of `SetMetadata`: the assignment `am.Value = value` writes
through the pointer. -/
def setMetadataIn (h : Heap) (metadata : List Ptr) (key value : GoString) : SetLoop :=
  match metadata with
  | [] => .ended
  | p :: rest =>
    match p, deref h p with
    | some i, some am =>
      if am.Key = key then .assigned (h.set i { am with Value := value })
      else setMetadataIn h rest key value
    | _, _ => .panicked

/-- `Alert.SetMetadata`: the heap and the alert after the call, `none` for a
run-time panic.  `&AlertMeta{Key: key, Value: value}` is a new value, at the
next address. -/
def Alert.SetMetadata (a : Alert) (h : Heap) (key value : GoString) :
    Option (Heap × Alert) :=
  match setMetadataIn h a.entries key value with
  | .assigned h' => some (h', a)
  | .ended =>
    some (h ++ [{ Key := key, Value := value }],
      { a with Metadata := some (a.entries ++ [some h.length]) })
  | .panicked => none

/-- Every entry of a metadata list is non-nil. -/
@[reducible] def NonNil (h : Heap) (metadata : List Ptr) : Prop :=
  ∀ p ∈ metadata, (deref h p).isSome = true

/-- What a loop over the metadata finds for a key. -/
inductive Found where
  /-- the first entry with that key -/
  | entry (am : AlertMeta)
  /-- no entry has that key -/
  | absent
  /-- run-time panic: a nil entry comes before any entry with that key -/
  | panicked
deriving DecidableEq, Repr

/-- The search the three loops of `alert.go` have in common; it is used to
state their properties. -/
def findIn (h : Heap) (metadata : List Ptr) (key : GoString) : Found :=
  match metadata with
  | [] => .absent
  | p :: rest =>
    match deref h p with
    | none => .panicked
    | some am => if am.Key = key then .entry am else findIn h rest key

/-- The metadata list by value: what each entry points to, `none` for a nil
entry. -/
def values (h : Heap) (metadata : List Ptr) : List (Option AlertMeta) :=
  metadata.map (deref h)

/-! ## UTF-8, as `encoding/json` reads and writes it -/

/-- The replacement character U+FFFD, `utf8.RuneError`. -/
def runeError : Char := Char.ofNat 0xFFFD

/-- Whether a byte is a continuation byte, `0x80..0xBF`. -/
def isCont (b : UInt8) : Bool := 0x80 ≤ b.toNat && b.toNat ≤ 0xBF

/-- `utf8.DecodeRune`: the first rune of the bytes and the number of bytes it
takes; bytes that do not start a valid encoding give `utf8.RuneError` and the
width 1. -/
def decodeRune : GoString → Char × Nat
  | [] => (runeError, 0)
  | b0 :: rest =>
    let n0 := b0.toNat
    if n0 < 0x80 then (Char.ofNat n0, 1)
    else if 0xC2 ≤ n0 ∧ n0 ≤ 0xDF then
      match rest with
      | b1 :: _ =>
        if isCont b1 then (Char.ofNat ((n0 % 32) * 64 + b1.toNat % 64), 2) else (runeError, 1)
      | _ => (runeError, 1)
    else if 0xE0 ≤ n0 ∧ n0 ≤ 0xEF then
      match rest with
      | b1 :: b2 :: _ =>
        let lo := if n0 = 0xE0 then 0xA0 else 0x80
        let hi := if n0 = 0xED then 0x9F else 0xBF
        if lo ≤ b1.toNat ∧ b1.toNat ≤ hi ∧ isCont b2 then
          (Char.ofNat ((n0 % 16) * 4096 + (b1.toNat % 64) * 64 + b2.toNat % 64), 3)
        else (runeError, 1)
      | _ => (runeError, 1)
    else if 0xF0 ≤ n0 ∧ n0 ≤ 0xF4 then
      match rest with
      | b1 :: b2 :: b3 :: _ =>
        let lo := if n0 = 0xF0 then 0x90 else 0x80
        let hi := if n0 = 0xF4 then 0x8F else 0xBF
        if lo ≤ b1.toNat ∧ b1.toNat ≤ hi ∧ isCont b2 ∧ isCont b3 then
          (Char.ofNat ((n0 % 8) * 262144 + (b1.toNat % 64) * 4096 + (b2.toNat % 64) * 64
            + b3.toNat % 64), 4)
        else (runeError, 1)
      | _ => (runeError, 1)
    else (runeError, 1)

/-- The text `json.Marshal` writes for a Go string, rune by rune: each byte
that does not start a valid encoding becomes U+FFFD.  The first argument
bounds the number of runes. -/
def decodeLossyAux : Nat → GoString → List Char
  | 0, _ => []
  | fuel + 1, bs =>
    match bs with
    | [] => []
    | _ :: _ => (decodeRune bs).1 :: decodeLossyAux fuel (bs.drop (decodeRune bs).2)

/-- The text `json.Marshal` writes for a Go string. -/
def decodeLossy (s : GoString) : List Char :=
  decodeLossyAux s.length s

/-- The UTF-8 encoding of one character. -/
def encodeChar (c : Char) : GoString :=
  let n := c.toNat
  if n < 0x80 then [n.toUInt8]
  else if n < 0x800 then [(0xC0 + n / 64).toUInt8, (0x80 + n % 64).toUInt8]
  else if n < 0x10000 then
    [(0xE0 + n / 4096).toUInt8, (0x80 + n / 64 % 64).toUInt8, (0x80 + n % 64).toUInt8]
  else
    [(0xF0 + n / 262144).toUInt8, (0x80 + n / 4096 % 64).toUInt8, (0x80 + n / 64 % 64).toUInt8,
      (0x80 + n % 64).toUInt8]

/-- The Go string `json.Unmarshal` stores for a JSON string. -/
def encodeText (text : List Char) : GoString :=
  text.flatMap encodeChar

/-- What a Go string is after `json.Marshal` and `json.Unmarshal`. -/
def toValidUTF8 (s : GoString) : GoString :=
  encodeText (decodeLossy s)

/-- The loop of `utf8.Valid`: whether the bytes are a sequence of well-formed
UTF-8 byte sequences, those of Table 3-7 of the Unicode standard.  The first
argument bounds the number of sequences. -/
def validAux : Nat → GoString → Bool
  | 0, bs => bs.isEmpty
  | fuel + 1, bs =>
    match bs with
    | [] => true
    | b0 :: rest =>
      if b0.toNat < 0x80 then validAux fuel rest
      else if 0xC2 ≤ b0.toNat ∧ b0.toNat ≤ 0xDF then
        match rest with
        | b1 :: rest1 => isCont b1 && validAux fuel rest1
        | _ => false
      else if 0xE0 ≤ b0.toNat ∧ b0.toNat ≤ 0xEF then
        match rest with
        | b1 :: b2 :: rest2 =>
          decide ((if b0.toNat = 0xE0 then 0xA0 else 0x80) ≤ b1.toNat) &&
          decide (b1.toNat ≤ (if b0.toNat = 0xED then 0x9F else 0xBF)) &&
          isCont b2 && validAux fuel rest2
        | _ => false
      else if 0xF0 ≤ b0.toNat ∧ b0.toNat ≤ 0xF4 then
        match rest with
        | b1 :: b2 :: b3 :: rest3 =>
          decide ((if b0.toNat = 0xF0 then 0x90 else 0x80) ≤ b1.toNat) &&
          decide (b1.toNat ≤ (if b0.toNat = 0xF4 then 0x8F else 0xBF)) &&
          isCont b2 && isCont b3 && validAux fuel rest3
        | _ => false
      else false

/-- `utf8.Valid`. -/
def validUTF8 (s : GoString) : Bool :=
  validAux s.length s

/-- A Go string is valid UTF-8. -/
@[reducible] def ValidUTF8 (s : GoString) : Prop :=
  validUTF8 s = true

/-! ## `time.Time` and its JSON text -/

/-- `isLeap`. -/
def isLeap (year : Int) : Bool :=
  decide (year % 4 = 0 ∧ (year % 100 ≠ 0 ∨ year % 400 = 0))

/-- `daysBefore`: the days of a non-leap year before each month, and 365. -/
def daysBefore : List Nat :=
  [0, 31, 59, 90, 120, 151, 181, 212, 243, 273, 304, 334, 365]

/-- `daysIn`: the number of days of a month of the year. -/
def daysIn (month : Nat) (year : Int) : Nat :=
  if month = 2 ∧ isLeap year = true then 29
  else daysBefore.getD month 0 - daysBefore.getD (month - 1) 0

/-- The days from January 1 of year 1 to January 1 of the year. -/
def daysSinceEpoch (year : Int) : Int :=
  365 * (year - 1) + (year - 1) / 4 - (year - 1) / 100 + (year - 1) / 400

/-- The month and the day of the month of the day `yday` of a year, counted
from 0, as `absDate` finds them. -/
def monthDay (leap : Bool) (yday : Nat) : Nat × Nat :=
  if leap = true ∧ yday = 31 + 29 - 1 then (2, 29)
  else
    let day := if leap = true ∧ yday > 31 + 29 - 1 then yday - 1 else yday
    let month := day / 31
    if day ≥ daysBefore.getD (month + 1) 0 then
      (month + 2, day - daysBefore.getD (month + 1) 0 + 1)
    else (month + 1, day - daysBefore.getD month 0 + 1)

/-- `absDate`: the year, the month and the day of the month of a day counted
from January 1 of year 1. -/
def absDate (days : Int) : Int × Nat × Nat :=
  let n400 := days / 146097
  let d1 := days % 146097
  let n100 := d1 / 36524 - d1 / 36524 / 4
  let d2 := d1 - 36524 * n100
  let n4 := d2 / 1461
  let d3 := d2 - 1461 * n4
  let n1 := d3 / 365 - d3 / 365 / 4
  let yday := d3 - 365 * n1
  let year := 400 * n400 + 100 * n100 + 4 * n4 + n1 + 1
  (year, monthDay (isLeap year) yday.toNat)

/-- `time.Date` in UTC for a date and a clock reading that are in range: the
seconds since January 1 of year 1, 00:00:00 UTC. -/
def Date (year : Int) (month day hour min sec : Nat) : Int :=
  (daysSinceEpoch year + daysBefore.getD (month - 1) 0
      + (if isLeap year = true ∧ month ≥ 3 then 1 else 0) + (day - 1 : Nat)) * 86400
    + hour * 3600 + min * 60 + sec

/-! ### The RFC 3339 text of a time -/

/-- The decimal digit of the units of a number. -/
def digit (n : Nat) : Char := Char.ofNat (48 + n % 10)

/-- `appendInt` for a number that fits the width: its digits, with leading
zeros. -/
def digitsOf : Nat → Nat → List Char
  | 0, _ => []
  | width + 1, n => digitsOf width (n / 10) ++ [digit n]

/-- Whether a character is a decimal digit. -/
def isDigit (c : Char) : Bool := decide (48 ≤ c.toNat ∧ c.toNat ≤ 57)

/-- The number a sequence of digits spells. -/
def valueOf (cs : List Char) : Nat :=
  cs.foldl (fun x c => x * 10 + (c.toNat - 48)) 0

/-- The text without its zeros at the end. -/
def trimZeros (cs : List Char) : List Char :=
  (cs.reverse.dropWhile (fun c => c = '0')).reverse

/-- `appendNano` as `RFC3339Nano` uses it: a dot and the nine digits of the
nanoseconds without the zeros at the end, nothing at all for zero. -/
def appendNano (nanosec : Nat) : List Char :=
  if nanosec = 0 then [] else '.' :: trimZeros (digitsOf 9 nanosec)

/-- The year of a time in its location. -/
def Time.Year (t : Time) : Int :=
  (absDate ((t.ns / 1000000000 + t.offset) / 86400)).1

/-- `Time.MarshalJSON` without the quotes: the text in the layout
`RFC3339Nano`, `none` for its errors, a year outside 0..9999 or an offset of
24 hours or more.  The offset is written in hours and minutes, its seconds
are dropped. -/
def Time.MarshalJSON (t : Time) : Option (List Char) :=
  let abs := t.ns / 1000000000 + t.offset
  let date := absDate (abs / 86400)
  let clock := (abs % 86400).toNat
  let zone := (Int.tdiv t.offset 60).natAbs
  if date.1 < 0 ∨ 9999 < date.1 then none
  else if t.offset ≠ 0 ∧ 24 ≤ zone / 60 then none
  else
    some (digitsOf 4 date.1.toNat ++ '-' :: digitsOf 2 date.2.1 ++ '-' :: digitsOf 2 date.2.2
      ++ 'T' :: digitsOf 2 (clock / 3600) ++ ':' :: digitsOf 2 (clock % 3600 / 60)
      ++ ':' :: digitsOf 2 (clock % 60) ++ appendNano (t.ns % 1000000000).toNat
      ++ (if t.offset = 0 then ['Z']
          else (if Int.tdiv t.offset 60 < 0 then '-' else '+') :: digitsOf 2 (zone / 60)
            ++ ':' :: digitsOf 2 (zone % 60)))

/-- `parseUint` of `parseRFC3339`: the number the characters spell, when they
are digits and the number is in the range. -/
def parseUint (cs : List Char) (min max : Nat) : Option Nat :=
  if cs.all isDigit = true ∧ min ≤ valueOf cs ∧ valueOf cs ≤ max then some (valueOf cs) else none

/-- The date and the clock reading at the start of an RFC 3339 text, as
seconds since January 1 of year 1, 00:00:00. -/
def parseDateTime (cs : List Char) : Option Int :=
  match cs with
  | [y1, y2, y3, y4, c4, m1, m2, c7, d1, d2, c10, h1, h2, c13, n1, n2, c16, s1, s2] =>
    match parseUint [y1, y2, y3, y4] 0 9999, parseUint [m1, m2] 1 12 with
    | some year, some month =>
      match parseUint [d1, d2] 1 (daysIn month year), parseUint [h1, h2] 0 23,
        parseUint [n1, n2] 0 59, parseUint [s1, s2] 0 59 with
      | some day, some hour, some min, some sec =>
        if c4 = '-' ∧ c7 = '-' ∧ c10 = 'T' ∧ c13 = ':' ∧ c16 = ':' then
          some (Date year month day hour min sec)
        else none
      | _, _, _, _ => none
    | _, _ => none
  | _ => none

/-- The fractional second after the clock reading, in nanoseconds, and the
text that follows it: a dot and digits, of which the first nine count. -/
def parseFrac (cs : List Char) : Nat × List Char :=
  match cs with
  | '.' :: c :: rest =>
    if isDigit c = true then
      (valueOf (((c :: rest).takeWhile isDigit).take 9)
          * 10 ^ (9 - (((c :: rest).takeWhile isDigit).take 9).length),
        (c :: rest).dropWhile isDigit)
    else (0, cs)
  | _ => (0, cs)

/-- The zone at the end of an RFC 3339 text, `Z` or a sign, hours, a colon
and minutes: the time it makes of the seconds read so far. -/
def parseZone (utc : Int) (nsec : Nat) (cs : List Char) : Option Time :=
  match cs with
  | ['Z'] => some { ns := utc * 1000000000 + nsec, offset := 0 }
  | [sign, z1, z2, c3, z4, z5] =>
    match parseUint [z1, z2] 0 23, parseUint [z4, z5] 0 59 with
    | some hr, some mm =>
      if (sign = '-' ∨ sign = '+') ∧ c3 = ':' then
        let zoneOffset : Int := if sign = '-' then -(((hr * 60 + mm) * 60 : Nat) : Int)
          else (((hr * 60 + mm) * 60 : Nat) : Int)
        some { ns := (utc - zoneOffset) * 1000000000 + nsec, offset := zoneOffset }
      else none
    | _, _ => none
  | _ => none

/-- `parseRFC3339`: the time an RFC 3339 text spells. -/
def parseRFC3339 (text : List Char) : Option Time :=
  match parseDateTime (text.take 19) with
  | none => none
  | some utc => parseZone utc (parseFrac (text.drop 19)).1 (parseFrac (text.drop 19)).2

/-- What `time.Parse` reads, in the layout `RFC3339`, of the texts that are
not RFC 3339. -/
structure TimeLib where
  Parse : List Char → Option Time

/-- `Time.UnmarshalJSON` on the text between the quotes of a JSON string. -/
def Time.UnmarshalJSON (lib : TimeLib) (text : List Char) : Option Time :=
  match parseRFC3339 text with
  | some t => some t
  | none => lib.Parse text

/-- `Time.Equal`: the same instant. -/
def Time.Equal (t u : Time) : Bool := decide (t.ns = u.ns)

/-- A time is representable in JSON when its year is in 0..9999 and the
offset of its location is of whole minutes and of less than 24 hours. -/
@[reducible] def Time.Representable (t : Time) : Prop :=
  0 ≤ t.Year ∧ t.Year ≤ 9999 ∧ t.offset % 60 = 0 ∧ -86400 < t.offset ∧ t.offset < 86400

/-! ## The JSON document of an alert -/

/-- A JSON value; a number is kept as the bits of its `float64`. -/
inductive JSON where
  | null
  | bool (b : Bool)
  | number (float64bits : Nat)
  | string (text : List Char)
  | array (elements : List JSON)
  | object (members : List (List Char × JSON))

/-- `StateField`: the `State` string, as the JSON document it spells, `none`
when it spells none. -/
structure StateField where
  State : Option JSON

/-- The errors of the two conversions. -/
inductive CodecError where
  /-- `json.Marshal` failed: `Time.MarshalJSON` returned an error -/
  | marshal
  /-- `json.Unmarshal` failed: the string is not a JSON document, a value has
  the wrong JSON type, or `Time.UnmarshalJSON` refuses the text -/
  | unmarshal
deriving DecidableEq, Repr

/-- `json.Marshal` of an `AlertMeta`, by its `json` tags. -/
def AlertMeta.toJSON (am : AlertMeta) : JSON :=
  .object [("key".toList, .string (decodeLossy am.Key)),
           ("value".toList, .string (decodeLossy am.Value))]

/-- `json.Marshal` of an element of `Metadata`: `null` for a nil pointer. -/
def elementToJSON (h : Heap) (p : Ptr) : JSON :=
  match deref h p with
  | none => .null
  | some am => am.toJSON

/-- `json.Marshal` of an `Alert`, by its `json` tags: `null` for a nil
`Metadata`, `none` when `Time.MarshalJSON` returns an error. -/
def Alert.toJSON (h : Heap) (a : Alert) : Option JSON :=
  match a.Timestamp.MarshalJSON with
  | none => none
  | some text =>
    some (.object
      [("id".toList, .string (decodeLossy a.Id)),
       ("severity".toList, .string (decodeLossy a.Severity)),
       ("category".toList, .string (decodeLossy a.Category)),
       ("summary".toList, .string (decodeLossy a.Summary)),
       ("payload".toList, .string (decodeLossy a.Payload)),
       ("metadata".toList,
        match a.Metadata with
        | none => .null
        | some entries => .array (entries.map (elementToJSON h))),
       ("timestamp".toList, .string text)])

/-- `AlertToState`. -/
def AlertToState (h : Heap) (a : Alert) : Except CodecError StateField :=
  match a.toJSON h with
  | none => .error .marshal
  | some buf => .ok { State := some buf }

/-- The name of a member as `json.Unmarshal` compares it with a tag: letters
in lower case, the Kelvin sign as `k` and the long s as `s`. -/
def foldName (name : List Char) : List Char :=
  name.map (fun c =>
    if c = Char.ofNat 0x212A then 'k'
    else if c = Char.ofNat 0x17F then 's'
    else if 'A' ≤ c ∧ c ≤ 'Z' then Char.ofNat (c.toNat + 32)
    else c)

/-- `json.Unmarshal` into a `string` field: a JSON string is stored, `null`
leaves the field, every other value is an error. -/
def decodeString (v : JSON) (old : GoString) : Option GoString :=
  match v with
  | .string text => some (encodeText text)
  | .null => some old
  | _ => none

/-- `json.Unmarshal` of one member into an `AlertMeta`. -/
def AlertMeta.setMember (am : AlertMeta) (member : List Char × JSON) : Option AlertMeta :=
  if foldName member.1 = "key".toList then
    (decodeString member.2 am.Key).map (fun s => { am with Key := s })
  else if foldName member.1 = "value".toList then
    (decodeString member.2 am.Value).map (fun s => { am with Value := s })
  else some am

/-- The members of an object taken in turn. -/
def foldMembers {α : Type} (set : α → List Char × JSON → Option α) :
    List (List Char × JSON) → α → Option α
  | [], a => some a
  | member :: rest, a =>
    match set a member with
    | none => none
    | some a' => foldMembers set rest a'

/-- `json.Unmarshal` into an element of `[]*AlertMeta` that holds the pointer
`p`: `null` makes the element nil; an object is decoded into the value `p`
points to, or into a new `AlertMeta` when `p` is nil; every other value is an
error.  The heap after it and the pointer the element holds. -/
def decodeElement (h : Heap) (p : Ptr) (v : JSON) : Option (Heap × Ptr) :=
  match v with
  | .null => some (h, none)
  | .object members =>
    match p, deref h p with
    | some i, some am =>
      (foldMembers AlertMeta.setMember members am).map (fun am' => (h.set i am', some i))
    | _, _ =>
      (foldMembers AlertMeta.setMember members { Key := [], Value := [] }).map
        (fun am' => (h ++ [am'], some h.length))
  | _ => none

/-- The elements of a JSON array decoded in turn into the elements of the
backing array of the slice, a slice grown at its end holding nil there.  The
heap after it and the pointers of the slice. -/
def decodeElements (h : Heap) (backing : List Ptr) (elements : List JSON) :
    Option (Heap × List Ptr) :=
  match elements with
  | [] => some (h, [])
  | v :: rest =>
    match decodeElement h (backing.headD none) v with
    | none => none
    | some (h1, p) =>
      match decodeElements h1 backing.tail rest with
      | none => none
      | some (h2, ps) => some (h2, p :: ps)

/-- `json.Unmarshal` at work on `var alert Alert`: the heap, the alert as
filled so far, and the pointers its `Metadata` has left in its backing array
beyond its length. -/
structure Decoding where
  heap : Heap
  alert : Alert
  spare : List Ptr

/-- `json.Unmarshal` of one member into an `Alert`.  An array for `metadata`
is decoded into the elements the backing array holds, the slice being cut or
grown to the length of the array; an empty array gives a new empty slice,
`null` the nil slice. -/
def Alert.setMember (lib : TimeLib) (d : Decoding) (member : List Char × JSON) :
    Option Decoding :=
  if foldName member.1 = "id".toList then
    (decodeString member.2 d.alert.Id).map
      (fun s => { d with alert := { d.alert with Id := s } })
  else if foldName member.1 = "severity".toList then
    (decodeString member.2 d.alert.Severity).map
      (fun s => { d with alert := { d.alert with Severity := s } })
  else if foldName member.1 = "category".toList then
    (decodeString member.2 d.alert.Category).map
      (fun s => { d with alert := { d.alert with Category := s } })
  else if foldName member.1 = "summary".toList then
    (decodeString member.2 d.alert.Summary).map
      (fun s => { d with alert := { d.alert with Summary := s } })
  else if foldName member.1 = "payload".toList then
    (decodeString member.2 d.alert.Payload).map
      (fun s => { d with alert := { d.alert with Payload := s } })
  else if foldName member.1 = "metadata".toList then
    match member.2 with
    | .null => some { d with alert := { d.alert with Metadata := none }, spare := [] }
    | .array elements =>
      match decodeElements d.heap (d.alert.entries ++ d.spare) elements with
      | none => none
      | some (h, ps) =>
        some { heap := h
               alert := { d.alert with Metadata := some ps }
               spare := if elements.isEmpty then []
                 else (d.alert.entries ++ d.spare).drop elements.length }
    | _ => none
  else if foldName member.1 = "timestamp".toList then
    match member.2 with
    | .null => some d
    | .string text =>
      (Time.UnmarshalJSON lib text).map
        (fun t => { d with alert := { d.alert with Timestamp := t } })
    | _ => none
  else some d

/-- The zero value `var alert Alert`. -/
def Alert.zero : Alert :=
  { Id := [], Severity := [], Category := [], Summary := [], Payload := [], Metadata := none,
    Timestamp := { ns := 0, offset := 0 } }

/-- `json.Unmarshal` into `var alert Alert`: an object fills the fields its
members name, `null` leaves the zero value, every other value is an error. -/
def Alert.fromJSON (lib : TimeLib) (h : Heap) (v : JSON) : Option Decoding :=
  match v with
  | .object members =>
    foldMembers (Alert.setMember lib) members { heap := h, alert := Alert.zero, spare := [] }
  | .null => some { heap := h, alert := Alert.zero, spare := [] }
  | _ => none

/-- `StateToAlert`: the heap after it and the alert. -/
def StateToAlert (lib : TimeLib) (h : Heap) (sf : StateField) :
    Except CodecError (Heap × Alert) :=
  match sf.State with
  | none => .error .unmarshal
  | some v =>
    match Alert.fromJSON lib h v with
    | none => .error .unmarshal
    | some d => .ok (d.heap, d.alert)

/-- The metadata of an alert by value, `none` for the nil slice. -/
def Alert.metadataValues (a : Alert) (h : Heap) : Option (List (Option AlertMeta)) :=
  a.Metadata.map (values h)

/-- What `json.Marshal` and `json.Unmarshal` make of the strings of an
`AlertMeta`. -/
def AlertMeta.coerced (am : AlertMeta) : AlertMeta :=
  { Key := toValidUTF8 am.Key, Value := toValidUTF8 am.Value }

/-! ## Alerts for the examples -/

/-- A `time.Parse` that reads no text but those of RFC 3339. -/
def strictTimeLib : TimeLib :=
  { Parse := fun _ => none }

/-- The metadata of the alert of `TestAlertDB`. -/
def testHeap : Heap :=
  [{ Key := ascii "status", Value := ascii "NEW" }, { Key := ascii "foo", Value := ascii "bar" }]

/-- The alert of `TestAlertDB`, with a summary that is not ASCII and the time
`2020-12-31T18:30:00.000000005-05:30`. -/
def testAlert : Alert :=
  { Id := ascii "1234567890", Severity := [], Category := [],
    Summary := [0xC3, 0xA9, 0xE2, 0x82, 0xAC, 0xF0, 0x9F, 0x98, 0x80], Payload := [],
    Metadata := some [some 0, some 1],
    Timestamp := { ns := 63745075800000000005, offset := -19800 } }

/-- An alert with one metadata entry, which is nil. -/
def nilEntryAlert : Alert :=
  { Id := [], Severity := [], Category := [], Summary := [], Payload := [],
    Metadata := some [none], Timestamp := { ns := 0, offset := 0 } }

/-- An alert whose `Id` is the single byte `0xff`, which is not valid UTF-8. -/
def badIdAlert : Alert :=
  { Id := [0xff], Severity := [], Category := [], Summary := [], Payload := [], Metadata := none,
    Timestamp := { ns := 0, offset := 0 } }

end Common

/-!
# auth0pull

A shallow embedding of `getLogs` and `Auth0Pull` in `auth0pull/auth0pull.go`.
The Auth0 log API, the datastore and the Stackdriver logger are outside the
repository and appear as parameters.
-/

namespace Auth0

/-- The field of `management.Log` that is read: `ID *string`. -/
structure Log where
  ID : Option String
deriving DecidableEq, Repr

/-- How `getLogs` ends. -/
inductive GetLogs (E : Type) where
  /-- `return collectedLogs, nil` -/
  | returned (logs : List Log)
  /-- `return nil, err` -/
  | failed (err : E)
  /-- run-time panic: the `ID` of the last log of a page is nil -/
  | panicked
  /-- the bound on the number of pages was reached -/
  | unfinished
deriving DecidableEq, Repr

/-- `getLogs`: `page` is `logClient.List` for a value of `from`; the first
argument bounds the number of pages asked for, the last is `collectedLogs`. -/
def getLogs {E : Type} (page : String → Except E (List Log)) :
    Nat → String → List Log → GetLogs E
  | 0, _, _ => .unfinished
  | fuel + 1, fromId, collectedLogs =>
    match page fromId with
    | .error err => .failed err
    | .ok logs =>
      if logs.length = 0 then .returned collectedLogs
      else
        match logs.getLast? with
        | some { ID := some id } => getLogs page fuel id (collectedLogs ++ logs)
        | _ => .panicked

/-- The collaborators of `Auth0Pull`. -/
structure Env (E : Type) where
  /-- `loadLastLogId`: the stored `LastLogId` -/
  loadLastLogId : Except E String
  /-- `logClient.List` for a value of `from` -/
  page : String → Except E (List Log)
  /-- `logger.Flush` after the given entries were logged -/
  Flush : List Log → Option E
  /-- `llid.save` with the given `LastLogId` -/
  save : String → Option E

/-- How `Auth0Pull` ends. -/
inductive Result (E : Type) where
  | returned (err : Option E)
  /-- run-time panic -/
  | panicked
  /-- `getLogs` did not end within the bound -/
  | unfinished
deriving DecidableEq, Repr

/-- An invocation of `Auth0Pull`: how it ends, the entries handed to
`logger.Log`, and the `LastLogId` that `llid.save` stored, if it did. -/
structure Run (E : Type) where
  result : Result E
  logged : List Log
  saved : Option String
deriving DecidableEq, Repr

/-- `Auth0Pull`; the first argument bounds the number of pages `getLogs` asks
for. -/
def Auth0Pull {E : Type} (env : Env E) (fuel : Nat) : Run E :=
  match env.loadLastLogId with
  | .error err => { result := .returned (some err), logged := [], saved := none }
  | .ok lastLogId =>
    match getLogs env.page fuel lastLogId [] with
    | .failed err => { result := .returned (some err), logged := [], saved := none }
    | .panicked => { result := .panicked, logged := [], saved := none }
    | .unfinished => { result := .unfinished, logged := [], saved := none }
    | .returned logs =>
      match env.Flush logs with
      | some err => { result := .returned (some err), logged := logs, saved := none }
      | none =>
        -- `llid.LastLogId = *logs[len(logs)-1].ID`
        match logs.getLast? with
        | none => { result := .panicked, logged := logs, saved := none }
        | some { ID := none } => { result := .panicked, logged := logs, saved := none }
        | some { ID := some id } =>
          match env.save id with
          | some err => { result := .returned (some err), logged := logs, saved := none }
          | none => { result := .returned none, logged := logs, saved := some id }

/-- The Auth0 tenant has no log after the stored id: the first page is empty. -/
def quietEnv : Env String :=
  { loadLastLogId := .ok "900"
    page := fun _ => .ok []
    Flush := fun _ => none
    save := fun _ => none }

/-- The Auth0 tenant has two logs after the stored id `900`. -/
def busyEnv : Env String :=
  { loadLastLogId := .ok "900"
    page := fun fromId =>
      if fromId = "900" then .ok [{ ID := some "901" }, { ID := some "902" }] else .ok []
    Flush := fun _ => none
    save := fun _ => none }

end Auth0

namespace CloudTrailStreamer

/-! ## Invariants -/

section Invariants

variable {E : Type}

/-- The loop invariant while every call succeeds: the worker is at its
`select`, the flushed batches followed by the buffer are the entries received,
every flushed batch has `b` entries, and the buffer holds fewer than `b`. -/
structure Worker.Inv (b : Nat) (w : Worker E) (es : List PutRecordsRequestEntry) : Prop where
  phase_eq : w.phase = .selecting
  concat_eq : w.puts.flatten ++ w.kRecordsBuf = es
  full : ∀ c ∈ w.puts, c.length = b
  short : w.kRecordsBuf.length < b

/-- Fail-stop invariant of the worker between two messages: it is not inside
a call, and a call that returned an error is the last call made, the worker
having returned that error. -/
structure Worker.FailStop (put : PutRecords E) (w : Worker E) : Prop where
  settled : ∀ d, w.phase ≠ .putting d
  last_only : ∀ (i : Nat) (c : List PutRecordsRequestEntry) (e : E),
    w.puts[i]? = some c → put (w.puts.take i) c = some e →
      i + 1 = w.puts.length ∧ w.phase = .returned (some e)

/-- Bound invariant of the worker between two messages, for a batch size `b`:
it is not inside a call and has not panicked, every call made carried at most
`b` entries, and while the worker is in its loop the buffer holds fewer than
`b` entries. -/
structure Worker.Bounded (b : Nat) (w : Worker E) : Prop where
  settled : ∀ d, w.phase ≠ .putting d
  sound : w.phase ≠ .panicked
  puts_le : ∀ c ∈ w.puts, c.length ≤ b
  buf_lt : w.phase = .selecting → w.kRecordsBuf.length < b

/-- Invariant of the sinks: a handler that is blocked or dead faces a worker
that has left its loop. -/
def Machine.Good (m : Machine E) : Prop :=
  m.status ≠ .running → (∀ d, m.worker.phase ≠ .putting d) ∧ m.worker.phase ≠ .selecting

end Invariants

/-! ## Lemmas on the worker -/

section WorkerLemmas

variable {E : Type}

theorem Worker.inv_start {b : Nat} (hb : 1 ≤ b) : Worker.Inv b (Worker.start : Worker E) [] :=
  ⟨rfl, rfl, by simp [Worker.start], by simp [Worker.start]; omega⟩

/-- With a positive batch size the test of the `k.ch` branch is the test on
natural numbers. -/
theorem Worker.receive_pos (b : Nat) (hb : 1 ≤ b) (w : Worker E) (r : Bytes) :
    w.receive (b : Int) r =
      if (w.kRecordsBuf.length + 1) % b = 0 then
        { w with kRecordsBuf := w.kRecordsBuf ++ [mkEntry r], phase := .putting false }
      else { w with kRecordsBuf := w.kRecordsBuf ++ [mkEntry r] } := by
  have hb0 : (b : Int) ≠ 0 := by omega
  have hlen : (w.kRecordsBuf ++ [mkEntry r]).length = w.kRecordsBuf.length + 1 := by simp
  have hmod : Int.tmod (((w.kRecordsBuf ++ [mkEntry r]).length : Nat) : Int) (b : Int) = 0 ↔
      (w.kRecordsBuf.length + 1) % b = 0 := by
    rw [hlen, ← Int.ofNat_tmod]
    exact Int.natCast_eq_zero
  have hpos : (w.kRecordsBuf ++ [mkEntry r]).length > 0 := by omega
  unfold Worker.receive
  simp only [hpos, hb0, hmod, if_true, if_false]

/-- A worker that is not inside a call is left alone by `settle`. -/
theorem Worker.settle_selecting (put : PutRecords E) (w : Worker E) (hp : w.phase = .selecting) :
    w.settle put = w := by
  simp [Worker.settle, hp]

/-- One item taken at the `select`, the buffer being short of a batch and the
calls with a full batch succeeding. -/
theorem Worker.step_item_ok (b : Nat) (hb : 1 ≤ b) (put : PutRecords E)
    (hput : ∀ cs c, c.length = b → put cs c = none) (w : Worker E)
    (hp : w.phase = .selecting) (hs : w.kRecordsBuf.length < b) (r : Bytes) :
    Worker.step (b : Int) put w (.item r) =
      if (w.kRecordsBuf.length + 1) % b = 0 then
        { kRecordsBuf := [], puts := w.puts ++ [w.kRecordsBuf ++ [mkEntry r]], phase := .selecting }
      else { w with kRecordsBuf := w.kRecordsBuf ++ [mkEntry r] } := by
  unfold Worker.step
  simp only [Worker.settle_selecting put w hp, hp, Worker.receive_pos b hb]
  split_ifs with h
  · have hlen : (w.kRecordsBuf ++ [mkEntry r]).length = b := by
      have := Nat.le_of_dvd (by omega) (Nat.dvd_of_mod_eq_zero h)
      simp; omega
    simp [Worker.settle, Worker.putReturns, hput _ _ hlen]
  · simp [Worker.settle, hp]

/-- The drain signal taken at the `select`. -/
theorem Worker.step_quit (batchSize : Int) (put : PutRecords E) (w : Worker E)
    (hp : w.phase = .selecting) :
    Worker.step batchSize put w .quit =
      if w.kRecordsBuf = [] then { w with phase := .returned none }
      else { w with puts := w.puts ++ [w.kRecordsBuf],
                    phase := .returned (put w.puts w.kRecordsBuf) } := by
  unfold Worker.step
  simp only [Worker.settle_selecting put w hp, hp]
  by_cases hnil : w.kRecordsBuf = []
  · simp [Worker.quitSignal, hnil, Worker.settle]
  · have hlen : w.kRecordsBuf.length ≠ 0 := by simpa using hnil
    simp only [Worker.quitSignal, hlen, hnil, if_false, if_true, ne_eq, not_false_eq_true,
      Worker.settle, Worker.putReturns]
    cases put w.puts w.kRecordsBuf <;> simp

theorem Worker.inv_step_item {b : Nat} (hb : 1 ≤ b) (put : PutRecords E)
    (hput : ∀ cs c, c.length = b → put cs c = none) {w : Worker E}
    {es : List PutRecordsRequestEntry} (h : Worker.Inv b w es) (r : Bytes) :
    Worker.Inv b (Worker.step (b : Int) put w (.item r)) (es ++ [mkEntry r]) := by
  obtain ⟨hp, hc, hf, hs⟩ := h
  rw [Worker.step_item_ok b hb put hput w hp hs r]
  by_cases hfull : (w.kRecordsBuf.length + 1) % b = 0
  · have hlen : w.kRecordsBuf.length + 1 = b := by
      have := Nat.le_of_dvd (by omega) (Nat.dvd_of_mod_eq_zero hfull)
      omega
    rw [if_pos hfull]
    refine ⟨rfl, ?_, ?_, ?_⟩
    · simp [← hc]
    · intro c hc'
      simp only [List.mem_append, List.mem_singleton] at hc'
      rcases hc' with hc' | hc'
      · exact hf c hc'
      · subst hc'; simpa using hlen
    · simpa using hb
  · rw [if_neg hfull]
    refine ⟨hp, ?_, hf, ?_⟩
    · simp [← hc]
    · by_contra hcon
      have : w.kRecordsBuf.length + 1 = b := by simp at hcon; omega
      simp [this] at hfull

theorem Worker.inv_run_items {b : Nat} (hb : 1 ≤ b) (put : PutRecords E)
    (hput : ∀ cs c, c.length = b → put cs c = none) (items : List Bytes) :
    ∀ (w : Worker E) (es : List PutRecordsRequestEntry), Worker.Inv b w es →
      Worker.Inv b (Worker.run (b : Int) put w (items.map Msg.item)) (es ++ items.map mkEntry) := by
  induction items with
  | nil => intro w es h; simpa [Worker.run] using h
  | cons r rs ih =>
    intro w es h
    have h1 := Worker.inv_step_item hb put hput h r
    have h2 := ih _ _ h1
    simpa [Worker.run, List.append_assoc] using h2

/-- The worker after `items` and the drain signal, the calls with a full batch
succeeding: the full batches, then the rest as one more call if there is a
rest; the worker has returned what that last call returned. -/
theorem Worker.drainAfter_shape {b : Nat} (hb : 1 ≤ b) (put : PutRecords E)
    (hput : ∀ cs c, c.length = b → put cs c = none) (items : List Bytes) :
    ∃ (full : List (List PutRecordsRequestEntry)) (buf : List PutRecordsRequestEntry),
      (∀ c ∈ full, c.length = b) ∧ buf.length < b ∧
      full.flatten ++ buf = items.map mkEntry ∧
      Worker.drainAfter (b : Int) put items =
        { kRecordsBuf := buf
          puts := if buf = [] then full else full ++ [buf]
          phase := .returned (if buf = [] then none else put full buf) } := by
  have h := Worker.inv_run_items hb put hput items Worker.start [] (Worker.inv_start hb)
  obtain ⟨hp, hc, hf, hs⟩ := h
  refine ⟨_, _, hf, hs, by simpa using hc, ?_⟩
  unfold Worker.drainAfter Worker.run
  rw [List.foldl_append]
  simp only [List.foldl_cons, List.foldl_nil]
  have := Worker.step_quit (b : Int) put _ hp
  simp only [Worker.run] at this
  rw [this]
  split_ifs with hnil <;> rfl

/-- Counting the entries of batches that all have `b` entries. -/
theorem length_flatten_of_full {α : Type} (b : Nat) (full : List (List α))
    (hf : ∀ c ∈ full, c.length = b) : full.flatten.length = full.length * b := by
  induction full with
  | nil => simp
  | cons c cs ih =>
    have h1 : c.length = b := hf c (by simp)
    have h2 := ih (fun d hd => hf d (by simp [hd]))
    simp [h1, h2, Nat.add_mul, Nat.add_comm]

/-- A worker that is not inside a call is left alone by `settle`. -/
theorem Worker.settle_of_settled (put : PutRecords E) (w : Worker E)
    (h : ∀ d, w.phase ≠ .putting d) : w.settle put = w := by
  unfold Worker.settle
  split
  · next d hd => exact absurd hd (h d)
  · rfl

/-- A worker that has left its loop takes no message. -/
theorem Worker.step_of_not_selecting (batchSize : Int) (put : PutRecords E) (w : Worker E)
    (h : ∀ d, w.phase ≠ .putting d) (hs : w.phase ≠ .selecting) (m : Msg) :
    Worker.step batchSize put w m = w := by
  unfold Worker.step
  rw [Worker.settle_of_settled put w h]
  dsimp only
  split
  · next hp => exact absurd hp hs
  · rfl

/-- A worker that has returned stays as it is, whatever is sent. -/
theorem Worker.run_of_returned (batchSize : Int) (put : PutRecords E) (msgs : List Msg) :
    ∀ (w : Worker E) (err : Option E), w.phase = .returned err →
      Worker.run batchSize put w msgs = w := by
  induction msgs with
  | nil => intro w err _; rfl
  | cons m ms ih =>
    intro w err h
    have hstep : Worker.step batchSize put w m = w :=
      Worker.step_of_not_selecting batchSize put w (by simp [h]) (by simp [h]) m
    simp only [Worker.run, List.foldl_cons, hstep]
    exact ih w err h

/-- Making one more call from the `select` keeps the fail-stop invariant. -/
theorem Worker.failStop_put (put : PutRecords E) (w : Worker E) (h : Worker.FailStop put w)
    (hp : w.phase = .selecting) (buf : List PutRecordsRequestEntry) (drain : Bool) :
    Worker.FailStop put
      (({ w with kRecordsBuf := buf, phase := .putting drain } : Worker E).settle put) := by
  have hold : ∀ (i : Nat) (c : List PutRecordsRequestEntry) (e : E),
      w.puts[i]? = some c → put (w.puts.take i) c = some e → False := by
    intro i c e hi he
    have := (h.last_only i c e hi he).2
    rw [hp] at this
    exact Phase.noConfusion this
  have key : ∀ (ph : Phase E), (∀ d, ph ≠ .putting d) →
      (∀ e, put w.puts buf = some e → ph = .returned (some e)) → ∀ (kb : List PutRecordsRequestEntry),
      Worker.FailStop put { kRecordsBuf := kb, puts := w.puts ++ [buf], phase := ph } := by
    intro ph hph hres kb
    refine ⟨hph, ?_⟩
    intro i c e hi he
    simp only at hi he ⊢
    rcases Nat.lt_trichotomy i w.puts.length with hlt | heq | hgt
    · exfalso
      rw [List.getElem?_append_left hlt] at hi
      rw [List.take_append_of_le_length (Nat.le_of_lt hlt)] at he
      exact hold i c e hi he
    · subst heq
      simp at hi he
      subst hi
      exact ⟨by simp, hres e he⟩
    · exfalso
      rw [List.getElem?_eq_none (by simp; omega)] at hi
      exact Option.noConfusion hi
  simp only [Worker.settle, Worker.putReturns]
  cases hres : put w.puts buf with
  | some e => exact key _ (by simp) (by intro e' he'; rw [hres] at he'; cases he'; rfl) _
  | none =>
    cases drain with
    | true => exact key _ (by simp) (by intro e' he'; rw [hres] at he'; cases he') _
    | false => exact key _ (by simp) (by intro e' he'; rw [hres] at he'; cases he') _

/-- Every turn of the loop keeps the fail-stop invariant. -/
theorem Worker.failStop_step (batchSize : Int) (put : PutRecords E) (w : Worker E)
    (h : Worker.FailStop put w) (m : Msg) :
    Worker.FailStop put (Worker.step batchSize put w m) := by
  by_cases hp : w.phase = .selecting
  · have hkeep : ∀ (kb : List PutRecordsRequestEntry) (ph : Phase E), (∀ d, ph ≠ .putting d) →
        (∀ e, ph ≠ .returned (some e)) →
        Worker.FailStop put ({ w with kRecordsBuf := kb, phase := ph } : Worker E) := by
      intro kb ph h1 h2
      refine ⟨h1, ?_⟩
      intro i c e hi he
      have := (h.last_only i c e hi he).2
      rw [hp] at this
      exact Phase.noConfusion this
    unfold Worker.step
    simp only [Worker.settle_of_settled put w h.settled, hp]
    cases m with
    | item r =>
      unfold Worker.receive
      simp only
      split_ifs
      · rw [Worker.settle_of_settled put _ (by simp)]
        exact hkeep _ _ (by simp) (by simp)
      · exact Worker.failStop_put put w h hp _ false
      · rw [Worker.settle_of_settled put _ (by simp [hp])]
        have := hkeep (w.kRecordsBuf ++ [mkEntry r]) .selecting (by simp) (by simp)
        simpa [hp] using this
      · rw [Worker.settle_of_settled put _ (by simp [hp])]
        have := hkeep (w.kRecordsBuf ++ [mkEntry r]) .selecting (by simp) (by simp)
        simpa [hp] using this
    | quit =>
      unfold Worker.quitSignal
      split_ifs
      · have := Worker.failStop_put put w h hp w.kRecordsBuf true
        simpa using this
      · rw [Worker.settle_of_settled put _ (by simp)]
        have := hkeep w.kRecordsBuf (.returned none) (by simp) (by simp)
        simpa using this
  · rw [Worker.step_of_not_selecting batchSize put w h.settled hp m]
    exact h

/-- The fail-stop invariant holds after every sequence of messages. -/
theorem Worker.failStop_run (batchSize : Int) (put : PutRecords E) (msgs : List Msg) :
    ∀ (w : Worker E), Worker.FailStop put w →
      Worker.FailStop put (Worker.run batchSize put w msgs) := by
  induction msgs with
  | nil => intro w h; exact h
  | cons m ms ih =>
    intro w h
    simp only [Worker.run, List.foldl_cons]
    exact ih _ (Worker.failStop_step batchSize put w h m)

theorem Worker.failStop_start (put : PutRecords E) : Worker.FailStop put (Worker.start : Worker E) :=
  ⟨by simp [Worker.start], by simp [Worker.start]⟩

/-- The number of calls made for `n` items with batches of `b`, as a ceiling. -/
theorem ceil_div_of_batches (b q r n : Nat) (hb : 1 ≤ b) (hr : r < b) (hn : q * b + r = n) :
    ((if r = 0 then q else q + 1 : Nat) : Int) = ⌈((n : ℚ) / ((b : Int) : ℚ))⌉ := by
  have hbq : (0 : ℚ) < (b : ℚ) := by exact_mod_cast hb
  have hnq : (n : ℚ) = q * b + r := by exact_mod_cast hn.symm
  have hrq : (r : ℚ) < b := by exact_mod_cast hr
  symm
  rw [Int.ceil_eq_iff]
  simp only [Int.cast_natCast]
  split_ifs with h0
  · subst h0
    simp only [Nat.cast_zero, add_zero] at hnq
    constructor
    · rw [lt_div_iff₀ hbq, hnq]; nlinarith
    · rw [div_le_iff₀ hbq, hnq]
  · have hr1 : (1 : ℚ) ≤ r := by
      have : 1 ≤ r := Nat.one_le_iff_ne_zero.mpr h0
      exact_mod_cast this
    constructor
    · rw [lt_div_iff₀ hbq, hnq]; push_cast; nlinarith
    · rw [div_le_iff₀ hbq, hnq]; push_cast; nlinarith

end WorkerLemmas

/-! ## The batching worker: no loss, batch sizes -/

/-- C1: no loss and order preservation.  For every batch size `B ≥ 1`, every
client whose `PutRecords` calls all succeed and every sequence of items, the
worker that receives the items on its channel and then the drain signal
returns `nil`, and the record lists it passed to `PutRecords`, concatenated in
call order, are exactly the items sent, in the order sent (as entries with
partition key `"key"`).  So every item sent appears in exactly one flush. -/
theorem KinesisStreamer.stream_no_loss {E : Type} (batchSize : Int) (hB : 1 ≤ batchSize)
    (put : PutRecords E) (hput : ∀ cs c, put cs c = none) (items : List Bytes) :
    (Worker.drainAfter batchSize put items).puts.flatten = items.map mkEntry ∧
    (Worker.drainAfter batchSize put items).puts.flatten.map PutRecordsRequestEntry.Data = items ∧
    (Worker.drainAfter batchSize put items).phase = .returned none := by
  lift batchSize to Nat using (by omega)
  have hb : 1 ≤ batchSize := by exact_mod_cast hB
  obtain ⟨full, buf, _, _, hcat, hshape⟩ :=
    Worker.drainAfter_shape hb put (fun cs c _ => hput cs c) items
  have hflat : (Worker.drainAfter (batchSize : Int) put items).puts.flatten = items.map mkEntry := by
    rw [hshape]
    by_cases hnil : buf = []
    · simpa [hnil] using hcat
    · simpa [hnil] using hcat
  refine ⟨hflat, ?_, ?_⟩
  · rw [hflat, List.map_map]
    have : PutRecordsRequestEntry.Data ∘ mkEntry = id := by funext r; rfl
    simp [this]
  · rw [hshape]
    by_cases hnil : buf = [] <;> simp [hnil, hput]

/-- The witness of C1: three items with batches of two. -/
theorem KinesisStreamer.stream_no_loss_witness :
    (Worker.drainAfter (E := Unit) 2 (fun _ _ => none) [[1], [2], [3]]).puts.flatten
        = [[1], [2], [3]].map mkEntry ∧
    (Worker.drainAfter (E := Unit) 2 (fun _ _ => none) [[1], [2], [3]]).puts.flatten.map
        PutRecordsRequestEntry.Data = [[1], [2], [3]] ∧
    (Worker.drainAfter (E := Unit) 2 (fun _ _ => none) [[1], [2], [3]]).phase = .returned none :=
  KinesisStreamer.stream_no_loss 2 (by decide) (fun _ _ => none) (fun _ _ => rfl) [[1], [2], [3]]

/-- C2: flush count and sizes.  For every batch size `B ≥ 1` (so for
`1 ≤ B ≤ 500`), every client whose `PutRecords` calls all succeed and every
`N` items followed by the drain signal: the number of `PutRecords` calls is
`⌈N / B⌉`; every call but the last carries exactly `B` entries; the last
carries `N mod B` entries, or `B` when `N mod B = 0`; no call is made when
`N = 0`. -/
theorem KinesisStreamer.stream_flush_sizes {E : Type} (batchSize : Int) (hB : 1 ≤ batchSize)
    (put : PutRecords E) (hput : ∀ cs c, put cs c = none) (items : List Bytes) :
    (((Worker.drainAfter batchSize put items).puts.length : Nat) : Int)
        = ⌈((items.length : ℚ) / (batchSize : ℚ))⌉ ∧
    (∀ (i : Nat) (h : i < (Worker.drainAfter batchSize put items).puts.length),
        i + 1 < (Worker.drainAfter batchSize put items).puts.length →
        ((((Worker.drainAfter batchSize put items).puts.get ⟨i, h⟩).length : Nat) : Int)
          = batchSize) ∧
    (∀ last, (Worker.drainAfter batchSize put items).puts.getLast? = some last →
        ((last.length : Nat) : Int)
          = if (items.length : Int) % batchSize = 0 then batchSize
            else (items.length : Int) % batchSize) ∧
    (items.length = 0 → (Worker.drainAfter batchSize put items).puts = []) := by
  lift batchSize to Nat using (by omega)
  have hb : 1 ≤ batchSize := by exact_mod_cast hB
  obtain ⟨full, buf, hfull, hshort, hcat, hshape⟩ :=
    Worker.drainAfter_shape hb put (fun cs c _ => hput cs c) items
  have hcount : full.length * batchSize + buf.length = items.length := by
    have := congrArg List.length hcat
    simpa [length_flatten_of_full batchSize full hfull] using this
  have hmod : items.length % batchSize = buf.length := by
    rw [← hcount, Nat.mul_comm, Nat.mul_add_mod, Nat.mod_eq_of_lt hshort]
  have hP : (Worker.drainAfter (batchSize : Int) put items).puts
      = if buf = [] then full else full ++ [buf] := by rw [hshape]
  generalize (Worker.drainAfter (batchSize : Int) put items).puts = P at hP ⊢
  refine ⟨?_, ?_, ?_, ?_⟩
  · rw [← ceil_div_of_batches batchSize full.length buf.length items.length hb hshort hcount, hP]
    by_cases hnil : buf = []
    · simp [hnil]
    · have : buf.length ≠ 0 := by simpa using hnil
      simp [hnil, this]
  · intro i h hi
    have hmem : P.get ⟨i, h⟩ ∈ full := by
      by_cases hnil : buf = []
      · have hP' : P = full := by simp [hP, hnil]
        subst hP'
        exact List.get_mem _ _ _
      · have hP' : P = full ++ [buf] := by simp [hP, hnil]
        subst hP'
        have hi' : i < full.length := by simpa using hi
        have : (full ++ [buf]).get ⟨i, h⟩ = full.get ⟨i, hi'⟩ := by
          simp [List.getElem_append_left, hi']
        rw [this]
        exact List.get_mem _ _ _
    exact_mod_cast hfull _ hmem
  · intro last hlast
    have hcast : ((items.length : Int) % (batchSize : Int)) = ((buf.length : Nat) : Int) := by
      rw [← hmod]; norm_cast
    rw [hcast]
    by_cases hnil : buf = []
    · have hP' : P = full := by simp [hP, hnil]
      subst hP'
      have hmem : last ∈ P := List.mem_of_getLast?_eq_some hlast
      simp [hnil, hfull last hmem]
    · have hne : buf.length ≠ 0 := by simpa using hnil
      have hP' : P = full ++ [buf] := by simp [hP, hnil]
      subst hP'
      simp at hlast
      subst hlast
      simp [hne]
  · intro h0
    have hq : full.length * batchSize = 0 := by omega
    have hr : buf.length = 0 := by omega
    have hb0 : batchSize ≠ 0 := by omega
    have hf0 : full = [] := by
      rcases Nat.mul_eq_zero.mp hq with h | h
      · simpa using h
      · exact absurd h hb0
    have hbuf : buf = [] := by simpa using hr
    simp [hP, hf0, hbuf]

/-- The witness of C2: three items with batches of two make two calls. -/
theorem KinesisStreamer.stream_flush_sizes_witness :
    (((Worker.drainAfter (E := Unit) 2 (fun _ _ => none) [[1], [2], [3]]).puts.length : Nat) : Int)
      = ⌈(((([[1], [2], [3]] : List Bytes).length : Nat) : ℚ) / ((2 : Int) : ℚ))⌉ :=
  (KinesisStreamer.stream_flush_sizes 2 (by decide) (fun _ _ => none) (fun _ _ => rfl)
    [[1], [2], [3]]).1

/-! ## The batching worker: drain and failure -/

/-- C8: drain flush.  For every batch size and every state of the worker
waiting at its `select`, receiving the quit signal issues exactly one
`PutRecords` call, carrying exactly the buffered entries in order, when the
buffer is non-empty, and no call when it is empty; in both cases the worker
returns, and `Close` returns with the worker in that state, that is after the
flush has completed. -/
theorem KinesisStreamer.drain_flush {E : Type} (batchSize : Int) (put : PutRecords E)
    (w : Worker E) (hp : w.phase = .selecting) :
    (w.kRecordsBuf ≠ [] →
      (Worker.step batchSize put w .quit).puts = w.puts ++ [w.kRecordsBuf]) ∧
    (w.kRecordsBuf = [] → (Worker.step batchSize put w .quit).puts = w.puts) ∧
    (∃ err, (Worker.step batchSize put w .quit).phase = .returned err) ∧
    KinesisStreamer.Close put w = some (Worker.step batchSize put w .quit) := by
  have hstep := Worker.step_quit batchSize put w hp
  refine ⟨?_, ?_, ?_, ?_⟩
  · intro hne; rw [hstep, if_neg hne]
  · intro hnil; rw [hstep, if_pos hnil]
  · rw [hstep]
    split_ifs
    · exact ⟨none, rfl⟩
    · exact ⟨_, rfl⟩
  · unfold KinesisStreamer.Close Worker.step
    simp [Worker.settle_selecting put w hp, hp]

/-- The witness of C8: a worker holding one entry, the drain call failing. -/
theorem KinesisStreamer.drain_flush_witness :
    (Worker.step (E := Unit) 500 (fun _ _ => some ())
        { kRecordsBuf := [mkEntry [7]], puts := [], phase := .selecting } .quit).puts
      = [[mkEntry [7]]] :=
  (KinesisStreamer.drain_flush (E := Unit) 500 (fun _ _ => some ())
    { kRecordsBuf := [mkEntry [7]], puts := [], phase := .selecting } rfl).1 (by simp)

/-- C9: a flush failure is terminal.  For every batch size, every client and
every sequence of messages, if the `i`-th `PutRecords` call of the worker
returned an error, then that call is the last call the worker has made, the
worker has returned that error, and whatever is sent afterwards leaves the
worker as it is: the failed batch is not sent again, and no later item is
buffered or flushed. -/
theorem KinesisStreamer.flush_failure_terminal {E : Type} (batchSize : Int) (put : PutRecords E)
    (msgs more : List Msg) (i : Nat) (c : List PutRecordsRequestEntry) (e : E)
    (hi : (Worker.run batchSize put Worker.start msgs).puts[i]? = some c)
    (he : put ((Worker.run batchSize put Worker.start msgs).puts.take i) c = some e) :
    i + 1 = (Worker.run batchSize put Worker.start msgs).puts.length ∧
    (Worker.run batchSize put Worker.start msgs).phase = .returned (some e) ∧
    Worker.run batchSize put Worker.start (msgs ++ more)
      = Worker.run batchSize put Worker.start msgs := by
  have hinv := Worker.failStop_run batchSize put msgs Worker.start (Worker.failStop_start put)
  obtain ⟨h1, h2⟩ := hinv.last_only i c e hi he
  refine ⟨h1, h2, ?_⟩
  have := Worker.run_of_returned batchSize put more _ _ h2
  simpa [Worker.run, List.foldl_append] using this

/-- The witness of C9: batches of one, the first call fails, a second item
and the drain signal follow. -/
theorem KinesisStreamer.flush_failure_terminal_witness :
    Worker.run (E := Unit) 1 (fun _ _ => some ()) Worker.start
        ([Msg.item [1]] ++ [Msg.item [2], Msg.quit])
      = Worker.run (E := Unit) 1 (fun _ _ => some ()) Worker.start [Msg.item [1]] :=
  (KinesisStreamer.flush_failure_terminal (E := Unit) 1 (fun _ _ => some ())
    [Msg.item [1]] [Msg.item [2], Msg.quit] 0 [mkEntry [1]] () (by decide) (by decide)).2.2

/-! ## Filters -/

section FilterLemmas

theorem ifaceEqString_iff (v : Option Value) (s : Str) :
    ifaceEqString v s = true ↔ v = some (.string s) := by
  unfold ifaceEqString
  split
  · next t s' => simp
  · next hne =>
    constructor
    · intro h; cases h
    · intro h; exact absurd h (by intro h'; exact hne s h')

theorem DoesMatch_iff (ef : EventFilter) (record : Record) :
    ef.DoesMatch record = true ↔
      record.index "eventName".toList = some (.string ef.EventName) ∨
      record.index "eventSource".toList = some (.string ef.EventSource) := by
  simp [EventFilter.DoesMatch, ifaceEqString_iff]

theorem doFiltersMatch_eq_any (eventFilters : List EventFilter) (record : Record) :
    doFiltersMatch eventFilters record = eventFilters.any (fun ef => ef.DoesMatch record) := by
  induction eventFilters with
  | nil => rfl
  | cons ef rest ih =>
    simp only [doFiltersMatch, List.any_cons, ih]
    cases ef.DoesMatch record <;> simp

theorem split_ne_nil (sep : Char) (s : Str) : split sep s ≠ [] := by
  cases s with
  | nil => simp [split]
  | cons c cs =>
    simp only [split]
    split_ifs
    · simp
    · split <;> simp

theorem split_of_count_zero (sep : Char) (s : Str) (h : s.count sep = 0) :
    split sep s = [s] := by
  induction s with
  | nil => rfl
  | cons c cs ih =>
    rw [List.count_cons] at h
    have hc : ¬ c = sep := by
      intro hc; subst hc; simp at h
    have h0 : cs.count sep = 0 := by omega
    simp [split, hc, ih h0]

theorem length_split (sep : Char) (s : Str) : (split sep s).length = s.count sep + 1 := by
  induction s with
  | nil => rfl
  | cons c cs ih =>
    rw [List.count_cons]
    by_cases hc : c = sep
    · subst hc; simp [split, ih]
    · have hb : (c == sep) = false := by simpa using hc
      simp only [split, hc, if_false, hb]
      have hne := split_ne_nil sep cs
      cases hsp : split sep cs with
      | nil => exact absurd hsp hne
      | cons t ts => simp [← ih, hsp]

/-- A string with exactly one separator splits into what stands before it
and what stands after it. -/
theorem split_of_count_one (sep : Char) (s : Str) (h : s.count sep = 1) :
    split sep s = [s.takeWhile (fun c => c != sep), (s.dropWhile (fun c => c != sep)).tail] := by
  induction s with
  | nil => simp at h
  | cons c cs ih =>
    rw [List.count_cons] at h
    by_cases hc : c = sep
    · subst hc
      have h0 : cs.count c = 0 := by simpa using h
      simp [split, split_of_count_zero c cs h0, List.takeWhile_cons, List.dropWhile_cons]
    · have hb : (c == sep) = false := by simpa using hc
      have h1 : cs.count sep = 1 := by simpa [hb] using h
      have hb' : (c != sep) = true := by simpa using hc
      simp [split, hc, ih h1, List.takeWhile_cons, List.dropWhile_cons, hb']

/-- The test of `parseFilters` on a token agrees with `tokenRule`. -/
theorem parse_token_eq (token : Str) :
    (match split ':' token with
      | [source, name] => some (newEventFilter source name)
      | _ => none) = tokenRule token := by
  unfold tokenRule
  by_cases h : token.count ':' = 1
  · rw [split_of_count_one ':' token h, if_pos h]
    rfl
  · rw [if_neg h]
    have hlen := length_split ':' token
    split
    · next source name heq =>
      rw [heq] at hlen
      simp at hlen
      omega
    · rfl

theorem parseFilters_fold (tokens : List Str) :
    ∀ acc : List EventFilter,
      tokens.foldl
        (fun eventFilters filter =>
          match split ':' filter with
          | [source, name] => eventFilters ++ [newEventFilter source name]
          | _ => eventFilters) acc
      = acc ++ tokens.filterMap tokenRule := by
  induction tokens with
  | nil => intro acc; simp
  | cons t ts ih =>
    intro acc
    simp only [List.foldl_cons, List.filterMap_cons]
    rw [ih, ← parse_token_eq t]
    split <;> simp

end FilterLemmas

/-- C5: exclusion match semantics.  For every record and every rule list,
`doFiltersMatch` is true exactly when some rule of the list has its
`EventName` equal to the record's `eventName` field or its `EventSource`
(short name followed by `.amazonaws.com`, as `newEventFilter` builds it) equal
to the record's `eventSource` field; so a record whose `eventName` is a
rule's event name matches whatever its `eventSource` is; and the result is the
same for every permutation of the rule list. -/
theorem doFiltersMatch_semantics (eventFilters : List EventFilter) (record : Record) :
    (doFiltersMatch eventFilters record = true ↔
      ∃ ef ∈ eventFilters,
        record.index "eventName".toList = some (.string ef.EventName) ∨
        record.index "eventSource".toList = some (.string ef.EventSource)) ∧
    (∀ source name : Str,
      (newEventFilter source name).EventName = name ∧
      (newEventFilter source name).EventSource = source ++ ".amazonaws.com".toList) ∧
    (∀ ef ∈ eventFilters, record.index "eventName".toList = some (.string ef.EventName) →
      doFiltersMatch eventFilters record = true) ∧
    (∀ permuted : List EventFilter, eventFilters.Perm permuted →
      doFiltersMatch permuted record = doFiltersMatch eventFilters record) := by
  have hiff : ∀ fs : List EventFilter, doFiltersMatch fs record = true ↔
      ∃ ef ∈ fs,
        record.index "eventName".toList = some (.string ef.EventName) ∨
        record.index "eventSource".toList = some (.string ef.EventSource) := by
    intro fs
    rw [doFiltersMatch_eq_any, List.any_eq_true]
    constructor
    · rintro ⟨ef, hmem, h⟩; exact ⟨ef, hmem, (DoesMatch_iff ef record).mp h⟩
    · rintro ⟨ef, hmem, h⟩; exact ⟨ef, hmem, (DoesMatch_iff ef record).mpr h⟩
  refine ⟨hiff _, fun _ _ => ⟨rfl, rfl⟩, ?_, ?_⟩
  · intro ef hmem h
    exact (hiff _).mpr ⟨ef, hmem, Or.inl h⟩
  · intro permuted hperm
    rw [Bool.eq_iff_iff, hiff, hiff]
    constructor
    · rintro ⟨ef, hmem, h⟩; exact ⟨ef, hperm.symm.subset hmem, h⟩
    · rintro ⟨ef, hmem, h⟩; exact ⟨ef, hperm.subset hmem, h⟩

/-- The witness of C5: the rule `s3:GetObject` matches a `GetObject` record of
another source. -/
theorem doFiltersMatch_semantics_witness :
    doFiltersMatch [newEventFilter "s3".toList "GetObject".toList]
      [("eventName".toList, .string "GetObject".toList),
       ("eventSource".toList, .string "ec2.amazonaws.com".toList)] = true :=
  (doFiltersMatch_semantics [newEventFilter "s3".toList "GetObject".toList]
    [("eventName".toList, .string "GetObject".toList),
     ("eventSource".toList, .string "ec2.amazonaws.com".toList)]).2.2.1
    (newEventFilter "s3".toList "GetObject".toList) (by simp) rfl

/-- C6: filter rule construction.  For every configuration string,
`parseFilters` returns, in token order, the rules of the comma-separated
tokens that have one: a token with exactly one `':'`, read as
`shortSource:eventName`, gives the rule with `EventSource` the short source
followed by `.amazonaws.com` and `EventName` the event name; a token gives a
rule exactly when it splits on `':'` into two parts, so a token without `':'`
gives none; and `parseFilters` is a total function, no token raises an error. -/
theorem parseFilters_rules (filters : Str) :
    parseFilters filters = (split ',' filters).filterMap tokenRule ∧
    (∀ source name : Str, ':' ∉ source → ':' ∉ name →
      tokenRule (source ++ ':' :: name) = some (newEventFilter source name)) ∧
    (∀ token : Str, ':' ∉ token → tokenRule token = none) ∧
    (∀ token : Str, (tokenRule token).isSome = true ↔ (split ':' token).length = 2) := by
  refine ⟨?_, ?_, ?_, ?_⟩
  · unfold parseFilters
    rw [parseFilters_fold]
    simp
  · intro source name hs hn
    have h0s : source.count ':' = 0 := List.count_eq_zero.mpr hs
    have h0n : name.count ':' = 0 := List.count_eq_zero.mpr hn
    rw [← parse_token_eq]
    have hsplit : split ':' (source ++ ':' :: name) = [source, name] := by
      clear h0s
      induction source with
      | nil => simp [split, split_of_count_zero ':' name h0n]
      | cons c cs ih =>
        have hc : ¬ c = ':' := by
          intro hc; exact hs (by simp [hc])
        have hcs : ':' ∉ cs := by
          intro hmem; exact hs (by simp [hmem])
        simp [split, hc, ih hcs]
    rw [hsplit]
  · intro token h
    have h0 : token.count ':' = 0 := List.count_eq_zero.mpr h
    simp [tokenRule, h0]
  · intro token
    rw [length_split]
    unfold tokenRule
    split_ifs with h
    · simp [h]
    · simp; omega

/-- The witness of C6: the token `s3:GetObject`. -/
theorem parseFilters_rules_witness :
    tokenRule ("s3".toList ++ ':' :: "GetObject".toList)
      = some (newEventFilter "s3".toList "GetObject".toList) :=
  (parseFilters_rules "s3:GetObject,bad".toList).2.1 "s3".toList "GetObject".toList
    (by decide) (by decide)

/-! ## The router -/

section RouterLemmas

variable {E : Type}

theorem sentTo_fanOut (s : Streamer) (k : Sink) (encodedRecord : Bytes) :
    (s.fanOut encodedRecord).filterMap (Call.sentTo k)
      = if s.has k then [encodedRecord] else [] := by
  cases k <;>
    cases hk : s.kinesisStreamer <;> cases hp : s.pubsubStreamer <;>
      cases hs : s.stackdriverStreamer <;>
        simp [Streamer.fanOut, Streamer.has, Call.sentTo, hk, hp, hs]

theorem streamToServices_eq (env : Env E) (globalConfig : Config) (s : Streamer)
    (records : List Record) :
    s.streamToServices env globalConfig records
      = (survivors env globalConfig.eventFilters records).flatMap s.fanOut := by
  induction records with
  | nil => rfl
  | cons record rest ih =>
    unfold Streamer.streamToServices
    by_cases hm : doFiltersMatch globalConfig.eventFilters record = true
    · simp [hm, ih, survivors]
    · have hm' : doFiltersMatch globalConfig.eventFilters record = false := by simpa using hm
      cases hmar : env.Marshal record with
      | error err =>
        simp [hm', ih, survivors, Env.encode, hmar]
      | ok encodedRecord =>
        simp [hm', ih, survivors, Env.encode, hmar]

theorem filterMap_flatMap_fanOut (s : Streamer) (k : Sink) (encoded : List Bytes) :
    (encoded.flatMap s.fanOut).filterMap (Call.sentTo k)
      = if s.has k then encoded else [] := by
  induction encoded with
  | nil => simp
  | cons r rs ih =>
    rw [List.flatMap_cons, List.filterMap_append, ih, sentTo_fanOut]
    cases s.has k <;> simp

end RouterLemmas

/-! ## The handler and the worker together -/

section MachineLemmas

variable {E : Type}

/-- Every call of `streamToServices` is a `Send`. -/
theorem streamToServices_sends (env : Env E) (globalConfig : Config) (s : Streamer)
    (records : List Record) :
    ∀ c ∈ s.streamToServices env globalConfig records, ∃ k r, c = Call.Send k r := by
  intro c hc
  rw [streamToServices_eq, List.mem_flatMap] at hc
  obtain ⟨r, _, hr⟩ := hc
  cases hk : s.kinesisStreamer <;> cases hp : s.pubsubStreamer <;>
    cases hs : s.stackdriverStreamer <;>
      simp [Streamer.fanOut, hk, hp, hs] at hr <;> aesop

/-- A `Send` on the batching sink while the worker is sound: the handler goes
on, and the worker, once its call has returned, is the worker after one more
turn of its loop. -/
theorem Machine.call_send_kinesis {b : Nat} (hb : 1 ≤ b) (put : PutRecords E)
    (m : Machine E) (hrun : m.status = .running)
    (hsel : (m.worker.settle put).phase = .selecting) (r : Bytes) :
    (Machine.call (b : Int) put m (.Send .kinesis r)).status = .running ∧
    (Machine.call (b : Int) put m (.Send .kinesis r)).published = m.published ∧
    (Machine.call (b : Int) put m (.Send .kinesis r)).logged = m.logged ∧
    (Machine.call (b : Int) put m (.Send .kinesis r)).worker.settle put
      = Worker.step (b : Int) put (m.worker.settle put) (.item r) := by
  have hstep : Worker.step (b : Int) put (m.worker.settle put) (.item r)
      = ((m.worker.settle put).receive (b : Int) r).settle put := by
    unfold Worker.step
    simp only [Worker.settle_selecting put _ hsel, hsel]
  have hcall : Machine.call (b : Int) put m (.Send .kinesis r)
      = { m with worker := (m.worker.settle put).receive (b : Int) r } := by
    unfold Machine.call KinesisStreamer.Send
    simp only [hrun, hsel]
    rw [Worker.receive_pos b hb]
    split_ifs <;> simp [Machine.rendezvous, hsel, hrun]
  rw [hcall, hstep]
  exact ⟨hrun, rfl, rfl, rfl⟩

/-- The `Send` calls of the handler, the calls with a full batch succeeding:
none blocks; the worker takes the records sent to the batching sink, in
order; the other two sinks are handed theirs. -/
theorem Machine.exec_sends {b : Nat} (hb : 1 ≤ b) (put : PutRecords E)
    (hput : ∀ cs c, c.length = b → put cs c = none) (calls : List Call)
    (hsend : ∀ c ∈ calls, ∃ k r, c = Call.Send k r) :
    ∀ (m : Machine E) (es : List PutRecordsRequestEntry), m.status = .running →
      Worker.Inv b (m.worker.settle put) es →
      (Machine.exec (b : Int) put m calls).status = .running ∧
      (Machine.exec (b : Int) put m calls).published
        = m.published ++ calls.filterMap (Call.sentTo .pubsub) ∧
      (Machine.exec (b : Int) put m calls).logged
        = m.logged ++ calls.filterMap (Call.sentTo .stackdriver) ∧
      (Machine.exec (b : Int) put m calls).worker.settle put
        = Worker.run (b : Int) put (m.worker.settle put)
            ((calls.filterMap (Call.sentTo .kinesis)).map Msg.item) ∧
      Worker.Inv b ((Machine.exec (b : Int) put m calls).worker.settle put)
        (es ++ (calls.filterMap (Call.sentTo .kinesis)).map mkEntry) := by
  induction calls with
  | nil =>
    intro m es hrun hinv
    simpa [Machine.exec, Worker.run, hrun] using hinv
  | cons c cs ih =>
    intro m es hrun hinv
    obtain ⟨k, r, rfl⟩ := hsend c (by simp)
    have hcs : ∀ c ∈ cs, ∃ k r, c = Call.Send k r := fun c hc => hsend c (by simp [hc])
    cases k with
    | kinesis =>
      obtain ⟨h1, h2, h3, h4⟩ := Machine.call_send_kinesis hb put m hrun hinv.phase_eq r
      have hinv' := Worker.inv_step_item hb put hput hinv r
      rw [← h4] at hinv'
      obtain ⟨g1, g2, g3, g4, g5⟩ := ih hcs _ _ h1 hinv'
      simp only [Machine.exec, List.foldl_cons] at g1 g2 g3 g4 g5 ⊢
      refine ⟨g1, ?_, ?_, ?_, ?_⟩
      · rw [g2, h2]; simp [Call.sentTo]
      · rw [g3, h3]; simp [Call.sentTo]
      · rw [g4, h4]; simp [Call.sentTo, Worker.run]
      · simpa [Call.sentTo, List.append_assoc] using g5
    | pubsub =>
      have hcall : Machine.call (b : Int) put m (.Send .pubsub r)
          = { m with published := m.published ++ [r] } := by
        simp [Machine.call, hrun]
      obtain ⟨g1, g2, g3, g4, g5⟩ := ih hcs { m with published := m.published ++ [r] } es hrun hinv
      simp only [Machine.exec, List.foldl_cons, hcall] at g1 g2 g3 g4 g5 ⊢
      refine ⟨g1, ?_, ?_, ?_, ?_⟩
      · rw [g2]; simp [Call.sentTo]
      · rw [g3]; simp [Call.sentTo]
      · rw [g4]; simp [Call.sentTo]
      · simpa [Call.sentTo] using g5
    | stackdriver =>
      have hcall : Machine.call (b : Int) put m (.Send .stackdriver r)
          = { m with logged := m.logged ++ [r] } := by
        simp [Machine.call, hrun]
      obtain ⟨g1, g2, g3, g4, g5⟩ := ih hcs { m with logged := m.logged ++ [r] } es hrun hinv
      simp only [Machine.exec, List.foldl_cons, hcall] at g1 g2 g3 g4 g5 ⊢
      refine ⟨g1, ?_, ?_, ?_, ?_⟩
      · rw [g2]; simp [Call.sentTo]
      · rw [g3]; simp [Call.sentTo]
      · rw [g4]; simp [Call.sentTo]
      · simpa [Call.sentTo] using g5

/-- `Streamer.Close` while the worker is waiting or inside a call that
succeeds: it returns, the worker having taken the drain signal and returned. -/
theorem Machine.exec_close (batchSize : Int) (put : PutRecords E) (s : Streamer) (m : Machine E)
    (hrun : m.status = .running) (hsel : (m.worker.settle put).phase = .selecting) :
    (Machine.exec batchSize put m s.Close).status = .running ∧
    (Machine.exec batchSize put m s.Close).published = m.published ∧
    (Machine.exec batchSize put m s.Close).logged = m.logged ∧
    (Machine.exec batchSize put m s.Close).worker
      = if s.kinesisStreamer then Worker.step batchSize put (m.worker.settle put) .quit
        else m.worker := by
  have hq := Worker.step_quit batchSize put (m.worker.settle put) hsel
  have hstep : Worker.step batchSize put (m.worker.settle put) .quit
      = (m.worker.settle put).quitSignal.settle put := by
    unfold Worker.step
    simp only [Worker.settle_selecting put _ hsel, hsel]
  have hk : Machine.call batchSize put m (.Close .kinesis)
      = { m with worker := Worker.step batchSize put (m.worker.settle put) .quit } := by
    unfold Machine.call KinesisStreamer.Close
    simp only [hrun, hsel, ← hstep]
    rw [hq]
    split_ifs <;> simp [Machine.rendezvous, hrun]
  have hp : ∀ m' : Machine E, Machine.call batchSize put m' (.Close .pubsub) = m' := by
    intro m'; unfold Machine.call; cases m'.status <;> rfl
  have hs : ∀ m' : Machine E, Machine.call batchSize put m' (.Close .stackdriver) = m' := by
    intro m'; unfold Machine.call; cases m'.status <;> rfl
  cases hks : s.kinesisStreamer <;> cases hps : s.pubsubStreamer <;>
    cases hss : s.stackdriverStreamer <;>
      simp only [Streamer.Close, Machine.exec, hks, hps, hss, hk, hp, hs, List.foldl_cons,
        List.foldl_nil, List.nil_append, List.cons_append, if_true, if_false, Bool.false_eq_true] <;>
      simp [hrun]

end MachineLemmas

/-! ## Router fan-out -/

section ResultLemmas

variable {E : Type}

theorem streamToServices_put_irrelevant (env : Env E) (put : PutRecords E) (globalConfig : Config)
    (s : Streamer) (records : List Record) :
    s.streamToServices { env with PutRecords := put } globalConfig records
      = s.streamToServices env globalConfig records := by
  induction records with
  | nil => rfl
  | cons record rest ih =>
    unfold Streamer.streamToServices
    simp only [ih]

theorem loop_put_irrelevant (env : Env E) (put : PutRecords E) (globalConfig : Config)
    (s : Streamer) (records : List S3EventRecord) :
    S3Handler.loop { env with PutRecords := put } globalConfig s records
      = S3Handler.loop env globalConfig s records := by
  induction records with
  | nil => rfl
  | cons s3Record rest ih =>
    have hS : s.Stream { env with PutRecords := put } globalConfig s3Record.AWSRegion
        s3Record.Bucket s3Record.Key
        = s.Stream env globalConfig s3Record.AWSRegion s3Record.Bucket s3Record.Key := by
      unfold Streamer.Stream readLogFile
      simp only [streamToServices_put_irrelevant]
    unfold S3Handler.loop
    rw [hS, ih]

end ResultLemmas

/-- C3, on the code: a flush failure does not fail the invocation.  One
object of one record, batches of 500, and a Kinesis client whose every
`PutRecords` call fails: the worker makes one call, the drain flush, the call
returns the error and the worker's `Stream` returns it, but `S3Handler`
returns `nil`.  With batches of one the failing call is a full-batch flush:
the worker returns the error in the same way, and `S3Handler` returns
nothing, as the `k.quit <- 0` of `Close`, or the send of a second record,
never completes. -/
theorem S3Handler.flush_error_not_surfaced :
    (S3Handler.machine (sampleEnv (fun _ _ => some "throttled")) (sampleConfig 500)
        [sampleObject "a"]).worker.puts = [[mkEntry [1]]] ∧
    (S3Handler.machine (sampleEnv (fun _ _ => some "throttled")) (sampleConfig 500)
        [sampleObject "a"]).worker.phase = .returned (some "throttled") ∧
    S3Handler (sampleEnv (fun _ _ => some "throttled")) (sampleConfig 500) [sampleObject "a"]
      = .returned none ∧
    (S3Handler.machine (sampleEnv (fun _ _ => some "throttled")) (sampleConfig 1)
        [sampleObject "a"]).worker.puts = [[mkEntry [1]]] ∧
    (S3Handler.machine (sampleEnv (fun _ _ => some "throttled")) (sampleConfig 1)
        [sampleObject "a"]).worker.phase = .returned (some "throttled") ∧
    S3Handler (sampleEnv (fun _ _ => some "throttled")) (sampleConfig 1)
        [sampleObject "a"] = .blocked ∧
    S3Handler (sampleEnv (fun _ _ => some "throttled")) (sampleConfig 1)
        [sampleObject "a", sampleObject "b"] = .blocked := by
  decide

/-- The value of the `return` statement `S3Handler` reaches is the same for
every Kinesis client. -/
theorem S3Handler.result_put_irrelevant {E : Type} (env : Env E) (put : PutRecords E)
    (globalConfig : Config) (records : List S3EventRecord) :
    S3Handler.result { env with PutRecords := put } globalConfig records
      = S3Handler.result env globalConfig records := by
  unfold S3Handler.result
  rw [loop_put_irrelevant]

/-! ## `Send` on the batching sink -/

/-- C7, as the code has it: `KinesisStreamer.Send` hands the record to the
worker over a channel without buffer.  It completes at once exactly when the
worker is waiting at its `select`; the record is then the last entry of the
worker's buffer and no `PutRecords` call has been made for it, `Send` does
not wait for its delivery.  When the worker is inside a full-batch
`PutRecords` call that succeeds, `Send` completes only after that call has
returned.  The sends to the other two sinks, made by a handler that is
running, take the record and leave the handler running. -/
theorem KinesisStreamer.send_rendezvous {E : Type} (batchSize : Int) (put : PutRecords E)
    (w : Worker E) (record : Bytes) :
    (KinesisStreamer.sendReady w = true ↔ w.phase = .selecting) ∧
    (w.phase = .selecting →
      KinesisStreamer.Send batchSize put w record = some (w.receive batchSize record) ∧
      (w.receive batchSize record).kRecordsBuf = w.kRecordsBuf ++ [mkEntry record] ∧
      (w.receive batchSize record).puts = w.puts) ∧
    (w.phase = .putting false → put w.puts w.kRecordsBuf = none →
      ∃ w' : Worker E, KinesisStreamer.Send batchSize put w record = some w' ∧
        w'.puts = w.puts ++ [w.kRecordsBuf] ∧ w'.kRecordsBuf = [mkEntry record]) ∧
    (∀ m : Machine E, m.status = .running →
      (Machine.call batchSize put m (.Send .pubsub record)).published = m.published ++ [record] ∧
      (Machine.call batchSize put m (.Send .stackdriver record)).logged = m.logged ++ [record] ∧
      (Machine.call batchSize put m (.Send .pubsub record)).status = .running ∧
      (Machine.call batchSize put m (.Send .stackdriver record)).status = .running) := by
  have hrecv : ∀ v : Worker E,
      (v.receive batchSize record).kRecordsBuf = v.kRecordsBuf ++ [mkEntry record] ∧
      (v.receive batchSize record).puts = v.puts := by
    intro v
    unfold Worker.receive
    simp only
    split_ifs <;> exact ⟨rfl, rfl⟩
  refine ⟨?_, ?_, ?_, ?_⟩
  · unfold KinesisStreamer.sendReady
    cases w.phase <;> simp
  · intro hp
    refine ⟨?_, hrecv w⟩
    unfold KinesisStreamer.Send
    simp only [Worker.settle_selecting put w hp, hp]
  · intro hp hok
    have hsettle : w.settle put
        = { kRecordsBuf := [], puts := w.puts ++ [w.kRecordsBuf], phase := .selecting } := by
      simp [Worker.settle, Worker.putReturns, hp, hok]
    refine ⟨Worker.receive batchSize
      { kRecordsBuf := [], puts := w.puts ++ [w.kRecordsBuf], phase := .selecting } record,
      ?_, ?_, ?_⟩
    · unfold KinesisStreamer.Send
      simp only [hsettle]
    · rw [(hrecv _).2]
    · rw [(hrecv _).1]; rfl
  · intro m hrun
    simp [Machine.call, hrun]

/-- The witness of C7 as the code has it: the first record, sent to a worker
waiting at its `select`, is in the worker's buffer when `Send` returns. -/
theorem KinesisStreamer.send_rendezvous_witness :
    KinesisStreamer.Send (E := String) 500 (fun _ _ => none) Worker.start [1]
        = some (Worker.start.receive 500 [1]) ∧
    (Worker.start.receive (E := String) 500 [1]).kRecordsBuf
        = (Worker.start : Worker String).kRecordsBuf ++ [mkEntry [1]] ∧
    (Worker.start.receive (E := String) 500 [1]).puts = (Worker.start : Worker String).puts :=
  (KinesisStreamer.send_rendezvous (E := String) 500 (fun _ _ => none) Worker.start [1]).2.1 rfl

/-- C7, the claim refuted: with batches of one, the worker that has taken a
first record is inside its `PutRecords` call, and a `Send` started then does
not complete without waiting. -/
theorem KinesisStreamer.send_waits_for_flush :
    (Worker.start.receive (E := String) 1 [1]).phase = .putting false ∧
    KinesisStreamer.sendReady (Worker.start.receive (E := String) 1 [1]) = false := by
  decide

/-! ## Decode failures -/

section SNSLemmas

variable {E : Type}

/-- While the messages are parsed and `S3Handler` returns `nil` on each,
`SNSHandler` goes on to the next message. -/
theorem SNSHandler_run_append (env : Env E)
    (unmarshalEvent : Str → Except E (List S3EventRecord))
    (globalConfig : Config) (pre rest : List Str)
    (hpre : ∀ p ∈ pre, ∃ ev, unmarshalEvent p = .ok ev ∧
      S3Handler env globalConfig ev = .returned none) :
    SNSHandler.run env unmarshalEvent globalConfig (pre ++ rest)
      = (pre.filterMap (fun p => (unmarshalEvent p).toOption)
          ++ (SNSHandler.run env unmarshalEvent globalConfig rest).1,
        (SNSHandler.run env unmarshalEvent globalConfig rest).2) := by
  induction pre with
  | nil => simp
  | cons p ps ih =>
    obtain ⟨ev, hev, hS⟩ := hpre p (by simp)
    have ih' := ih (fun q hq => hpre q (by simp [hq]))
    have hcons : (p :: ps) ++ rest = p :: (ps ++ rest) := rfl
    rw [hcons]
    simp only [SNSHandler.run, hev, hS]
    rw [ih']
    simp [List.filterMap_cons, Except.toOption, hev]

/-- While the messages are parsed and `S3Handler` returns `nil` on each,
`SNSHandler` goes on to the next message. -/
theorem SNSHandler_append (env : Env E) (unmarshalEvent : Str → Except E (List S3EventRecord))
    (globalConfig : Config) (pre rest : List Str)
    (hpre : ∀ p ∈ pre, ∃ ev, unmarshalEvent p = .ok ev ∧
      S3Handler env globalConfig ev = .returned none) :
    SNSHandler env unmarshalEvent globalConfig (pre ++ rest)
      = SNSHandler env unmarshalEvent globalConfig rest ∧
    SNSHandler.handed env unmarshalEvent globalConfig (pre ++ rest)
      = pre.filterMap (fun p => (unmarshalEvent p).toOption)
        ++ SNSHandler.handed env unmarshalEvent globalConfig rest := by
  unfold SNSHandler SNSHandler.handed
  rw [SNSHandler_run_append env unmarshalEvent globalConfig pre rest hpre]
  exact ⟨rfl, rfl⟩

/-- One message that is parsed: what `SNSHandler` does next depends on what
`S3Handler` returns. -/
theorem SNSHandler_run_ok (env : Env E) (unmarshalEvent : Str → Except E (List S3EventRecord))
    (globalConfig : Config) (message : Str) (post : List Str) (s3Event : List S3EventRecord)
    (hev : unmarshalEvent message = .ok s3Event) :
    SNSHandler.handed env unmarshalEvent globalConfig (message :: post)
      = s3Event :: (match S3Handler env globalConfig s3Event with
          | .returned none => SNSHandler.handed env unmarshalEvent globalConfig post
          | _ => []) ∧
    SNSHandler env unmarshalEvent globalConfig (message :: post)
      = (match S3Handler env globalConfig s3Event with
          | .returned none => SNSHandler env unmarshalEvent globalConfig post
          | o => o) := by
  unfold SNSHandler SNSHandler.handed
  simp only [SNSHandler.run, hev]
  cases hS : S3Handler env globalConfig s3Event with
  | returned err => cases err <;> exact ⟨rfl, rfl⟩
  | blocked => exact ⟨rfl, rfl⟩
  | crashed => exact ⟨rfl, rfl⟩

/-- One message that is not parsed: `SNSHandler` returns the error. -/
theorem SNSHandler_run_error (env : Env E)
    (unmarshalEvent : Str → Except E (List S3EventRecord))
    (globalConfig : Config) (message : Str) (post : List Str) (e : E)
    (he : unmarshalEvent message = .error e) :
    SNSHandler.handed env unmarshalEvent globalConfig (message :: post) = [] ∧
    SNSHandler env unmarshalEvent globalConfig (message :: post) = .returned (some e) := by
  unfold SNSHandler SNSHandler.handed
  simp only [SNSHandler.run, he, and_self]

end SNSLemmas

/-- C11: secondary-notification unwrapping.  In an SNS event whose records
before a given one were parsed and handled without error, `SNSHandler` parses
the message of that record once.  If the message cannot be parsed,
`SNSHandler` returns the parse error: the record is not passed over, and no
later record is parsed or handed on.  If it can, the parsed S3 event is what
`S3Handler` is given, and `SNSHandler` goes on to the next record only when
`S3Handler` returned `nil`, returning the error of `S3Handler` otherwise.
`S3Handler` fetches the object the first reference of the parsed event names:
when `GetObject` fails for that region, bucket and key, `SNSHandler` returns
that error; when the object it gives cannot be decoded, `SNSHandler` returns
the decode error; and when it decodes, the calls made on the sinks start with
those of `streamToServices` on the records of that object, followed by the
calls for the rest of the event. -/
theorem SNSHandler_unwraps {E : Type} (env : Env E)
    (unmarshalEvent : Str → Except E (List S3EventRecord)) (globalConfig : Config)
    (pre post : List Str) (message : Str)
    (hpre : ∀ p ∈ pre, ∃ ev, unmarshalEvent p = .ok ev ∧
      S3Handler env globalConfig ev = .returned none) :
    (∀ e, unmarshalEvent message = .error e →
      SNSHandler env unmarshalEvent globalConfig (pre ++ message :: post) = .returned (some e) ∧
      SNSHandler.handed env unmarshalEvent globalConfig (pre ++ message :: post)
        = pre.filterMap (fun p => (unmarshalEvent p).toOption)) ∧
    (∀ s3Event, unmarshalEvent message = .ok s3Event →
      SNSHandler.handed env unmarshalEvent globalConfig (pre ++ message :: post)
        = pre.filterMap (fun p => (unmarshalEvent p).toOption) ++ s3Event ::
            (match S3Handler env globalConfig s3Event with
              | .returned none => SNSHandler.handed env unmarshalEvent globalConfig post
              | _ => []) ∧
      SNSHandler env unmarshalEvent globalConfig (pre ++ message :: post)
        = (match S3Handler env globalConfig s3Event with
            | .returned none => SNSHandler env unmarshalEvent globalConfig post
            | o => o)) ∧
    (∀ (s3Record : S3EventRecord) (rest : List S3EventRecord),
      unmarshalEvent message = .ok (s3Record :: rest) →
      (∀ err, env.GetObject s3Record.AWSRegion s3Record.Bucket s3Record.Key = .error err →
        SNSHandler env unmarshalEvent globalConfig (pre ++ message :: post)
          = .returned (some err)) ∧
      (∀ object err, env.GetObject s3Record.AWSRegion s3Record.Bucket s3Record.Key = .ok object →
        readLogFile env object = .error err →
        SNSHandler env unmarshalEvent globalConfig (pre ++ message :: post)
          = .returned (some err)) ∧
      (∀ object logFile,
        env.GetObject s3Record.AWSRegion s3Record.Bucket s3Record.Key = .ok object →
        readLogFile env object = .ok logFile →
        S3Handler.calls env globalConfig (s3Record :: rest)
          = (NewStreamer globalConfig).streamToServices env globalConfig logFile.Records
            ++ S3Handler.calls env globalConfig rest ∧
        S3Handler.result env globalConfig (s3Record :: rest)
          = S3Handler.result env globalConfig rest)) := by
  obtain ⟨h1, h2⟩ := SNSHandler_append env unmarshalEvent globalConfig pre (message :: post) hpre
  have hgo : ∀ s3Event, unmarshalEvent message = .ok s3Event →
      SNSHandler env unmarshalEvent globalConfig (pre ++ message :: post)
        = (match S3Handler env globalConfig s3Event with
            | .returned none => SNSHandler env unmarshalEvent globalConfig post
            | o => o) := by
    intro s3Event hev
    rw [h1]
    exact (SNSHandler_run_ok env unmarshalEvent globalConfig message post s3Event hev).2
  have hstop : ∀ (s3Record : S3EventRecord) (rest : List S3EventRecord) (err : E),
      (NewStreamer globalConfig).Stream env globalConfig s3Record.AWSRegion s3Record.Bucket
        s3Record.Key = ([], some err) →
      S3Handler env globalConfig (s3Record :: rest) = .returned (some err) := by
    intro s3Record rest err hst
    have hloop : S3Handler.loop env globalConfig (NewStreamer globalConfig) (s3Record :: rest)
        = ([], some err) := by
      simp only [S3Handler.loop, hst]
    have hclose := Machine.exec_close globalConfig.awsKinesisBatchSize env.PutRecords
      (NewStreamer globalConfig) (Machine.fresh : Machine E) rfl rfl
    unfold S3Handler S3Handler.machine S3Handler.calls S3Handler.result
    rw [hloop]
    simp only [List.nil_append]
    rw [hclose.1]
  refine ⟨?_, ?_, ?_⟩
  · intro e he
    rw [h1, h2]
    obtain ⟨g1, g2⟩ := SNSHandler_run_error env unmarshalEvent globalConfig message post e he
    rw [g1, g2]
    simp
  · intro s3Event hev
    refine ⟨?_, hgo s3Event hev⟩
    rw [h2, (SNSHandler_run_ok env unmarshalEvent globalConfig message post s3Event hev).1]
  · intro s3Record rest hev
    refine ⟨?_, ?_, ?_⟩
    · intro err hget
      rw [hgo _ hev, hstop s3Record rest err]
      unfold Streamer.Stream
      rw [hget]
    · intro object err hget hread
      rw [hgo _ hev, hstop s3Record rest err]
      unfold Streamer.Stream
      rw [hget]
      simp only [hread]
    · intro object logFile hget hread
      have hst : (NewStreamer globalConfig).Stream env globalConfig s3Record.AWSRegion
          s3Record.Bucket s3Record.Key
          = ((NewStreamer globalConfig).streamToServices env globalConfig logFile.Records,
              none) := by
        unfold Streamer.Stream
        rw [hget]
        simp only [hread]
      constructor
      · simp only [S3Handler.calls, S3Handler.loop, hst, List.append_assoc]
      · simp only [S3Handler.result, S3Handler.loop, hst]

/-- The witness of C11: a first message that holds an S3 event of one good
object, a second message that is not an S3 event, a third message. -/
theorem SNSHandler_unwraps_witness :
    SNSHandler (sampleEnv (fun _ _ => none))
        (fun message =>
          if message = "ok".toList then .ok [sampleObject "a"] else .error "unexpected end")
        (sampleConfig 500) (["ok".toList] ++ "not json".toList :: ["ok".toList])
      = .returned (some "unexpected end") :=
  ((SNSHandler_unwraps (sampleEnv (fun _ _ => none))
    (fun message =>
      if message = "ok".toList then .ok [sampleObject "a"] else .error "unexpected end")
    (sampleConfig 500) ["ok".toList] ["ok".toList] "not json".toList
    (by
      intro p hp
      simp only [List.mem_singleton] at hp
      subst hp
      exact ⟨[sampleObject "a"], rfl, by decide⟩)).1 "unexpected end" rfl).1

/-! ## The batch size -/

section BoundLemmas

variable {E : Type}

theorem Worker.bounded_start {b : Nat} (hb : 1 ≤ b) : Worker.Bounded b (Worker.start : Worker E) :=
  ⟨by simp [Worker.start], by simp [Worker.start], by simp [Worker.start],
    by intro _; simp [Worker.start]; omega⟩

/-- A call made from the `select` with at most `b` entries keeps the bound
invariant, whatever the call returns. -/
theorem Worker.bounded_put {b : Nat} (put : PutRecords E) (w : Worker E)
    (h : Worker.Bounded b w) (buf : List PutRecordsRequestEntry) (hbuf : buf.length ≤ b)
    (hb : 1 ≤ b) (drain : Bool) :
    Worker.Bounded b
      (({ w with kRecordsBuf := buf, phase := .putting drain } : Worker E).settle put) := by
  have hputs : ∀ c ∈ w.puts ++ [buf], c.length ≤ b := by
    intro c hc
    simp only [List.mem_append, List.mem_singleton] at hc
    rcases hc with hc | hc
    · exact h.puts_le c hc
    · subst hc; exact hbuf
  simp only [Worker.settle, Worker.putReturns]
  cases put w.puts buf with
  | some e => exact ⟨by simp, by simp, hputs, by simp⟩
  | none =>
    cases drain with
    | true => exact ⟨by simp, by simp, hputs, by simp⟩
    | false => exact ⟨by simp, by simp, hputs, by intro _; simpa using hb⟩

/-- Every turn of the loop keeps the bound invariant, for a batch size of at
least one and every client. -/
theorem Worker.bounded_step {b : Nat} (hb : 1 ≤ b) (put : PutRecords E) (w : Worker E)
    (h : Worker.Bounded b w) (m : Msg) :
    Worker.Bounded b (Worker.step (b : Int) put w m) := by
  by_cases hp : w.phase = .selecting
  · have hlt := h.buf_lt hp
    unfold Worker.step
    simp only [Worker.settle_of_settled put w h.settled, hp]
    cases m with
    | item r =>
      show Worker.Bounded b ((w.receive (b : Int) r).settle put)
      rw [Worker.receive_pos b hb]
      split_ifs with hfull
      · have hlen : (w.kRecordsBuf ++ [mkEntry r]).length ≤ b := by
          simp; omega
        exact Worker.bounded_put put w h _ hlen hb false
      · rw [Worker.settle_of_settled put _ (by simp [hp])]
        refine ⟨by simp [hp], by simp [hp], h.puts_le, ?_⟩
        intro _
        have hne : w.kRecordsBuf.length + 1 ≠ b := by
          intro heq; rw [heq] at hfull; simp at hfull
        simp; omega
    | quit =>
      show Worker.Bounded b (w.quitSignal.settle put)
      unfold Worker.quitSignal
      split_ifs
      · have := Worker.bounded_put put w h w.kRecordsBuf (Nat.le_of_lt hlt) hb true
        simpa using this
      · rw [Worker.settle_of_settled put _ (by simp)]
        exact ⟨by simp, by simp, h.puts_le, by simp⟩
  · rw [Worker.step_of_not_selecting (b : Int) put w h.settled hp m]
    exact h

theorem Worker.bounded_run {b : Nat} (hb : 1 ≤ b) (put : PutRecords E) (msgs : List Msg) :
    ∀ (w : Worker E), Worker.Bounded b w → Worker.Bounded b (Worker.run (b : Int) put w msgs) := by
  induction msgs with
  | nil => intro w h; exact h
  | cons m ms ih =>
    intro w h
    simp only [Worker.run, List.foldl_cons]
    exact ih _ (Worker.bounded_step hb put w h m)

/-- The batch size `Config.init` accepts. -/
theorem initBatchSize_bound (os : Os) (awsKinesisStream : Str) (n : Int)
    (h : Config.initBatchSize os awsKinesisStream = .ok n) : 1 ≤ n ∧ n ≤ 500 := by
  unfold Config.initBatchSize at h
  simp only at h
  split_ifs at h with h1 h2 h3
  · split at h
    · cases h
    · next m hm =>
      split_ifs at h with h4
      cases h
      omega
  · cases h; omega
  · cases h; omega

/-- What `Config.init` returns when it returns a configuration. -/
theorem init_ok (os : Os) (c : Config) (h : Config.init os = .ok c) :
    c.awsKinesisStream = os.Getenv "CT_KINESIS_STREAM".toList ∧
    Config.initBatchSize os (os.Getenv "CT_KINESIS_STREAM".toList) = .ok c.awsKinesisBatchSize := by
  unfold Config.init at h
  simp only at h
  split_ifs at h <;>
  · split at h
    · cases h
    · next n hn =>
      split at h
      · cases h
      · simp only [InitResult.ok.injEq] at h
        subst h
        exact ⟨rfl, hn⟩

end BoundLemmas

/-- C12: batch size bound.  Whenever `Config.init` succeeds, the batch size
`B` it leaves satisfies `1 ≤ B ≤ 500`, and `B` is 500 when the batch size
option is absent.  With the stream name set, a batch size option that
`strconv.Atoi` reads as an integer `≤ 0` or `> 500` never lets `init`
succeed: `init` returns an error (once the AWS session exists).  Hence, for
every client and everything sent to the worker, the test
`len(kRecordsBuf) % B` never divides by zero and no `PutRecords` call
carries more than 500 entries. -/
theorem Config.init_batch_size (os : Os) :
    (∀ c, Config.init os = .ok c →
      1 ≤ c.awsKinesisBatchSize ∧ c.awsKinesisBatchSize ≤ 500) ∧
    (∀ c, Config.init os = .ok c → os.Getenv "CT_KINESIS_BATCH_SIZE".toList = [] →
      c.awsKinesisBatchSize = 500) ∧
    (∀ n : Int, os.Getenv "CT_KINESIS_STREAM".toList ≠ [] →
      os.Atoi (os.Getenv "CT_KINESIS_BATCH_SIZE".toList) = some n →
      os.Getenv "CT_KINESIS_BATCH_SIZE".toList ≠ [] → n ≤ 0 ∨ n > 500 →
      (∀ c, Config.init os ≠ .ok c) ∧
      (os.NewSession = true → ∃ err, Config.init os = .stopped (.error err))) ∧
    (∀ c, Config.init os = .ok c → ∀ (E : Type) (put : PutRecords E) (msgs : List Msg),
      (Worker.run c.awsKinesisBatchSize put Worker.start msgs).phase ≠ .panicked ∧
      ∀ batch ∈ (Worker.run c.awsKinesisBatchSize put Worker.start msgs).puts,
        batch.length ≤ 500) := by
  have hbound : ∀ c, Config.init os = .ok c →
      1 ≤ c.awsKinesisBatchSize ∧ c.awsKinesisBatchSize ≤ 500 := by
    intro c h
    exact initBatchSize_bound os _ _ (init_ok os c h).2
  have hbad : ∀ n : Int, os.Getenv "CT_KINESIS_STREAM".toList ≠ [] →
      os.Atoi (os.Getenv "CT_KINESIS_BATCH_SIZE".toList) = some n →
      os.Getenv "CT_KINESIS_BATCH_SIZE".toList ≠ [] → n ≤ 0 ∨ n > 500 →
      ∃ err, Config.initBatchSize os (os.Getenv "CT_KINESIS_STREAM".toList)
        = .error (.error err) := by
    intro n hs ha hopt hn
    unfold Config.initBatchSize
    simp only [hs, ha, hopt, hn, ne_eq, not_false_eq_true, if_true]
    split_ifs
    · exact ⟨_, rfl⟩
    · exact ⟨_, rfl⟩
  refine ⟨hbound, ?_, ?_, ?_⟩
  · intro c h hopt
    have h2 := (init_ok os c h).2
    unfold Config.initBatchSize at h2
    simp only [hopt, ne_eq, not_true_eq_false, if_false] at h2
    split_ifs at h2 <;> (simp only [Except.ok.injEq] at h2; exact h2.symm)
  · intro n hs ha hopt hn
    obtain ⟨err, herr⟩ := hbad n hs ha hopt hn
    constructor
    · intro c hc
      have h2 := (init_ok os c hc).2
      rw [herr] at h2
      cases h2
    · intro hsess
      unfold Config.init
      simp only [hsess, Bool.not_true, Bool.false_eq_true, if_false, herr, hs, false_and]
      split_ifs <;> exact ⟨_, rfl⟩
  · intro c h E put msgs
    obtain ⟨h1, h500⟩ := hbound c h
    obtain ⟨b, hbeq⟩ : ∃ b : Nat, c.awsKinesisBatchSize = (b : Int) :=
      ⟨c.awsKinesisBatchSize.toNat, by omega⟩
    have hb : 1 ≤ b := by omega
    have hb500 : b ≤ 500 := by omega
    rw [hbeq]
    have hinv := Worker.bounded_run hb put msgs Worker.start (Worker.bounded_start hb)
    exact ⟨hinv.sound, fun batch hmem => le_trans (hinv.puts_le batch hmem) hb500⟩

/-- The witness of C12: with the stream name set, the batch size option `501`
makes `init` return an error. -/
theorem Config.init_batch_size_witness :
    ∃ err, Config.init (sampleOs "501") = .stopped (.error err) :=
  ((Config.init_batch_size (sampleOs "501")).2.2.1 501 (by decide) (by decide) (by decide)
    (by decide)).2 rfl

/-! ## End to end -/

section EndToEndLemmas

variable {E : Type}

/-- The `Send` calls of the handler followed by `Streamer.Close`, on fresh
sinks with the batching sink set and the calls with a full batch succeeding:
`Close` returns, and the worker is the worker that was fed the records sent to
the batching sink and then the drain signal. -/
theorem Machine.exec_sends_close {b : Nat} (hb : 1 ≤ b) (put : PutRecords E)
    (hput : ∀ cs c, c.length = b → put cs c = none) (s : Streamer)
    (hk : s.kinesisStreamer = true) (calls : List Call)
    (hsend : ∀ c ∈ calls, ∃ k r, c = Call.Send k r) :
    (Machine.exec (b : Int) put Machine.fresh (calls ++ s.Close)).status = .running ∧
    (Machine.exec (b : Int) put Machine.fresh (calls ++ s.Close)).worker
      = Worker.drainAfter (b : Int) put (calls.filterMap (Call.sentTo .kinesis)) := by
  obtain ⟨h1, _, _, h4, h5⟩ := Machine.exec_sends hb put hput calls hsend Machine.fresh []
    rfl (by simpa [Machine.fresh, Worker.settle, Worker.start] using Worker.inv_start (E := E) hb)
  obtain ⟨g1, _, _, g4⟩ := Machine.exec_close (b : Int) put s _ h1 h5.phase_eq
  have hsplit : Machine.exec (b : Int) put Machine.fresh (calls ++ s.Close)
      = Machine.exec (b : Int) put (Machine.exec (b : Int) put Machine.fresh calls) s.Close := by
    simp [Machine.exec, List.foldl_append]
  rw [hsplit]
  refine ⟨g1, ?_⟩
  rw [g4, if_pos hk, h4]
  have hstart : (Machine.fresh : Machine E).worker.settle put = Worker.start := by
    simp [Machine.fresh, Worker.settle, Worker.start]
  rw [hstart]
  simp [Worker.drainAfter, Worker.run, List.foldl_append]

/-- With no filter, the encodings of records that can all be encoded. -/
theorem survivors_all (env : Env E) (records : List Record)
    (hser : ∀ record ∈ records, ∃ encodedRecord, env.Marshal record = .ok encodedRecord) :
    survivors env [] records = records.filterMap env.encode ∧
    (survivors env [] records).length = records.length := by
  have h1 : survivors env [] records = records.filterMap env.encode := by
    simp [survivors, doFiltersMatch]
  refine ⟨h1, ?_⟩
  rw [h1]
  clear h1
  induction records with
  | nil => rfl
  | cons r rs ih =>
    obtain ⟨b, hb⟩ := hser r (by simp)
    have := ih (fun q hq => hser q (by simp [hq]))
    simp [List.filterMap_cons, Env.encode, hb, this]

end EndToEndLemmas

/-- C13, as the code has it: end-to-end batching.  For 1200 records that can
all be encoded, no filter, batch size 500, the batching sink alone, and a
client whose `PutRecords` calls with 500 entries succeed, `streamToServices`
followed by `Close` returns after exactly 3 `PutRecords` calls, of 500, 500
and 200 entries in that order, whose concatenation is the 1200 encoded
records in the order of the object. -/
theorem Streamer.end_to_end_batching {E : Type} (env : Env E) (globalConfig : Config)
    (records : List Record) (hlen : records.length = 1200)
    (hser : ∀ record ∈ records, ∃ encodedRecord, env.Marshal record = .ok encodedRecord)
    (hfilters : globalConfig.eventFilters = [])
    (hput : ∀ cs c, c.length = 500 → env.PutRecords cs c = none) :
    (Machine.exec 500 env.PutRecords Machine.fresh
      (Streamer.batchingOnly.streamToServices env globalConfig records
        ++ Streamer.batchingOnly.Close)).status = .running ∧
    (Machine.exec 500 env.PutRecords Machine.fresh
      (Streamer.batchingOnly.streamToServices env globalConfig records
        ++ Streamer.batchingOnly.Close)).worker.puts.map List.length = [500, 500, 200] ∧
    ((Machine.exec 500 env.PutRecords Machine.fresh
      (Streamer.batchingOnly.streamToServices env globalConfig records
        ++ Streamer.batchingOnly.Close)).worker.puts.flatten.map
        PutRecordsRequestEntry.Data = records.filterMap env.encode) ∧
    (records.filterMap env.encode).length = 1200 := by
  generalize hs : Streamer.batchingOnly = s
  have hk : s.kinesisStreamer = true := by rw [← hs]; rfl
  have hhas : s.has .kinesis = true := by rw [← hs]; rfl
  obtain ⟨hrun, hworker⟩ := Machine.exec_sends_close (b := 500) (by omega) env.PutRecords hput s hk
    (s.streamToServices env globalConfig records)
    (streamToServices_sends env globalConfig s records)
  have hitems : (s.streamToServices env globalConfig records).filterMap (Call.sentTo .kinesis)
      = records.filterMap env.encode := by
    rw [streamToServices_eq, filterMap_flatMap_fanOut, hhas, if_pos rfl, hfilters]
    exact (survivors_all env records hser).1
  have hcount : (records.filterMap env.encode).length = 1200 := by
    rw [← (survivors_all env records hser).1, (survivors_all env records hser).2, hlen]
  rw [hitems] at hworker
  obtain ⟨full, buf, hfull, hshort, hcat, hshape⟩ :=
    Worker.drainAfter_shape (b := 500) (by omega) env.PutRecords hput
      (records.filterMap env.encode)
  have hnat : ((500 : Nat) : Int) = 500 := rfl
  rw [hnat] at hworker hshape hrun
  rw [hworker, hshape] at *
  have htotal : full.length * 500 + buf.length = 1200 := by
    have := congrArg List.length hcat
    simpa [length_flatten_of_full 500 full hfull, hcount] using this
  have hq : full.length = 2 := by omega
  have hr : buf.length = 200 := by omega
  have hne : buf ≠ [] := by
    intro h; rw [h] at hr; simp at hr
  refine ⟨hrun, ?_, ?_, hcount⟩
  · simp only [hne, if_false]
    match full, hq, hfull with
    | [c1, c2], _, hfull =>
      have h1 := hfull c1 (by simp)
      have h2 := hfull c2 (by simp)
      simp [h1, h2, hr]
  · simp only [hne, if_false, List.flatten_append, List.flatten_cons, List.flatten_nil,
      List.append_nil]
    rw [hcat, List.map_map]
    have : PutRecordsRequestEntry.Data ∘ mkEntry = id := by funext r; rfl
    simp [this]

/-- The witness of C13 as the code has it: 1200 copies of one record and a
client that never fails. -/
theorem Streamer.end_to_end_batching_witness :
    (Machine.exec 500 (sampleEnv (fun _ _ => none)).PutRecords Machine.fresh
      (Streamer.batchingOnly.streamToServices (sampleEnv (fun _ _ => none)) (sampleConfig 500)
          (List.replicate 1200 sampleRecord)
        ++ Streamer.batchingOnly.Close)).worker.puts.map List.length = [500, 500, 200] :=
  (Streamer.end_to_end_batching (sampleEnv (fun _ _ => none)) (sampleConfig 500)
    (List.replicate 1200 sampleRecord) (List.length_replicate _ _) (fun _ _ => ⟨[1], rfl⟩) rfl
    (fun _ _ _ => rfl)).2.1

section AnyClientLemmas

variable {E : Type}

/-- After `settle` the worker is not inside a call. -/
theorem Worker.settle_settled (put : PutRecords E) (w : Worker E) :
    ∀ d, (w.settle put).phase ≠ .putting d := by
  intro d
  unfold Worker.settle
  split
  · next d' hd =>
    unfold Worker.putReturns
    simp only [hd]
    cases put w.puts w.kRecordsBuf with
    | some e => simp
    | none => cases d' <;> simp
  · next hne => exact fun h => hne d h

theorem Worker.settle_idem (put : PutRecords E) (w : Worker E) :
    (w.settle put).settle put = w.settle put :=
  Worker.settle_of_settled put _ (Worker.settle_settled put w)

/-- A turn of the loop starts by letting the call in progress return. -/
theorem Worker.step_settle (batchSize : Int) (put : PutRecords E) (w : Worker E) (m : Msg) :
    Worker.step batchSize put (w.settle put) m = Worker.step batchSize put w m := by
  unfold Worker.step
  rw [Worker.settle_idem]

/-- A turn of the loop ends outside any call. -/
theorem Worker.step_settled (batchSize : Int) (put : PutRecords E) (w : Worker E) (m : Msg) :
    ∀ d, (Worker.step batchSize put w m).phase ≠ .putting d := by
  unfold Worker.step
  simp only
  split
  · cases m with
    | item r => exact Worker.settle_settled put _
    | quit => exact Worker.settle_settled put _
  · exact Worker.settle_settled put w

/-- A channel operation that went through. -/
theorem Machine.rendezvous_some (put : PutRecords E) (m : Machine E) (hrun : m.status = .running)
    (w : Worker E) :
    Machine.Good (m.rendezvous put (some w)) ∧ (m.rendezvous put (some w)).worker = w := by
  unfold Machine.rendezvous
  cases hph : w.phase <;> simp [Machine.Good, hrun, hph]

/-- A channel operation that nothing will take. -/
theorem Machine.rendezvous_none (put : PutRecords E) (m : Machine E)
    (hgone : (m.worker.settle put).phase ≠ .selecting) :
    Machine.Good (m.rendezvous put none) ∧
    (m.rendezvous put none).worker = m.worker.settle put := by
  unfold Machine.rendezvous
  exact ⟨fun _ => ⟨Worker.settle_settled put m.worker, hgone⟩, rfl⟩

/-- One call of the handler, for every client: the worker, once the call in
progress has returned, is the worker after the message the call puts on its
channels, if any. -/
theorem Machine.call_worker (batchSize : Int) (put : PutRecords E) (m : Machine E)
    (hgood : Machine.Good m) (c : Call) :
    Machine.Good (Machine.call batchSize put m c) ∧
    (Machine.call batchSize put m c).worker.settle put
      = Worker.run batchSize put (m.worker.settle put) c.toMsg.toList := by
  by_cases hrun : m.status = .running
  · have hid : ∀ m' : Machine E, m'.status = .running → m'.worker = m.worker →
        Machine.Good m' ∧ m'.worker.settle put
          = Worker.run batchSize put (m.worker.settle put) [] := by
      intro m' h1 h2
      refine ⟨fun h => absurd h1 h, ?_⟩
      simp [Worker.run, h2]
    have hmsg : ∀ (msg : Msg) (w2 : Worker E) (r : Option (Worker E)),
        ((m.worker.settle put).phase = .selecting →
          r = some w2 ∧ Worker.step batchSize put m.worker msg = w2.settle put) →
        ((m.worker.settle put).phase ≠ .selecting → r = none) →
        Machine.Good (m.rendezvous put r) ∧
        (m.rendezvous put r).worker.settle put
          = Worker.run batchSize put (m.worker.settle put) [msg] := by
      intro msg w2 r hsel hnot
      have hrunstep : Worker.run batchSize put (m.worker.settle put) [msg]
          = Worker.step batchSize put m.worker msg := by
        simp [Worker.run, Worker.step_settle]
      rw [hrunstep]
      by_cases hph : (m.worker.settle put).phase = .selecting
      · obtain ⟨hr, hst⟩ := hsel hph
        subst hr
        obtain ⟨g1, g2⟩ := Machine.rendezvous_some put m hrun w2
        exact ⟨g1, by rw [g2, hst]⟩
      · have hr := hnot hph
        subst hr
        obtain ⟨g1, g2⟩ := Machine.rendezvous_none put m hph
        refine ⟨g1, ?_⟩
        rw [g2, Worker.settle_idem]
        exact (Worker.step_of_not_selecting batchSize put _ (Worker.settle_settled put _) hph
          msg).symm.trans (Worker.step_settle batchSize put m.worker msg)
    cases c with
    | Send sink record =>
      cases sink with
      | kinesis =>
        have hcall : Machine.call batchSize put m (.Send .kinesis record)
            = m.rendezvous put (KinesisStreamer.Send batchSize put m.worker record) := by
          simp only [Machine.call, hrun]
        rw [hcall]
        refine hmsg (.item record) ((m.worker.settle put).receive batchSize record) _ ?_ ?_
        · intro hph
          constructor
          · unfold KinesisStreamer.Send; simp only [hph]
          · unfold Worker.step; simp only [hph]
        · intro hph
          unfold KinesisStreamer.Send
          dsimp only
          split
          · next hsel => exact absurd hsel hph
          · rfl
      | pubsub =>
        have hcall : Machine.call batchSize put m (.Send .pubsub record)
            = { m with published := m.published ++ [record] } := by
          simp only [Machine.call, hrun]
        rw [hcall]
        exact hid _ hrun rfl
      | stackdriver =>
        have hcall : Machine.call batchSize put m (.Send .stackdriver record)
            = { m with logged := m.logged ++ [record] } := by
          simp only [Machine.call, hrun]
        rw [hcall]
        exact hid _ hrun rfl
    | Close sink =>
      cases sink with
      | kinesis =>
        have hcall : Machine.call batchSize put m (.Close .kinesis)
            = m.rendezvous put (KinesisStreamer.Close put m.worker) := by
          simp only [Machine.call, hrun]
        rw [hcall]
        refine hmsg .quit ((m.worker.settle put).quitSignal.settle put) _ ?_ ?_
        · intro hph
          constructor
          · unfold KinesisStreamer.Close; simp only [hph]
          · unfold Worker.step; simp only [hph]; exact (Worker.settle_idem put _).symm
        · intro hph
          unfold KinesisStreamer.Close
          dsimp only
          split
          · next hsel => exact absurd hsel hph
          · rfl
      | pubsub =>
        have hcall : Machine.call batchSize put m (.Close .pubsub) = m := by
          simp only [Machine.call, hrun]
        rw [hcall]
        exact hid _ hrun rfl
      | stackdriver =>
        have hcall : Machine.call batchSize put m (.Close .stackdriver) = m := by
          simp only [Machine.call, hrun]
        rw [hcall]
        exact hid _ hrun rfl
  · have hcall : Machine.call batchSize put m c = m := by
      unfold Machine.call
      cases hst : m.status with
      | running => exact absurd hst hrun
      | blocked => rfl
      | crashed => rfl
    rw [hcall]
    refine ⟨hgood, ?_⟩
    obtain ⟨hset, hgone⟩ := hgood hrun
    rw [Worker.settle_of_settled put _ hset]
    cases hm : c.toMsg with
    | none => rfl
    | some msg =>
      simp [Worker.run, Worker.step_of_not_selecting batchSize put _ hset hgone]

/-- The calls of the handler, for every client: the worker takes the
messages the calls put on its channels, in order, as long as it is in its
loop. -/
theorem Machine.exec_worker (batchSize : Int) (put : PutRecords E) (calls : List Call) :
    ∀ m : Machine E, Machine.Good m →
      Machine.Good (Machine.exec batchSize put m calls) ∧
      (Machine.exec batchSize put m calls).worker.settle put
        = Worker.run batchSize put (m.worker.settle put) (calls.filterMap Call.toMsg) := by
  induction calls with
  | nil => intro m h; exact ⟨h, rfl⟩
  | cons c cs ih =>
    intro m h
    obtain ⟨h1, h2⟩ := Machine.call_worker batchSize put m h c
    obtain ⟨g1, g2⟩ := ih _ h1
    simp only [Machine.exec, List.foldl_cons] at g1 g2 ⊢
    refine ⟨g1, ?_⟩
    rw [g2, h2]
    cases hm : c.toMsg with
    | none => simp [Worker.run, hm]
    | some msg => simp [Worker.run, hm]

/-- The worker after the `Close` of the batching sink is outside any call. -/
theorem Machine.call_close_settled (batchSize : Int) (put : PutRecords E) (m : Machine E)
    (hgood : Machine.Good m) :
    ∀ d, (Machine.call batchSize put m (.Close .kinesis)).worker.phase ≠ .putting d := by
  by_cases hrun : m.status = .running
  · unfold Machine.call KinesisStreamer.Close
    simp only [hrun]
    by_cases hph : (m.worker.settle put).phase = .selecting
    · simp only [hph]
      rw [(Machine.rendezvous_some put m hrun _).2]
      exact Worker.settle_settled put _
    · have hnone : (match (m.worker.settle put).phase with
          | .selecting => some ((m.worker.settle put).quitSignal.settle put)
          | _ => (none : Option (Worker E))) = none := by
        cases hph' : (m.worker.settle put).phase with
        | selecting => exact absurd hph' hph
        | putting d => rfl
        | returned err => rfl
        | panicked => rfl
      rw [hnone, (Machine.rendezvous_none put m hph).2]
      exact Worker.settle_settled put _
  · have hcall : Machine.call batchSize put m (.Close .kinesis) = m := by
      unfold Machine.call
      cases hst : m.status with
      | running => exact absurd hst hrun
      | blocked => rfl
      | crashed => rfl
    rw [hcall]
    exact (hgood hrun).1

/-- For every client: after the `Send` calls of the handler and the `Close`
of a `Streamer` with the batching sink alone, the worker is the worker that
was fed the records sent and then the drain signal. -/
theorem Machine.exec_batchingOnly (batchSize : Int) (put : PutRecords E) (calls : List Call)
    (hsend : ∀ c ∈ calls, ∃ k r, c = Call.Send k r) :
    (Machine.exec batchSize put Machine.fresh (calls ++ Streamer.batchingOnly.Close)).worker
      = Worker.drainAfter batchSize put (calls.filterMap (Call.sentTo .kinesis)) := by
  have hfresh : Machine.Good (Machine.fresh : Machine E) := fun h => absurd rfl h
  have hclose : Streamer.batchingOnly.Close = [Call.Close .kinesis] := rfl
  have hmsgs : (calls ++ [Call.Close .kinesis]).filterMap Call.toMsg
      = (calls.filterMap (Call.sentTo .kinesis)).map Msg.item ++ [Msg.quit] := by
    rw [List.filterMap_append]
    congr 1
    clear hclose
    induction calls with
    | nil => rfl
    | cons c cs ih =>
      obtain ⟨k, r, rfl⟩ := hsend c (by simp)
      have ih' := ih (fun c hc => hsend c (by simp [hc]))
      cases k <;> simp [Call.toMsg, Call.sentTo, ih']
  obtain ⟨_, h2⟩ := Machine.exec_worker batchSize put (calls ++ [Call.Close .kinesis])
    Machine.fresh hfresh
  obtain ⟨g1, _⟩ := Machine.exec_worker batchSize put calls Machine.fresh hfresh
  have hset : ∀ d, (Machine.exec batchSize put Machine.fresh
      (calls ++ [Call.Close .kinesis])).worker.phase ≠ .putting d := by
    have : Machine.exec batchSize put Machine.fresh (calls ++ [Call.Close .kinesis])
        = Machine.call batchSize put (Machine.exec batchSize put Machine.fresh calls)
            (.Close .kinesis) := by
      simp [Machine.exec, List.foldl_append]
    rw [this]
    exact Machine.call_close_settled batchSize put _ g1
  rw [hclose, ← Worker.settle_of_settled put _ hset, h2, hmsgs]
  simp [Worker.drainAfter, Machine.fresh, Worker.settle, Worker.start]

/-- While the buffer stays short of a batch the worker only buffers, whatever
the client. -/
theorem Worker.run_short {b : Nat} (hb : 1 ≤ b) (put : PutRecords E) (items : List Bytes) :
    ∀ w : Worker E, w.phase = .selecting → w.kRecordsBuf.length + items.length < b →
      Worker.run (b : Int) put w (items.map Msg.item)
        = { w with kRecordsBuf := w.kRecordsBuf ++ items.map mkEntry } := by
  induction items with
  | nil => intro w _ _; simp [Worker.run]
  | cons r rs ih =>
    intro w hp hlen
    simp only [List.length_cons] at hlen
    have hmod : ¬ (w.kRecordsBuf.length + 1) % b = 0 := by
      rw [Nat.mod_eq_of_lt (by omega)]; omega
    have hstep : Worker.step (b : Int) put w (.item r)
        = { w with kRecordsBuf := w.kRecordsBuf ++ [mkEntry r] } := by
      unfold Worker.step
      simp only [Worker.settle_selecting put w hp, hp, Worker.receive_pos b hb, if_neg hmod]
      exact Worker.settle_selecting put _ rfl
    simp only [List.map_cons, Worker.run, List.foldl_cons, hstep]
    have := ih { w with kRecordsBuf := w.kRecordsBuf ++ [mkEntry r] } hp (by simp; omega)
    simp only [Worker.run] at this
    rw [this]
    simp

/-- A client that fails the first full batch: the worker makes that one call
and returns its error, whatever follows. -/
theorem Worker.drainAfter_first_fails {b : Nat} (hb : 1 ≤ b) (put : PutRecords E) (e : E)
    (hput : ∀ c, put [] c = some e) (first rest : List Bytes) (r : Bytes)
    (hlen : first.length + 1 = b) :
    Worker.drainAfter (b : Int) put (first ++ r :: rest)
      = { kRecordsBuf := first.map mkEntry ++ [mkEntry r]
          puts := [first.map mkEntry ++ [mkEntry r]]
          phase := .returned (some e) } := by
  have h1 := Worker.run_short hb put first Worker.start rfl (by simp [Worker.start]; omega)
  have hmod : ((Worker.start : Worker E).kRecordsBuf ++ first.map mkEntry).length + 1 = b := by
    simp [Worker.start, hlen]
  have hstep : Worker.step (b : Int) put
      ({ (Worker.start : Worker E) with
          kRecordsBuf := (Worker.start : Worker E).kRecordsBuf ++ first.map mkEntry }) (.item r)
      = { kRecordsBuf := first.map mkEntry ++ [mkEntry r]
          puts := [first.map mkEntry ++ [mkEntry r]]
          phase := .returned (some e) } := by
    unfold Worker.step
    rw [Worker.settle_selecting put _ rfl]
    simp only [Worker.start, Worker.receive_pos b hb]
    have h0 : (([] ++ first.map mkEntry : List PutRecordsRequestEntry).length + 1) % b = 0 := by
      simp [hlen]
    simp only [h0, if_true]
    simp [Worker.settle, Worker.putReturns, hput]
  unfold Worker.drainAfter
  have hsplit : (first ++ r :: rest).map Msg.item ++ [Msg.quit]
      = first.map Msg.item ++ (Msg.item r :: (rest.map Msg.item ++ [Msg.quit])) := by simp
  rw [hsplit]
  simp only [Worker.run, List.foldl_append, List.foldl_cons]
  simp only [Worker.run] at h1
  rw [h1, hstep]
  have hrest := Worker.run_of_returned (b : Int) put (rest.map Msg.item ++ [Msg.quit])
    { kRecordsBuf := first.map mkEntry ++ [mkEntry r]
      puts := [first.map mkEntry ++ [mkEntry r]]
      phase := .returned (some e) } (some e) rfl
  simpa [Worker.run, List.foldl_append] using hrest

end AnyClientLemmas

/-- C13, the claim refuted: the same 1200 records, batch size 500, the
batching sink alone, and a client whose `PutRecords` calls fail.  The worker
makes one call, of 500 entries, and returns its error; no second or third
call is made. -/
theorem Streamer.end_to_end_failing_client :
    (Machine.exec 500 (sampleEnv (fun _ _ => some "throttled")).PutRecords Machine.fresh
      (Streamer.batchingOnly.streamToServices (sampleEnv (fun _ _ => some "throttled"))
          (sampleConfig 500) (List.replicate 1200 sampleRecord)
        ++ Streamer.batchingOnly.Close)).worker.puts.map List.length = [500] := by
  have hitems : (Streamer.batchingOnly.streamToServices (sampleEnv (fun _ _ => some "throttled"))
      (sampleConfig 500) (List.replicate 1200 sampleRecord)).filterMap (Call.sentTo .kinesis)
      = List.replicate 499 [1] ++ [1] :: List.replicate 700 [1] := by
    rw [streamToServices_eq, filterMap_flatMap_fanOut]
    have hhas : Streamer.batchingOnly.has .kinesis = true := rfl
    rw [hhas, if_pos rfl]
    have hsurv : ∀ n : Nat, survivors (sampleEnv (fun _ _ => some "throttled"))
        (sampleConfig 500).eventFilters (List.replicate n sampleRecord)
        = List.replicate n [1] := by
      intro n
      induction n with
      | zero => rfl
      | succ k ih =>
        simp only [List.replicate_succ]
        simp only [survivors] at ih ⊢
        simp only [sampleConfig, doFiltersMatch, Bool.not_false, List.filter_cons_of_pos,
          List.filterMap_cons] at ih ⊢
        rw [ih]
        rfl
    rw [hsurv]
    have hsplit : (1200 : Nat) = 499 + (1 + 700) := by norm_num
    rw [hsplit, List.replicate_add, List.replicate_add]
    rfl
  have hexec := Machine.exec_batchingOnly (E := String) 500
    (sampleEnv (fun _ _ => some "throttled")).PutRecords
    (Streamer.batchingOnly.streamToServices (sampleEnv (fun _ _ => some "throttled"))
      (sampleConfig 500) (List.replicate 1200 sampleRecord))
    (streamToServices_sends _ _ _ _)
  rw [hexec, hitems]
  have hfirst := Worker.drainAfter_first_fails (E := String) (b := 500) (by norm_num)
    (sampleEnv (fun _ _ => some "throttled")).PutRecords "throttled" (fun _ => rfl)
    (List.replicate 499 [1]) (List.replicate 700 [1]) [1] (by rw [List.length_replicate])
  have hnat : ((500 : Nat) : Int) = 500 := rfl
  rw [hnat] at hfirst
  rw [hfirst]
  simp only [List.map_cons, List.map_nil, List.length_append, List.length_map,
    List.length_replicate, List.length_singleton]

end CloudTrailStreamer

namespace Common

/-! ## Alert metadata -/

section MetadataLemmas

theorem getMetadataIn_eq (h : Heap) (metadata : List Ptr) (key : GoString) :
    getMetadataIn h metadata key
      = (match findIn h metadata key with
          | .entry am => some am.Value
          | .absent => some []
          | .panicked => none) := by
  induction metadata with
  | nil => rfl
  | cons p rest ih =>
    unfold getMetadataIn findIn
    cases deref h p with
    | none => rfl
    | some am =>
      dsimp only
      split_ifs
      · rfl
      · exact ih

theorem isStatusIn_eq (h : Heap) (metadata : List Ptr) (s : GoString) :
    isStatusIn h metadata s
      = (match findIn h metadata (ascii "status") with
          | .entry am => some (decide (am.Value = s))
          | .absent => some false
          | .panicked => none) := by
  induction metadata with
  | nil => rfl
  | cons p rest ih =>
    unfold isStatusIn findIn
    cases deref h p with
    | none => rfl
    | some am =>
      dsimp only
      split_ifs
      · rfl
      · exact ih

theorem deref_set (h : Heap) (i : Nat) (x : AlertMeta) (p : Ptr) :
    deref (h.set i x) p = if p = some i then (deref h p).map (fun _ => x) else deref h p := by
  cases p with
  | none => simp [deref]
  | some j =>
    simp only [deref, List.getElem?_set, Option.some.injEq]
    by_cases hji : i = j
    · subst hji
      by_cases hlt : i < h.length
      · simp [hlt, List.getElem?_eq_getElem]
      · simp [hlt, List.getElem?_eq_none (Nat.le_of_not_lt hlt)]
    · have : ¬ j = i := fun hh => hji hh.symm
      simp [hji, this]

theorem deref_append (h l : Heap) (p : Ptr) (hp : (deref h p).isSome = true) :
    deref (h ++ l) p = deref h p := by
  cases p with
  | none => rfl
  | some j =>
    simp only [deref] at hp ⊢
    have hlt : j < h.length := by
      by_contra hge
      rw [List.getElem?_eq_none (Nat.le_of_not_lt hge)] at hp
      simp at hp
    rw [List.getElem?_append_left hlt]

theorem deref_new (h : Heap) (x : AlertMeta) : deref (h ++ [x]) (some h.length) = some x := by
  simp [deref]

theorem findIn_cons (h : Heap) (p : Ptr) (rest : List Ptr) (key : GoString) :
    findIn h (p :: rest) key
      = (match deref h p with
          | none => .panicked
          | some am => if am.Key = key then .entry am else findIn h rest key) :=
  rfl

/-- The entries before the first one with the key are passed over. -/
theorem findIn_skip (h : Heap) (pre rest : List Ptr) (key : GoString)
    (hpre : ∀ p ∈ pre, ∃ bm, deref h p = some bm ∧ bm.Key ≠ key) :
    findIn h (pre ++ rest) key = findIn h rest key := by
  induction pre with
  | nil => rfl
  | cons p ps ih =>
    obtain ⟨bm, hbm, hkey⟩ := hpre p (by simp)
    show findIn h (p :: (ps ++ rest)) key = findIn h rest key
    rw [findIn_cons]
    simp only [hbm, hkey, if_false]
    exact ih (fun q hq => hpre q (by simp [hq]))

/-- Writing the value of an entry of another key does not change what is
found. -/
theorem findIn_set_other (h : Heap) (i : Nat) (am : AlertMeta) (v key : GoString)
    (hi : h[i]? = some am) (hkey : am.Key ≠ key) (metadata : List Ptr) :
    findIn (h.set i { am with Value := v }) metadata key = findIn h metadata key := by
  induction metadata with
  | nil => rfl
  | cons p rest ih =>
    unfold findIn
    rw [deref_set]
    by_cases hp : p = some i
    · subst hp
      simp only [if_true, deref, hi, Option.map_some', hkey, if_false]
      exact ih
    · simp only [hp, if_false]
      cases deref h p with
      | none => rfl
      | some bm =>
        dsimp only
        split_ifs
        · rfl
        · exact ih

/-- New values in the heap do not change what is found. -/
theorem findIn_append_heap (h l : Heap) (metadata : List Ptr) (key : GoString)
    (hnn : NonNil h metadata) :
    findIn (h ++ l) metadata key = findIn h metadata key := by
  induction metadata with
  | nil => rfl
  | cons p rest ih =>
    unfold findIn
    rw [deref_append h l p (hnn p (by simp))]
    cases deref h p with
    | none => rfl
    | some bm =>
      dsimp only
      split_ifs
      · rfl
      · exact ih (fun q hq => hnn q (by simp [hq]))

/-- A last entry of another key does not change what is found. -/
theorem findIn_append_other (h : Heap) (metadata : List Ptr) (p : Ptr) (x : AlertMeta)
    (key : GoString) (hp : deref h p = some x) (hkey : x.Key ≠ key) :
    findIn h (metadata ++ [p]) key = findIn h metadata key := by
  induction metadata with
  | nil => simp [findIn, hp, hkey]
  | cons q rest ih =>
    show findIn h (q :: (rest ++ [p])) key = findIn h (q :: rest) key
    unfold findIn
    cases deref h q with
    | none => rfl
    | some bm =>
      dsimp only
      split_ifs
      · rfl
      · exact ih

/-- The loop of `SetMetadata` on entries that are non-nil: it assigns to the
value the first entry with the key points to, or ends when no entry has the
key. -/
theorem setMetadataIn_spec (h : Heap) (metadata : List Ptr) (key value : GoString)
    (hnn : NonNil h metadata) :
    (∃ pre i am post, metadata = pre ++ some i :: post ∧
      (∀ p ∈ pre, ∃ bm, deref h p = some bm ∧ bm.Key ≠ key) ∧
      h[i]? = some am ∧ am.Key = key ∧
      setMetadataIn h metadata key value = .assigned (h.set i { am with Value := value })) ∨
    ((∀ p ∈ metadata, ∃ bm, deref h p = some bm ∧ bm.Key ≠ key) ∧
      setMetadataIn h metadata key value = .ended) := by
  induction metadata with
  | nil => right; exact ⟨by simp, rfl⟩
  | cons p rest ih =>
    have hp := hnn p (by simp)
    cases p with
    | none => simp [deref] at hp
    | some i =>
      obtain ⟨am, ham⟩ := Option.isSome_iff_exists.mp hp
      have hi : h[i]? = some am := ham
      by_cases hkey : am.Key = key
      · left
        refine ⟨[], i, am, rest, rfl, by simp, hi, hkey, ?_⟩
        unfold setMetadataIn
        simp only [ham, hkey, if_true]
      · have hstep : setMetadataIn h (some i :: rest) key value
            = setMetadataIn h rest key value := by
          conv_lhs => unfold setMetadataIn
          simp only [ham, hkey, if_false]
        rcases ih (fun q hq => hnn q (by simp [hq])) with
          ⟨pre, j, bm, post, h1, h2, h3, h4, h5⟩ | ⟨h1, h2⟩
        · left
          refine ⟨some i :: pre, j, bm, post, by rw [h1]; rfl, ?_, h3, h4, by rw [hstep, h5]⟩
          intro q hq
          rcases List.mem_cons.mp hq with rfl | hq
          · exact ⟨am, ham, hkey⟩
          · exact h2 q hq
        · right
          refine ⟨?_, by rw [hstep, h2]⟩
          intro q hq
          rcases List.mem_cons.mp hq with rfl | hq
          · exact ⟨am, ham, hkey⟩
          · exact h1 q hq

/-- The values of entries that do not hold the address written to. -/
theorem values_set_not_mem (h : Heap) (i : Nat) (x : AlertMeta) (metadata : List Ptr)
    (hi : some i ∉ metadata) :
    values (h.set i x) metadata = values h metadata := by
  unfold values
  apply List.map_congr_left
  intro p hp
  rw [deref_set]
  have : p ≠ some i := fun hh => hi (hh ▸ hp)
  simp [this]

theorem values_append_heap (h l : Heap) (metadata : List Ptr) (hnn : NonNil h metadata) :
    values (h ++ l) metadata = values h metadata := by
  unfold values
  apply List.map_congr_left
  intro p hp
  exact deref_append h l p (hnn p hp)

end MetadataLemmas

/-- C14, as the code has it: alert metadata set and get.  For every alert
whose metadata entries are non-nil, whatever keys they hold, every key `k`
and value `v`: `SetMetadata(k, v)` returns, and after it the entries are still
non-nil, `GetMetadata(k)` returns `v`, and when `k` is `"status"`,
`IsStatus(v)` is true and `IsStatus(t)` is false for every `t` other than
`v`.  `SetMetadata` either assigns `v` to the value of one `AlertMeta`, the
one the first entry with key `k` points to, leaving the list and every other
`AlertMeta` as they are, so that, when no pointer is in the list twice, one
position of the list shows another value; or, when no entry has key `k`, it
appends one entry, a pointer to a new `AlertMeta`, and changes nothing else.
`GetMetadata(k')` is unchanged for every `k'` other than `k`. -/
theorem Alert.metadata_set_get (h : Heap) (a : Alert) (k v : GoString)
    (hnn : NonNil h a.entries) :
    ∃ h' a', a.SetMetadata h k v = some (h', a') ∧
      NonNil h' a'.entries ∧
      a'.GetMetadata h' k = some v ∧
      (k = ascii "status" →
        a'.IsStatus h' v = some true ∧
        ∀ t : GoString, t ≠ v → a'.IsStatus h' t = some false) ∧
      ((∃ pre i am post, a.entries = pre ++ some i :: post ∧
          (∀ p ∈ pre, ∃ bm, deref h p = some bm ∧ bm.Key ≠ k) ∧
          h[i]? = some am ∧ am.Key = k ∧
          h' = h.set i { Key := k, Value := v } ∧ a' = a ∧
          (a.entries.Nodup →
            values h' a'.entries
              = values h pre ++ some { Key := k, Value := v } :: values h post)) ∨
        ((∀ p ∈ a.entries, ∃ bm, deref h p = some bm ∧ bm.Key ≠ k) ∧
          h' = h ++ [{ Key := k, Value := v }] ∧
          a' = { a with Metadata := some (a.entries ++ [some h.length]) } ∧
          values h' a'.entries = values h a.entries ++ [some { Key := k, Value := v }])) ∧
      (∀ k' : GoString, k' ≠ k → a'.GetMetadata h' k' = a.GetMetadata h k') := by
  have hstatus : ∀ (h' : Heap) (md : List Ptr),
      findIn h' md k = .entry { Key := k, Value := v } → k = ascii "status" →
      isStatusIn h' md v = some true ∧
        ∀ t : GoString, t ≠ v → isStatusIn h' md t = some false := by
    intro h' md hfind hk
    subst hk
    constructor
    · rw [isStatusIn_eq, hfind]; simp
    · intro t ht
      rw [isStatusIn_eq, hfind]
      simp [Ne.symm ht]
  rcases setMetadataIn_spec h a.entries k v hnn with
    ⟨pre, i, am, post, hmd, hpre, hi, hkey, hset⟩ | ⟨hall, hset⟩
  · have ham : ({ am with Value := v } : AlertMeta) = { Key := k, Value := v } := by
      rw [← hkey]
    rw [ham] at hset
    have hpre' : ∀ p ∈ pre, ∃ bm, deref (h.set i { Key := k, Value := v }) p = some bm ∧
        bm.Key ≠ k := by
      intro p hp
      obtain ⟨bm, hbm, hne⟩ := hpre p hp
      refine ⟨bm, ?_, hne⟩
      rw [deref_set]
      have : p ≠ some i := by
        rintro rfl
        simp only [deref, hi, Option.some.injEq] at hbm
        exact hne (hbm ▸ hkey)
      simp [this, hbm]
    have hfind : findIn (h.set i { Key := k, Value := v }) a.entries k
        = .entry { Key := k, Value := v } := by
      rw [hmd, findIn_skip _ pre _ k hpre']
      unfold findIn
      rw [deref_set]
      simp [deref, hi]
    refine ⟨h.set i { Key := k, Value := v }, a, ?_, ?_, ?_, ?_, ?_, ?_⟩
    · simp only [Alert.SetMetadata, hset]
    · intro p hp
      rw [deref_set]
      have := hnn p hp
      split_ifs <;> simp [this]
    · simp only [Alert.GetMetadata]
      rw [getMetadataIn_eq, hfind]
    · exact hstatus _ _ hfind
    · left
      refine ⟨pre, i, am, post, hmd, hpre, hi, hkey, rfl, rfl, ?_⟩
      intro hnd
      rw [hmd] at hnd ⊢
      have h1 : some i ∉ pre := by
        intro hmem
        have := List.nodup_append.mp hnd
        exact this.2.2 hmem (by simp)
      have h2 : some i ∉ post := by
        have := (List.nodup_append.mp hnd).2.1
        exact (List.nodup_cons.mp this).1
      have hv : values (h.set i { Key := k, Value := v }) (pre ++ some i :: post)
          = values (h.set i { Key := k, Value := v }) pre
            ++ deref (h.set i { Key := k, Value := v }) (some i)
              :: values (h.set i { Key := k, Value := v }) post := by
        simp [values]
      rw [hv, values_set_not_mem h i _ pre h1, values_set_not_mem h i _ post h2, deref_set]
      simp [deref, hi]
    · intro k' hk'
      simp only [Alert.GetMetadata]
      rw [getMetadataIn_eq, getMetadataIn_eq, ← ham,
        findIn_set_other h i am v k' hi (by rw [hkey]; exact Ne.symm hk')]
  · have hentries : ({ a with Metadata := some (a.entries ++ [some h.length]) } : Alert).entries
        = a.entries ++ [some h.length] := rfl
    have hall' : ∀ p ∈ a.entries, ∃ bm,
        deref (h ++ [{ Key := k, Value := v }]) p = some bm ∧ bm.Key ≠ k := by
      intro p hp
      obtain ⟨bm, hbm, hne⟩ := hall p hp
      exact ⟨bm, by rw [deref_append h _ p (hnn p hp), hbm], hne⟩
    have hfind : findIn (h ++ [{ Key := k, Value := v }]) (a.entries ++ [some h.length]) k
        = .entry { Key := k, Value := v } := by
      rw [findIn_skip _ a.entries _ k hall']
      unfold findIn
      rw [deref_new]
      simp [findIn]
    refine ⟨h ++ [{ Key := k, Value := v }],
      { a with Metadata := some (a.entries ++ [some h.length]) }, ?_, ?_, ?_, ?_, ?_, ?_⟩
    · simp only [Alert.SetMetadata, hset]
    · rw [hentries]
      intro p hp
      rcases List.mem_append.mp hp with hp | hp
      · rw [deref_append h _ p (hnn p hp)]
        exact hnn p hp
      · simp only [List.mem_singleton] at hp
        subst hp
        rw [deref_new]
        rfl
    · simp only [Alert.GetMetadata, hentries]
      rw [getMetadataIn_eq, hfind]
    · rw [Alert.IsStatus, hentries]
      exact hstatus _ _ hfind
    · right
      refine ⟨hall, rfl, rfl, ?_⟩
      rw [hentries]
      have : values (h ++ [{ Key := k, Value := v }]) (a.entries ++ [some h.length])
          = values (h ++ [{ Key := k, Value := v }]) a.entries
            ++ [deref (h ++ [{ Key := k, Value := v }]) (some h.length)] := by
        simp [values]
      rw [this, values_append_heap h _ _ hnn, deref_new]
    · intro k' hk'
      simp only [Alert.GetMetadata, hentries]
      rw [getMetadataIn_eq, getMetadataIn_eq,
        findIn_append_other _ a.entries (some h.length) { Key := k, Value := v } k'
          (deref_new h _) (Ne.symm hk'),
        findIn_append_heap h _ _ k' hnn]

/-- The witness of C14 as the code has it: the alert of `TestAlertDB`, set to
`ESCALATED`. -/
theorem Alert.metadata_set_get_witness :
    ∃ h' a', testAlert.SetMetadata testHeap (ascii "status") (ascii "ESCALATED") = some (h', a') ∧
      a'.GetMetadata h' (ascii "status") = some (ascii "ESCALATED") ∧
      a'.IsStatus h' (ascii "ESCALATED") = some true ∧
      a'.IsStatus h' (ascii "NEW") = some false := by
  obtain ⟨h', a', h1, _, h3, h4, _⟩ :=
    Alert.metadata_set_get testHeap testAlert (ascii "status") (ascii "ESCALATED") (by decide)
  exact ⟨h', a', h1, h3, (h4 rfl).1, (h4 rfl).2 _ (by decide)⟩

/-- C14, the claim refuted: an alert whose metadata holds a nil entry.  Each
of the three methods evaluates `am.Key` on it and panics. -/
theorem Alert.metadata_nil_entry :
    nilEntryAlert.SetMetadata [] (ascii "status") (ascii "NEW") = none ∧
    nilEntryAlert.GetMetadata [] (ascii "status") = none ∧
    nilEntryAlert.IsStatus [] (ascii "NEW") = none := by
  decide

/-- A pointer that is in the list twice: the assignment of `SetMetadata`
shows at both positions. -/
theorem Alert.metadata_aliased :
    ({ testAlert with Metadata := some [some 0, some 0] } : Alert).SetMetadata testHeap
        (ascii "status") (ascii "ESCALATED")
      = some ([{ Key := ascii "status", Value := ascii "ESCALATED" },
                { Key := ascii "foo", Value := ascii "bar" }],
              { testAlert with Metadata := some [some 0, some 0] }) := by
  decide

/-! ## Valid UTF-8 -/

section Utf8Lemmas

theorem toUInt8_toNat (b : UInt8) : b.toNat.toUInt8 = b := by
  cases b with
  | mk v => simp [Nat.toUInt8, UInt8.ofNat, UInt8.toNat]

theorem toUInt8_eq (n : Nat) (b : UInt8) (h : n = b.toNat) : n.toUInt8 = b := by
  subst h; exact toUInt8_toNat b

theorem toNat_ofNat_valid (n : Nat) (h : n < 0xD800 ∨ (0xDFFF < n ∧ n < 0x110000)) :
    (Char.ofNat n).toNat = n := by
  have hv : n.isValidChar := h
  simp [Char.ofNat, hv, Char.toNat, Char.ofNatAux, UInt32.toNat]

theorem isCont_iff (b : UInt8) : isCont b = true ↔ 0x80 ≤ b.toNat ∧ b.toNat ≤ 0xBF := by
  simp [isCont]

/-- The encoding of the rune of a well-formed sequence of one byte. -/
theorem encodeChar_one (b0 : UInt8) (h0 : b0.toNat < 0x80) :
    encodeChar (Char.ofNat b0.toNat) = [b0] := by
  have hn := toNat_ofNat_valid b0.toNat (Or.inl (by omega))
  simp only [encodeChar, hn, h0, if_true]
  rw [toUInt8_toNat]

/-- The encoding of the rune of a well-formed sequence of two bytes. -/
theorem encodeChar_two (b0 b1 : UInt8) (h0 : 0xC2 ≤ b0.toNat ∧ b0.toNat ≤ 0xDF)
    (h1 : 0x80 ≤ b1.toNat ∧ b1.toNat ≤ 0xBF) :
    encodeChar (Char.ofNat ((b0.toNat % 32) * 64 + b1.toNat % 64)) = [b0, b1] := by
  have hn := toNat_ofNat_valid ((b0.toNat % 32) * 64 + b1.toNat % 64) (Or.inl (by omega))
  have c1 : ¬ (b0.toNat % 32) * 64 + b1.toNat % 64 < 0x80 := by omega
  have c2 : (b0.toNat % 32) * 64 + b1.toNat % 64 < 0x800 := by omega
  simp only [encodeChar, hn, c1, c2, if_true, if_false]
  rw [toUInt8_eq _ b0 (by omega), toUInt8_eq _ b1 (by omega)]

/-- The encoding of the rune of a well-formed sequence of three bytes. -/
theorem encodeChar_three (b0 b1 b2 : UInt8) (h0 : 0xE0 ≤ b0.toNat ∧ b0.toNat ≤ 0xEF)
    (hlo : (if b0.toNat = 0xE0 then 0xA0 else 0x80) ≤ b1.toNat)
    (hhi : b1.toNat ≤ (if b0.toNat = 0xED then 0x9F else 0xBF))
    (h2 : 0x80 ≤ b2.toNat ∧ b2.toNat ≤ 0xBF) :
    encodeChar (Char.ofNat ((b0.toNat % 16) * 4096 + (b1.toNat % 64) * 64 + b2.toNat % 64))
      = [b0, b1, b2] := by
  have hn := toNat_ofNat_valid ((b0.toNat % 16) * 4096 + (b1.toNat % 64) * 64 + b2.toNat % 64)
    (by split_ifs at hlo hhi <;> omega)
  have c1 : ¬ (b0.toNat % 16) * 4096 + (b1.toNat % 64) * 64 + b2.toNat % 64 < 0x80 := by
    split_ifs at hlo hhi <;> omega
  have c2 : ¬ (b0.toNat % 16) * 4096 + (b1.toNat % 64) * 64 + b2.toNat % 64 < 0x800 := by
    split_ifs at hlo hhi <;> omega
  have c3 : (b0.toNat % 16) * 4096 + (b1.toNat % 64) * 64 + b2.toNat % 64 < 0x10000 := by
    omega
  simp only [encodeChar, hn, c1, c2, c3, if_true, if_false]
  rw [toUInt8_eq _ b0 (by split_ifs at hlo hhi <;> omega),
    toUInt8_eq _ b1 (by split_ifs at hlo hhi <;> omega),
    toUInt8_eq _ b2 (by split_ifs at hlo hhi <;> omega)]

/-- The encoding of the rune of a well-formed sequence of four bytes. -/
theorem encodeChar_four (b0 b1 b2 b3 : UInt8) (h0 : 0xF0 ≤ b0.toNat ∧ b0.toNat ≤ 0xF4)
    (hlo : (if b0.toNat = 0xF0 then 0x90 else 0x80) ≤ b1.toNat)
    (hhi : b1.toNat ≤ (if b0.toNat = 0xF4 then 0x8F else 0xBF))
    (h2 : 0x80 ≤ b2.toNat ∧ b2.toNat ≤ 0xBF) (h3 : 0x80 ≤ b3.toNat ∧ b3.toNat ≤ 0xBF) :
    encodeChar (Char.ofNat ((b0.toNat % 8) * 262144 + (b1.toNat % 64) * 4096
        + (b2.toNat % 64) * 64 + b3.toNat % 64))
      = [b0, b1, b2, b3] := by
  have hn := toNat_ofNat_valid ((b0.toNat % 8) * 262144 + (b1.toNat % 64) * 4096
      + (b2.toNat % 64) * 64 + b3.toNat % 64)
    (Or.inr (by split_ifs at hlo hhi <;> omega))
  have c1 : ¬ (b0.toNat % 8) * 262144 + (b1.toNat % 64) * 4096
      + (b2.toNat % 64) * 64 + b3.toNat % 64 < 0x80 := by
    split_ifs at hlo hhi <;> omega
  have c2 : ¬ (b0.toNat % 8) * 262144 + (b1.toNat % 64) * 4096
      + (b2.toNat % 64) * 64 + b3.toNat % 64 < 0x800 := by
    split_ifs at hlo hhi <;> omega
  have c3 : ¬ (b0.toNat % 8) * 262144 + (b1.toNat % 64) * 4096
      + (b2.toNat % 64) * 64 + b3.toNat % 64 < 0x10000 := by
    split_ifs at hlo hhi <;> omega
  simp only [encodeChar, hn, c1, c2, c3, if_false]
  rw [toUInt8_eq _ b0 (by split_ifs at hlo hhi <;> omega),
    toUInt8_eq _ b1 (by split_ifs at hlo hhi <;> omega),
    toUInt8_eq _ b2 (by split_ifs at hlo hhi <;> omega),
    toUInt8_eq _ b3 (by split_ifs at hlo hhi <;> omega)]

/-- Well-formed UTF-8 is what `json.Marshal` followed by `json.Unmarshal`
leaves as it is. -/
theorem encode_decode_aux (fuel : Nat) :
    ∀ s : GoString, s.length ≤ fuel → validAux fuel s = true →
      encodeText (decodeLossyAux fuel s) = s := by
  induction fuel with
  | zero =>
    intro s hlen _
    have : s = [] := List.length_eq_zero.mp (Nat.le_zero.mp hlen)
    subst this; rfl
  | succ f ih =>
    intro s hlen hv
    cases s with
    | nil => rfl
    | cons b0 rest =>
      have hstep : ∀ (c : Char) (n : Nat) (bs : GoString),
          decodeRune (b0 :: rest) = (c, n) → encodeChar c = (b0 :: rest).take n →
          (b0 :: rest).drop n = bs → bs.length ≤ f → validAux f bs = true →
          encodeText (decodeLossyAux (f + 1) (b0 :: rest)) = b0 :: rest := by
        intro c n bs hrune henc hdrop hlen' hv'
        have hrest := ih bs hlen' hv'
        simp only [decodeLossyAux, hrune, encodeText, List.flatMap_cons, henc, hdrop] at hrest ⊢
        rw [hrest, ← hdrop, List.take_append_drop]
      simp only [List.length_cons] at hlen
      unfold validAux at hv
      simp only at hv
      by_cases h1 : b0.toNat < 0x80
      · simp only [h1, if_true] at hv
        exact hstep (Char.ofNat b0.toNat) 1 rest (by simp [decodeRune, h1])
          (by rw [encodeChar_one b0 h1]; rfl) rfl (by omega) hv
      · simp only [h1, if_false] at hv
        by_cases h2 : 0xC2 ≤ b0.toNat ∧ b0.toNat ≤ 0xDF
        · simp only [h2, and_self, if_true] at hv
          cases rest with
          | nil => simp at hv
          | cons b1 rest1 =>
            simp only [Bool.and_eq_true] at hv
            obtain ⟨hc1, hv1⟩ := hv
            simp only [List.length_cons] at hlen
            exact hstep (Char.ofNat ((b0.toNat % 32) * 64 + b1.toNat % 64)) 2 rest1
              (by simp [decodeRune, h1, h2, hc1])
              (by rw [encodeChar_two b0 b1 h2 ((isCont_iff b1).mp hc1)]; rfl) rfl (by omega) hv1
        · simp only [h2, if_false] at hv
          by_cases h3 : 0xE0 ≤ b0.toNat ∧ b0.toNat ≤ 0xEF
          · simp only [h3, and_self, if_true] at hv
            match rest, hv, hlen with
            | [], hv, _ => simp at hv
            | [_], hv, _ => simp at hv
            | b1 :: b2 :: rest2, hv, hlen =>
              simp only [Bool.and_eq_true, decide_eq_true_eq] at hv
              obtain ⟨⟨⟨hlo, hhi⟩, hc2⟩, hv2⟩ := hv
              simp only [List.length_cons] at hlen
              exact hstep (Char.ofNat ((b0.toNat % 16) * 4096 + (b1.toNat % 64) * 64
                  + b2.toNat % 64)) 3 rest2
                (by simp [decodeRune, h1, h2, h3, hlo, hhi, hc2])
                (by rw [encodeChar_three b0 b1 b2 h3 hlo hhi ((isCont_iff b2).mp hc2)]; rfl)
                rfl (by omega) hv2
          · simp only [h3, if_false] at hv
            by_cases h4 : 0xF0 ≤ b0.toNat ∧ b0.toNat ≤ 0xF4
            · simp only [h4, and_self, if_true] at hv
              match rest, hv, hlen with
              | [], hv, _ => simp at hv
              | [_], hv, _ => simp at hv
              | [_, _], hv, _ => simp at hv
              | b1 :: b2 :: b3 :: rest3, hv, hlen =>
                simp only [Bool.and_eq_true, decide_eq_true_eq] at hv
                obtain ⟨⟨⟨⟨hlo, hhi⟩, hc2⟩, hc3⟩, hv3⟩ := hv
                simp only [List.length_cons] at hlen
                exact hstep (Char.ofNat ((b0.toNat % 8) * 262144 + (b1.toNat % 64) * 4096
                    + (b2.toNat % 64) * 64 + b3.toNat % 64)) 4 rest3
                  (by simp [decodeRune, h1, h2, h3, h4, hlo, hhi, hc2, hc3])
                  (by rw [encodeChar_four b0 b1 b2 b3 h4 hlo hhi ((isCont_iff b2).mp hc2)
                        ((isCont_iff b3).mp hc3)]; rfl)
                  rfl (by omega) hv3
            · simp [h4] at hv

/-- A Go string that is valid UTF-8 is the same after `json.Marshal` and
`json.Unmarshal`. -/
theorem toValidUTF8_of_valid (s : GoString) (h : ValidUTF8 s) : toValidUTF8 s = s :=
  encode_decode_aux s.length s (Nat.le_refl _) h

end Utf8Lemmas

/-! ## The JSON text of a time -/

section CalendarLemmas

/-- The cycles of 400, 100, 4 and 1 years that `absDate` cuts off. -/
theorem absDate_cycles (days a d1 b0 b d2 c d3 e0 e : Int)
    (ha : a = days / 146097) (hd1 : d1 = days % 146097)
    (hb0 : b0 = d1 / 36524) (hb : b = b0 - b0 / 4) (hd2 : d2 = d1 - 36524 * b)
    (hc : c = d2 / 1461) (hd3 : d3 = d2 - 1461 * c)
    (he0 : e0 = d3 / 365) (he : e = e0 - e0 / 4) :
    0 ≤ d3 - 365 * e ∧
    d3 - 365 * e = days - daysSinceEpoch (400 * a + 100 * b + 4 * c + e + 1) ∧
    d3 - 365 * e < (if isLeap (400 * a + 100 * b + 4 * c + e + 1) = true then 366 else 365) := by
  have hdays := Int.emod_add_ediv days 146097
  have h1 : 0 ≤ d1 ∧ d1 < 146097 := by omega
  have h2 : 0 ≤ b0 ∧ b0 ≤ 4 ∧ 36524 * b0 ≤ d1 ∧ d1 < 36524 * b0 + 36524 := by omega
  have h3 : 0 ≤ b ∧ b ≤ 3 ∧ (b0 ≤ 3 → b = b0) ∧ (b0 = 4 → b = 3) := by omega
  have h4 : 0 ≤ d2 ∧ d2 ≤ 36524 ∧ (d2 = 36524 → b = 3) := by omega
  have h5 : 0 ≤ c ∧ c ≤ 24 ∧ 1461 * c ≤ d2 ∧ d2 < 1461 * c + 1461 := by omega
  have h6 : 0 ≤ d3 ∧ d3 ≤ 1460 := by omega
  have h7 : 0 ≤ e0 ∧ e0 ≤ 4 ∧ 365 * e0 ≤ d3 ∧ d3 < 365 * e0 + 365 := by omega
  have h8 : 0 ≤ e ∧ e ≤ 3 ∧ (e0 ≤ 3 → e = e0) ∧ (e0 = 4 → e = 3) := by omega
  have q4 : (400 * a + 100 * b + 4 * c + e + 1 - 1) / 4 = 100 * a + 25 * b + c := by omega
  have q100 : (400 * a + 100 * b + 4 * c + e + 1 - 1) / 100 = 4 * a + b := by omega
  have q400 : (400 * a + 100 * b + 4 * c + e + 1 - 1) / 400 = a := by omega
  have m4 : (400 * a + 100 * b + 4 * c + e + 1) % 4 = 0 ↔ e = 3 := by omega
  have m100 : (400 * a + 100 * b + 4 * c + e + 1) % 100 = 0 ↔ (c = 24 ∧ e = 3) := by omega
  have m400 : (400 * a + 100 * b + 4 * c + e + 1) % 400 = 0 ↔ (b = 3 ∧ c = 24 ∧ e = 3) := by
    omega
  refine ⟨by omega, ?_, ?_⟩
  · simp only [daysSinceEpoch]
    rw [q4, q100, q400]
    omega
  · simp only [isLeap, m4, m100, m400, ne_eq, decide_eq_true_eq]
    split_ifs with hl
    · omega
    · have hne : ¬ (e0 = 4) := by
        intro h4'
        apply hl
        refine ⟨by omega, ?_⟩
        by_cases hc24 : c = 24
        · right; omega
        · left; omega
      omega

/-- The year `absDate` finds holds the day, and the day of that year is the
one it hands to `monthDay`. -/
theorem absDate_year (days : Int) :
    ∃ yday : Nat, (yday : Int) = days - daysSinceEpoch (absDate days).1 ∧
      yday < (if isLeap (absDate days).1 = true then 366 else 365) ∧
      (absDate days).2 = monthDay (isLeap (absDate days).1) yday := by
  obtain ⟨h1, h2, h3⟩ := absDate_cycles days _ _ _ _ _ _ _ _ _ rfl rfl rfl rfl rfl rfl rfl rfl rfl
  refine ⟨_, ?_, ?_, rfl⟩
  · simp only [absDate]
    rw [Int.toNat_of_nonneg h1]
    exact h2
  · simp only [absDate]
    split_ifs with hl
    · rw [if_pos hl] at h3
      omega
    · rw [if_neg hl] at h3
      omega

/-- The month and the day `monthDay` finds. -/
theorem monthDay_spec (leap : Bool) (yday : Nat) (h : yday < (if leap = true then 366 else 365))
    (m d : Nat) (hmd : monthDay leap yday = (m, d)) :
    1 ≤ m ∧ m ≤ 12 ∧ 1 ≤ d ∧
    d ≤ (if m = 2 ∧ leap = true then 29
          else daysBefore.getD m 0 - daysBefore.getD (m - 1) 0) ∧
    daysBefore.getD (m - 1) 0 + (if leap = true ∧ m ≥ 3 then 1 else 0) + (d - 1) = yday := by
  unfold monthDay at hmd
  have fin : ∀ (day q : Nat), day / 31 = q → day < 365 →
      (if day ≥ daysBefore.getD (q + 1) 0 then (q + 2, day - daysBefore.getD (q + 1) 0 + 1)
        else (q + 1, day - daysBefore.getD q 0 + 1)) = (m, d) →
      1 ≤ m ∧ m ≤ 12 ∧ 1 ≤ d ∧ d ≤ daysBefore.getD m 0 - daysBefore.getD (m - 1) 0 ∧
      daysBefore.getD (m - 1) 0 + (d - 1) = day := by
    intro day q hq hday hpair
    have hq11 : q ≤ 11 := by omega
    interval_cases q <;> norm_num [daysBefore, List.getD] at hpair <;>
      split_ifs at hpair <;> simp only [Prod.mk.injEq] at hpair <;>
      obtain ⟨rfl, rfl⟩ := hpair <;> norm_num [daysBefore, List.getD] <;> omega
  cases leap with
  | false =>
    simp only [Bool.false_eq_true, false_and, if_false, and_false] at h hmd ⊢
    obtain ⟨g1, g2, g3, g4, g5⟩ := fin yday _ rfl h hmd
    exact ⟨g1, g2, g3, g4, by omega⟩
  | true =>
    simp only [true_and, if_true, and_true] at h hmd ⊢
    by_cases h59 : yday = 59
    · subst h59
      simp only [if_true, Prod.mk.injEq] at hmd
      obtain ⟨rfl, rfl⟩ := hmd
      norm_num [daysBefore, List.getD]
    · simp only [show ¬ (yday = 31 + 29 - 1) from h59, if_false] at hmd
      by_cases hgt : yday > 59
      · simp only [show yday > 31 + 29 - 1 from hgt, if_true] at hmd
        obtain ⟨g1, g2, g3, g4, g5⟩ := fin (yday - 1) _ rfl (by omega) hmd
        have hm3 : m ≥ 3 := by
          by_contra hlt
          have hm12 : m = 1 ∨ m = 2 := by omega
          rcases hm12 with rfl | rfl <;> norm_num [daysBefore, List.getD] at g4 g5 <;> omega
        have hm2 : ¬ m = 2 := by omega
        simp only [hm2, if_false, hm3, if_true]
        exact ⟨g1, g2, g3, g4, by omega⟩
      · simp only [show ¬ (yday > 31 + 29 - 1) from hgt, if_false] at hmd
        obtain ⟨g1, g2, g3, g4, g5⟩ := fin yday _ rfl (by omega) hmd
        have hm3 : ¬ m ≥ 3 := by
          intro hge
          have : daysBefore.getD (m - 1) 0 ≥ 59 := by
            have hm12 : m ≤ 12 := g2
            interval_cases m <;> norm_num [daysBefore, List.getD]
          omega
        simp only [hm3, if_false]
        refine ⟨g1, g2, g3, ?_, by omega⟩
        split_ifs with hm2
        · have : m = 2 := hm2
          subst this
          norm_num [daysBefore, List.getD] at g4
          omega
        · exact g4


end CalendarLemmas

section TextLemmas

theorem digit_toNat (n : Nat) : (digit n).toNat = 48 + n % 10 :=
  toNat_ofNat_valid _ (Or.inl (by omega))

theorem isDigit_digit (n : Nat) : isDigit (digit n) = true := by
  simp only [isDigit, digit_toNat, decide_eq_true_eq]
  omega

theorem digit_eq_zero (n : Nat) : digit n = '0' ↔ n % 10 = 0 := by
  constructor
  · intro h
    have := congrArg Char.toNat h
    rw [digit_toNat] at this
    have h0 : ('0' : Char).toNat = 48 := rfl
    omega
  · intro h
    simp only [digit, h]

theorem valueOf_append (cs : List Char) (c : Char) :
    valueOf (cs ++ [c]) = valueOf cs * 10 + (c.toNat - 48) := by
  simp [valueOf, List.foldl_append]

theorem digitsOf_length (width n : Nat) : (digitsOf width n).length = width := by
  induction width generalizing n with
  | zero => rfl
  | succ w ih => simp [digitsOf, ih]

theorem digitsOf_all (width n : Nat) : (digitsOf width n).all isDigit = true := by
  induction width generalizing n with
  | zero => rfl
  | succ w ih => simp [digitsOf, ih, isDigit_digit]

theorem valueOf_digitsOf (width n : Nat) : valueOf (digitsOf width n) = n % 10 ^ width := by
  induction width generalizing n with
  | zero => simp [digitsOf, valueOf, Nat.mod_one]
  | succ w ih =>
    rw [digitsOf, valueOf_append, ih, digit_toNat]
    have h1 : n % 10 ^ (w + 1) = n % 10 + 10 * (n / 10 % 10 ^ w) := by
      rw [pow_succ, Nat.mul_comm, Nat.mod_mul]
    omega

theorem parseUint_digitsOf (width n min max : Nat) (hn : n < 10 ^ width) (hmin : min ≤ n)
    (hmax : n ≤ max) : parseUint (digitsOf width n) min max = some n := by
  have hv : valueOf (digitsOf width n) = n := by
    rw [valueOf_digitsOf, Nat.mod_eq_of_lt hn]
  simp [parseUint, digitsOf_all, hv, hmin, hmax]

theorem digitsOf_two (n : Nat) : digitsOf 2 n = [digit (n / 10), digit n] := rfl

theorem digitsOf_four (n : Nat) :
    digitsOf 4 n = [digit (n / 10 / 10 / 10), digit (n / 10 / 10), digit (n / 10), digit n] := rfl

/-- The date and clock reading that were written are read back. -/
theorem parseDateTime_written (year month day hour min sec : Nat) (hy : year ≤ 9999)
    (hm : 1 ≤ month ∧ month ≤ 12) (hd : 1 ≤ day ∧ day ≤ daysIn month year) (hd' : day < 100)
    (hh : hour ≤ 23) (hmin : min ≤ 59) (hs : sec ≤ 59) :
    parseDateTime (digitsOf 4 year ++ '-' :: digitsOf 2 month ++ '-' :: digitsOf 2 day
      ++ 'T' :: digitsOf 2 hour ++ ':' :: digitsOf 2 min ++ ':' :: digitsOf 2 sec)
      = some (Date year month day hour min sec) := by
  have p1 := parseUint_digitsOf 4 year 0 9999 (by norm_num; omega) (Nat.zero_le _) hy
  have p2 := parseUint_digitsOf 2 month 1 12 (by norm_num; omega) hm.1 hm.2
  have p3 := parseUint_digitsOf 2 day 1 (daysIn month year) (by norm_num; omega) hd.1 hd.2
  have p4 := parseUint_digitsOf 2 hour 0 23 (by norm_num; omega) (Nat.zero_le _) hh
  have p5 := parseUint_digitsOf 2 min 0 59 (by norm_num; omega) (Nat.zero_le _) hmin
  have p6 := parseUint_digitsOf 2 sec 0 59 (by norm_num; omega) (Nat.zero_le _) hs
  rw [digitsOf_four] at p1 ⊢
  rw [digitsOf_two] at p2 p3 p4 p5 p6
  simp only [digitsOf_two, List.cons_append, List.nil_append, parseDateTime, p1, p2, p3, p4, p5,
    p6, and_self, if_true]

theorem trimZeros_append (cs : List Char) (c : Char) :
    trimZeros (cs ++ [c]) = if c = '0' then trimZeros cs else cs ++ [c] := by
  unfold trimZeros
  rw [List.reverse_append]
  simp only [List.reverse_cons, List.reverse_nil, List.nil_append, List.singleton_append,
    List.dropWhile_cons, decide_eq_true_eq]
  split_ifs
  · rfl
  · simp

/-- The digits of a fractional second that is not zero, without the zeros at
the end, spell it. -/
theorem trimZeros_digitsOf (width : Nat) :
    ∀ n : Nat, n % 10 ^ width ≠ 0 →
      trimZeros (digitsOf width n) ≠ [] ∧
      (trimZeros (digitsOf width n)).all isDigit = true ∧
      (trimZeros (digitsOf width n)).length ≤ width ∧
      valueOf (trimZeros (digitsOf width n))
          * 10 ^ (width - (trimZeros (digitsOf width n)).length) = n % 10 ^ width := by
  induction width with
  | zero => intro n h; simp [Nat.mod_one] at h
  | succ w ih =>
    intro n hn
    have hsplit : n % 10 ^ (w + 1) = n % 10 + 10 * (n / 10 % 10 ^ w) := by
      rw [pow_succ, Nat.mul_comm, Nat.mod_mul]
    rw [digitsOf, trimZeros_append]
    by_cases h0 : n % 10 = 0
    · rw [if_pos ((digit_eq_zero n).mpr h0)]
      have hn' : n / 10 % 10 ^ w ≠ 0 := by
        intro hz
        apply hn
        rw [hsplit, h0, hz]
      obtain ⟨g1, g2, g3, g4⟩ := ih (n / 10) hn'
      refine ⟨g1, g2, by omega, ?_⟩
      have hexp : w + 1 - (trimZeros (digitsOf w (n / 10))).length
          = (w - (trimZeros (digitsOf w (n / 10))).length) + 1 := by omega
      rw [hexp, pow_succ, ← Nat.mul_assoc, g4, hsplit, h0]
      omega
    · rw [if_neg (fun h => h0 ((digit_eq_zero n).mp h))]
      have hlen : (digitsOf w (n / 10) ++ [digit n]).length = w + 1 := by
        simp [digitsOf_length]
      refine ⟨by simp, ?_, by omega, ?_⟩
      · simp [digitsOf_all, isDigit_digit]
      · rw [hlen, Nat.sub_self, pow_zero, Nat.mul_one]
        have := valueOf_digitsOf (w + 1) n
        rw [digitsOf] at this
        exact this

theorem takeWhile_digits (ds : List Char) (z : Char) (zs : List Char)
    (hds : ds.all isDigit = true) (hz : isDigit z = false) :
    (ds ++ z :: zs).takeWhile isDigit = ds ∧ (ds ++ z :: zs).dropWhile isDigit = z :: zs := by
  induction ds with
  | nil => simp [List.takeWhile, List.dropWhile, hz]
  | cons d rest ih =>
    simp only [List.all_cons, Bool.and_eq_true] at hds
    obtain ⟨h1, h2⟩ := ih hds.2
    simp [List.takeWhile, List.dropWhile, hds.1, h1, h2]

/-- The fractional second that was written is read back. -/
theorem parseFrac_written (nanosec : Nat) (hn : nanosec < 1000000000) (z : Char)
    (zs : List Char) (hz : isDigit z = false) (hdot : z ≠ '.') :
    parseFrac (appendNano nanosec ++ z :: zs) = (nanosec, z :: zs) := by
  unfold appendNano
  by_cases h0 : nanosec = 0
  · subst h0
    simp only [if_true, List.nil_append]
    unfold parseFrac
    split
    · next c rest heq =>
      simp only [List.cons.injEq] at heq
      exact absurd heq.1 hdot
    · rfl
  · simp only [h0, if_false]
    have hmod : nanosec % 10 ^ 9 ≠ 0 := by
      rw [Nat.mod_eq_of_lt (by norm_num; exact hn)]; exact h0
    obtain ⟨g1, g2, g3, g4⟩ := trimZeros_digitsOf 9 nanosec hmod
    rw [Nat.mod_eq_of_lt (by norm_num; exact hn)] at g4
    generalize trimZeros (digitsOf 9 nanosec) = ds at g1 g2 g3 g4
    cases ds with
    | nil => exact absurd rfl g1
    | cons c rest =>
      obtain ⟨t1, t2⟩ := takeWhile_digits (c :: rest) z zs g2 hz
      have hc : isDigit c = true := by
        simp only [List.all_cons, Bool.and_eq_true] at g2
        exact g2.1
      simp only [List.cons_append] at t1 t2 ⊢
      simp only [parseFrac, hc, if_true, t1, t2, List.take_of_length_le g3, g4]

end TextLemmas


section RoundTripLemmas

/-- The date `absDate` finds is a date of the calendar, and `Date` makes of
it the day it came from. -/
theorem absDate_spec (days : Int) :
    1 ≤ (absDate days).2.1 ∧ (absDate days).2.1 ≤ 12 ∧ 1 ≤ (absDate days).2.2 ∧
    (absDate days).2.2 ≤ daysIn (absDate days).2.1 (absDate days).1 ∧
    daysSinceEpoch (absDate days).1 + daysBefore.getD ((absDate days).2.1 - 1) 0
      + (if isLeap (absDate days).1 = true ∧ (absDate days).2.1 ≥ 3 then 1 else 0)
      + (((absDate days).2.2 - 1 : Nat) : Int) = days := by
  obtain ⟨yday, h1, h2, h3⟩ := absDate_year days
  obtain ⟨g1, g2, g3, g4, g5⟩ := monthDay_spec (isLeap (absDate days).1) yday h2
    (absDate days).2.1 (absDate days).2.2 (by rw [h3])
  refine ⟨g1, g2, g3, ?_, ?_⟩
  · unfold daysIn
    exact g4
  · split_ifs at g5 ⊢ <;> omega

theorem parseZone_Z (utc : Int) (nsec : Nat) :
    parseZone utc nsec ['Z'] = some { ns := utc * 1000000000 + nsec, offset := 0 } := by
  simp [parseZone]

theorem parseZone_written (utc : Int) (nsec : Nat) (neg : Bool) (zone : Nat)
    (hz : zone / 60 ≤ 23) :
    parseZone utc nsec ((if neg = true then '-' else '+')
        :: (digitsOf 2 (zone / 60) ++ ':' :: digitsOf 2 (zone % 60)))
      = some { ns := (utc - (if neg = true then -((zone * 60 : Nat) : Int)
                  else ((zone * 60 : Nat) : Int))) * 1000000000 + nsec,
               offset := if neg = true then -((zone * 60 : Nat) : Int)
                  else ((zone * 60 : Nat) : Int) } := by
  have p1 := parseUint_digitsOf 2 (zone / 60) 0 23 (by norm_num; omega) (Nat.zero_le _) hz
  have p2 := parseUint_digitsOf 2 (zone % 60) 0 59 (by norm_num; omega) (Nat.zero_le _)
    (by omega)
  rw [digitsOf_two] at p1 p2
  have hzone : (zone / 60 * 60 + zone % 60) * 60 = zone * 60 := by omega
  cases neg with
  | true =>
    simp only [digitsOf_two, List.cons_append, List.nil_append, if_true]
    simp [parseZone, p1, p2, hzone]
  | false =>
    simp only [digitsOf_two, List.cons_append, List.nil_append, Bool.false_eq_true, if_false]
    simp [parseZone, p1, p2, hzone]

end RoundTripLemmas

/-- The text `MarshalJSON` writes for a time that is representable is read
back by `parseRFC3339` as that time. -/
theorem Time.written_read (t : Time) (h : t.Representable) :
    ∃ text, t.MarshalJSON = some text ∧ parseRFC3339 text = some t := by
  obtain ⟨hy0, hy1, hoff, hlo, hhi⟩ := h
  unfold Time.Year at hy0 hy1
  obtain ⟨s1, s2, s3, s4, s5⟩ := absDate_spec ((t.ns / 1000000000 + t.offset) / 86400)
  generalize hdate : absDate ((t.ns / 1000000000 + t.offset) / 86400) = date at *
  have hclock : 0 ≤ (t.ns / 1000000000 + t.offset) % 86400 ∧
      (t.ns / 1000000000 + t.offset) % 86400 < 86400 := by omega
  have hnsec : 0 ≤ t.ns % 1000000000 ∧ t.ns % 1000000000 < 1000000000 := by omega
  generalize hcl : ((t.ns / 1000000000 + t.offset) % 86400).toNat = clock
  generalize hns : (t.ns % 1000000000).toNat = nsec
  have hclock' : (clock : Int) = (t.ns / 1000000000 + t.offset) % 86400 := by omega
  have hnsec' : (nsec : Int) = t.ns % 1000000000 := by omega
  have htdiv : Int.tdiv t.offset 60 = t.offset / 60 :=
    Int.tdiv_eq_ediv_of_dvd (Int.dvd_of_emod_eq_zero hoff)
  generalize hq : t.offset / 60 = q at htdiv
  have hq60 : t.offset = 60 * q := by omega
  generalize hzn : q.natAbs = zone
  have hzone : (zone : Int) = if q < 0 then -q else q := by
    subst hzn
    split_ifs <;> omega
  have hz23 : zone / 60 ≤ 23 := by
    split_ifs at hzone <;> omega
  have hyear : ((date.1.toNat : Nat) : Int) = date.1 := Int.toNat_of_nonneg hy0
  have hDate : Date (date.1.toNat : Nat) date.2.1 date.2.2 (clock / 3600) (clock % 3600 / 60)
      (clock % 60) = t.ns / 1000000000 + t.offset := by
    unfold Date
    rw [hyear]
    have hsum : ((clock / 3600 : Nat) : Int) * 3600 + ((clock % 3600 / 60 : Nat) : Int) * 60
        + ((clock % 60 : Nat) : Int) = clock := by omega
    have hrec := Int.emod_add_ediv (t.ns / 1000000000 + t.offset) 86400
    rw [s5]
    omega
  have hday100 : date.2.2 < 100 := by
    have : daysIn date.2.1 date.1 ≤ 31 := by
      unfold daysIn
      have hm12 : date.2.1 ≤ 12 := s2
      have hm1 : 1 ≤ date.2.1 := s1
      generalize date.2.1 = m at hm12 hm1
      interval_cases m <;> split_ifs <;> norm_num [daysBefore, List.getD]
    omega
  have hheader := parseDateTime_written date.1.toNat date.2.1 date.2.2 (clock / 3600)
    (clock % 3600 / 60) (clock % 60) (by omega) ⟨s1, s2⟩ ⟨s3, by rw [hyear]; exact s4⟩ hday100
    (by omega) (by omega) (by omega)
  rw [hDate] at hheader
  have hlen : (digitsOf 4 date.1.toNat ++ '-' :: digitsOf 2 date.2.1 ++ '-' :: digitsOf 2 date.2.2
      ++ 'T' :: digitsOf 2 (clock / 3600) ++ ':' :: digitsOf 2 (clock % 3600 / 60)
      ++ ':' :: digitsOf 2 (clock % 60)).length = 19 := by
    simp [digitsOf_length]
  have hread : ∀ (z : Char) (zs : List Char), isDigit z = false → z ≠ '.' →
      parseRFC3339 ((digitsOf 4 date.1.toNat ++ '-' :: digitsOf 2 date.2.1 ++ '-'
          :: digitsOf 2 date.2.2 ++ 'T' :: digitsOf 2 (clock / 3600) ++ ':'
          :: digitsOf 2 (clock % 3600 / 60) ++ ':' :: digitsOf 2 (clock % 60))
          ++ (appendNano nsec ++ z :: zs))
        = parseZone (t.ns / 1000000000 + t.offset) nsec (z :: zs) := by
    intro z zs hz hdot
    unfold parseRFC3339
    rw [List.take_left' hlen, List.drop_left' hlen, hheader]
    simp only [parseFrac_written nsec (by omega) z zs hz hdot]
  have hwritten : t.MarshalJSON
      = some ((digitsOf 4 date.1.toNat ++ '-' :: digitsOf 2 date.2.1 ++ '-'
          :: digitsOf 2 date.2.2 ++ 'T' :: digitsOf 2 (clock / 3600) ++ ':'
          :: digitsOf 2 (clock % 3600 / 60) ++ ':' :: digitsOf 2 (clock % 60))
          ++ (appendNano nsec
            ++ (if t.offset = 0 then ['Z']
                else (if q < 0 then '-' else '+') :: digitsOf 2 (zone / 60)
                  ++ ':' :: digitsOf 2 (zone % 60)))) := by
    unfold Time.MarshalJSON
    simp only [hdate, hcl, hns, htdiv, hzn]
    rw [if_neg (by omega), if_neg (by omega)]
    simp only [List.append_assoc, List.cons_append]
  refine ⟨_, hwritten, ?_⟩
  by_cases hz0 : t.offset = 0
  · simp only [hz0, if_true]
    rw [hread 'Z' [] (by decide) (by decide), parseZone_Z]
    cases t with
    | mk ns offset =>
      simp only [Time.mk.injEq, Option.some.injEq] at hz0 hnsec' ⊢
      omega
  · simp only [hz0, if_false]
    have hsign : (if q < 0 then '-' else '+')
        = (if decide (q < 0) = true then '-' else '+') := by simp
    rw [hsign]
    have hreadz := hread (if decide (q < 0) = true then '-' else '+')
      (digitsOf 2 (zone / 60) ++ ':' :: digitsOf 2 (zone % 60))
      (by split_ifs <;> decide) (by split_ifs <;> decide)
    rw [← List.cons_append] at hreadz
    rw [hreadz, List.cons_append, parseZone_written _ _ _ _ hz23]
    cases t with
    | mk ns offset =>
      simp only [Time.mk.injEq, Option.some.injEq, decide_eq_true_eq] at hq60 hnsec' ⊢
      split_ifs at hzone ⊢ <;> push_cast <;> omega

/-! ## The stored state of an alert -/

section StateLemmas

/-- The members `json.Marshal` writes for an `AlertMeta`, read into an
`AlertMeta`. -/
theorem foldMembers_written (am x : AlertMeta) :
    foldMembers AlertMeta.setMember
        [("key".toList, .string (decodeLossy am.Key)),
         ("value".toList, .string (decodeLossy am.Value))] x
      = some am.coerced := by
  have h1 : ∀ (y : AlertMeta) (text : List Char),
      AlertMeta.setMember y ("key".toList, .string text)
        = some { y with Key := encodeText text } := fun _ _ => rfl
  have h2 : ∀ (y : AlertMeta) (text : List Char),
      AlertMeta.setMember y ("value".toList, .string text)
        = some { y with Value := encodeText text } := fun _ _ => rfl
  simp only [foldMembers, h1, h2, AlertMeta.coerced, toValidUTF8]

/-- The elements `json.Marshal` writes for a metadata list, read into a new
slice: a nil entry is read as nil, every other entry is read into a new
`AlertMeta`. -/
theorem decodeElements_written (h : Heap) (entries : List Ptr) :
    ∀ h0 : Heap, ∃ cells ps,
      decodeElements h0 [] (entries.map (elementToJSON h)) = some (h0 ++ cells, ps) ∧
      values (h0 ++ cells) ps = (values h entries).map (Option.map AlertMeta.coerced) := by
  induction entries with
  | nil =>
    intro h0
    exact ⟨[], [], by simp [decodeElements], rfl⟩
  | cons p rest ih =>
    intro h0
    cases hp : deref h p with
    | none =>
      obtain ⟨cells, ps, h1, h2⟩ := ih h0
      refine ⟨cells, none :: ps, ?_, ?_⟩
      · simp only [List.map_cons, elementToJSON, hp, decodeElements, decodeElement,
          List.headD_nil, List.tail_nil, h1]
      · simp only [values, List.map_cons, hp, Option.map_none'] at h2 ⊢
        rw [h2]
        rfl
    | some am =>
      obtain ⟨cells, ps, h1, h2⟩ := ih (h0 ++ [am.coerced])
      have hel : decodeElement h0 none am.toJSON = some (h0 ++ [am.coerced], some h0.length) := by
        simp only [decodeElement, AlertMeta.toJSON, foldMembers_written, Option.map_some']
      refine ⟨am.coerced :: cells, some h0.length :: ps, ?_, ?_⟩
      · simp only [List.map_cons, elementToJSON, hp, decodeElements, List.headD_nil,
          List.tail_nil, hel, h1, List.append_assoc, List.singleton_append]
      · have hcons : h0 ++ am.coerced :: cells = h0 ++ [am.coerced] ++ cells := by simp
        rw [hcons]
        simp only [values, List.map_cons, hp, Option.map_some'] at h2 ⊢
        rw [h2, deref_append (h0 ++ [am.coerced]) cells (some h0.length)
          (by rw [deref_new]; rfl), deref_new]

/-- An alert after `AlertToState` and `StateToAlert`, for a timestamp that
`MarshalJSON` writes and `UnmarshalJSON` reads: every string is coerced to
valid UTF-8, a nil slice stays nil, and the entries point to new values. -/
theorem StateToAlert_AlertToState (lib : TimeLib) (h h0 : Heap) (a : Alert) (text : List Char)
    (t' : Time) (hm : a.Timestamp.MarshalJSON = some text)
    (hu : Time.UnmarshalJSON lib text = some t') :
    ∃ sf cells ps, AlertToState h a = .ok sf ∧
      StateToAlert lib h0 sf = .ok (h0 ++ cells,
        { Id := toValidUTF8 a.Id
          Severity := toValidUTF8 a.Severity
          Category := toValidUTF8 a.Category
          Summary := toValidUTF8 a.Summary
          Payload := toValidUTF8 a.Payload
          Metadata := a.Metadata.map (fun _ => ps)
          Timestamp := t' }) ∧
      values (h0 ++ cells) ps = (values h a.entries).map (Option.map AlertMeta.coerced) := by
  have g1 : ∀ (d : Decoding) (s : List Char),
      Alert.setMember lib d ("id".toList, .string s)
        = some { d with alert := { d.alert with Id := encodeText s } } := fun _ _ => rfl
  have g2 : ∀ (d : Decoding) (s : List Char),
      Alert.setMember lib d ("severity".toList, .string s)
        = some { d with alert := { d.alert with Severity := encodeText s } } := fun _ _ => rfl
  have g3 : ∀ (d : Decoding) (s : List Char),
      Alert.setMember lib d ("category".toList, .string s)
        = some { d with alert := { d.alert with Category := encodeText s } } := fun _ _ => rfl
  have g4 : ∀ (d : Decoding) (s : List Char),
      Alert.setMember lib d ("summary".toList, .string s)
        = some { d with alert := { d.alert with Summary := encodeText s } } := fun _ _ => rfl
  have g5 : ∀ (d : Decoding) (s : List Char),
      Alert.setMember lib d ("payload".toList, .string s)
        = some { d with alert := { d.alert with Payload := encodeText s } } := fun _ _ => rfl
  have g6 : ∀ (d : Decoding),
      Alert.setMember lib d ("metadata".toList, .null)
        = some { d with alert := { d.alert with Metadata := none }, spare := [] } :=
    fun _ => rfl
  have g7 : ∀ (d : Decoding) (elements : List JSON),
      Alert.setMember lib d ("metadata".toList, .array elements)
        = (match decodeElements d.heap (d.alert.entries ++ d.spare) elements with
            | none => none
            | some (h, ps) =>
              some { heap := h
                     alert := { d.alert with Metadata := some ps }
                     spare := if elements.isEmpty then []
                       else (d.alert.entries ++ d.spare).drop elements.length }) :=
    fun _ _ => rfl
  have g8 : ∀ (d : Decoding) (s : List Char),
      Alert.setMember lib d ("timestamp".toList, .string s)
        = (Time.UnmarshalJSON lib s).map
            (fun t => { d with alert := { d.alert with Timestamp := t } }) := fun _ _ => rfl
  cases hmd : a.Metadata with
  | none =>
    have hto : AlertToState h a = .ok { State := some (JSON.object (
        [("id".toList, .string (decodeLossy a.Id)),
         ("severity".toList, .string (decodeLossy a.Severity)),
         ("category".toList, .string (decodeLossy a.Category)),
         ("summary".toList, .string (decodeLossy a.Summary)),
         ("payload".toList, .string (decodeLossy a.Payload)),
         ("metadata".toList, .null),
         ("timestamp".toList, .string text)])) } := by
      unfold AlertToState Alert.toJSON
      rw [hm, hmd]
    refine ⟨_, [], [], hto, ?_, ?_⟩
    · simp only [StateToAlert, Alert.fromJSON, foldMembers, g1, g2, g3, g4, g5, g6, g8, hu,
        Option.map_some', Alert.zero, toValidUTF8, Option.map_none', List.append_nil]
    · simp [values, Alert.entries, hmd]
  | some entries =>
    obtain ⟨cells, ps, hdec, hvals⟩ := decodeElements_written h entries h0
    have hto : AlertToState h a = .ok { State := some (JSON.object (
        [("id".toList, .string (decodeLossy a.Id)),
         ("severity".toList, .string (decodeLossy a.Severity)),
         ("category".toList, .string (decodeLossy a.Category)),
         ("summary".toList, .string (decodeLossy a.Summary)),
         ("payload".toList, .string (decodeLossy a.Payload)),
         ("metadata".toList, .array (entries.map (elementToJSON h))),
         ("timestamp".toList, .string text)])) } := by
      unfold AlertToState Alert.toJSON
      rw [hm, hmd]
    refine ⟨_, cells, ps, hto, ?_, ?_⟩
    · simp only [StateToAlert, Alert.fromJSON, foldMembers, g1, g2, g3, g4, g5, g7, g8, hu,
        Option.map_some', Alert.zero, toValidUTF8, Alert.entries, Option.getD_none,
        List.append_nil, hdec]
    · rw [hvals]
      simp [Alert.entries, hmd]

end StateLemmas

/-- An offset that is not of whole minutes is not written in full: the time
one nanosecond into year 1 in a zone 30 seconds east of UTC is written with
the offset `+00:00`, and the text is read as an instant 30 seconds later. -/
theorem Time.offset_seconds_lost :
    Time.MarshalJSON { ns := 1, offset := 30 } = some "0001-01-01T00:00:30.000000001+00:00".toList ∧
    parseRFC3339 "0001-01-01T00:00:30.000000001+00:00".toList
      = some { ns := 30000000001, offset := 0 } := by
  decide

/-- C15, as the code has it: alert state round trip.  For every alert whose
strings (`Id`, `Severity`, `Category`, `Summary`, `Payload`, and the keys and
values its metadata entries point to) are valid UTF-8 and whose timestamp is
representable in JSON, a year in 0..9999 and an offset of whole minutes under
24 hours, `AlertToState` succeeds, `StateToAlert` applied to its result
succeeds, whatever `time.Parse` reads beyond RFC 3339 and whatever the heap
holds, and the alert it returns has the same `Id`, `Severity`, `Category`,
`Summary` and `Payload`, a `Metadata` slice that is nil when that of the
alert is and whose entries otherwise are nil or point to the same keys and
values, in the same order, and a `Timestamp` that is the same instant. -/
theorem alert_state_round_trip (lib : TimeLib) (h h0 : Heap) (a : Alert)
    (hid : ValidUTF8 a.Id) (hsev : ValidUTF8 a.Severity) (hcat : ValidUTF8 a.Category)
    (hsum : ValidUTF8 a.Summary) (hpay : ValidUTF8 a.Payload)
    (hmeta : ∀ am ∈ (values h a.entries).reduceOption, ValidUTF8 am.Key ∧ ValidUTF8 am.Value)
    (htime : a.Timestamp.Representable) :
    ∃ sf h' a', AlertToState h a = .ok sf ∧ StateToAlert lib h0 sf = .ok (h', a') ∧
      a'.Id = a.Id ∧ a'.Severity = a.Severity ∧ a'.Category = a.Category ∧
      a'.Summary = a.Summary ∧ a'.Payload = a.Payload ∧
      a'.metadataValues h' = a.metadataValues h ∧
      a.Timestamp.Equal a'.Timestamp = true := by
  obtain ⟨text, hm, hp⟩ := Time.written_read a.Timestamp htime
  have hu : Time.UnmarshalJSON lib text = some a.Timestamp := by
    simp only [Time.UnmarshalJSON, hp]
  obtain ⟨sf, cells, ps, h1, h2, hvals⟩ :=
    StateToAlert_AlertToState lib h h0 a text a.Timestamp hm hu
  refine ⟨sf, _, _, h1, h2, toValidUTF8_of_valid _ hid, toValidUTF8_of_valid _ hsev,
    toValidUTF8_of_valid _ hcat, toValidUTF8_of_valid _ hsum, toValidUTF8_of_valid _ hpay,
    ?_, by simp [Time.Equal]⟩
  have hfix : ∀ o ∈ values h a.entries, Option.map AlertMeta.coerced o = o := by
    intro o ho
    cases o with
    | none => rfl
    | some am =>
      obtain ⟨hk, hv⟩ := hmeta am (List.reduceOption_mem_iff.mpr ho)
      simp only [Option.map_some', AlertMeta.coerced, toValidUTF8_of_valid _ hk,
        toValidUTF8_of_valid _ hv]
  have hsame : values (h0 ++ cells) ps = values h a.entries := by
    rw [hvals]
    calc (values h a.entries).map (Option.map AlertMeta.coerced)
        = (values h a.entries).map id := List.map_congr_left hfix
      _ = values h a.entries := List.map_id _
  cases hmd : a.Metadata with
  | none => simp [Alert.metadataValues, hmd]
  | some entries =>
    have hentries : a.entries = entries := by simp [Alert.entries, hmd]
    rw [hentries] at hsame
    simp [Alert.metadataValues, hmd, hsame]

/-- The witness of C15 as the code has it: the alert of `TestAlertDB`, with a
summary that is not ASCII and a time with nanoseconds in a zone west of UTC,
read back into an empty heap. -/
theorem alert_state_round_trip_witness :
    ∃ sf h' a', AlertToState testHeap testAlert = .ok sf ∧
      StateToAlert strictTimeLib [] sf = .ok (h', a') ∧
      a'.Id = testAlert.Id ∧ a'.Severity = testAlert.Severity ∧
      a'.Category = testAlert.Category ∧ a'.Summary = testAlert.Summary ∧
      a'.Payload = testAlert.Payload ∧
      a'.metadataValues h' = testAlert.metadataValues testHeap ∧
      testAlert.Timestamp.Equal a'.Timestamp = true :=
  alert_state_round_trip strictTimeLib testHeap [] testAlert (by decide) (by decide) (by decide)
    (by decide) (by decide) (by decide) (by decide)

/-- C15, the claim refuted: an alert whose `Id` is the byte `0xff`, with the
zero time, which is representable.  `AlertToState` and `StateToAlert` succeed,
and the alert returned has the `Id` `EF BF BD`, the encoding of U+FFFD, not
the `Id` of the alert. -/
theorem alert_state_bad_id :
    badIdAlert.Timestamp.Representable ∧
    (∃ sf h' a', AlertToState [] badIdAlert = .ok sf ∧
      StateToAlert strictTimeLib [] sf = .ok (h', a') ∧ a'.Id = [0xEF, 0xBF, 0xBD]) ∧
    badIdAlert.Id ≠ [0xEF, 0xBF, 0xBD] := by
  have hrep : badIdAlert.Timestamp.Representable := by decide
  refine ⟨hrep, ?_, by decide⟩
  obtain ⟨text, hm, hp⟩ := Time.written_read badIdAlert.Timestamp hrep
  obtain ⟨sf, cells, ps, h1, h2, _⟩ :=
    StateToAlert_AlertToState strictTimeLib [] [] badIdAlert text badIdAlert.Timestamp hm
      (by simp only [Time.UnmarshalJSON, hp])
  exact ⟨sf, _, _, h1, h2, by show toValidUTF8 badIdAlert.Id = _; decide⟩

end Common

namespace Auth0

section GetLogsLemmas

variable {E : Type}

/-- What `getLogs` returns is empty or ends with a log whose `ID` is set: the
loop has read that `ID`. -/
theorem getLogs_last (page : String → Except E (List Log)) (fuel : Nat) :
    ∀ (fromId : String) (collectedLogs logs : List Log),
      (collectedLogs = [] ∨ ∃ id, collectedLogs.getLast? = some { ID := some id }) →
      getLogs page fuel fromId collectedLogs = .returned logs →
      logs = [] ∨ ∃ id, logs.getLast? = some { ID := some id } := by
  induction fuel with
  | zero => intro fromId collectedLogs logs _ h; simp [getLogs] at h
  | succ f ih =>
    intro fromId collectedLogs logs hc h
    unfold getLogs at h
    split at h
    · cases h
    · next page_logs hpage =>
      split_ifs at h with hempty
      · cases h
        exact hc
      · split at h
        · next id hlast =>
          refine ih id (collectedLogs ++ page_logs) logs ?_ h
          right
          refine ⟨id, ?_⟩
          have hne : page_logs ≠ [] := by
            intro hnil; rw [hnil] at hlast; simp at hlast
          rw [List.getLast?_append_of_ne_nil _ hne, hlast]
        · cases h

/-- An empty first page makes `getLogs` return the empty list. -/
theorem getLogs_first_page_empty (page : String → Except E (List Log)) (fuel : Nat)
    (fromId : String) (h : page fromId = .ok []) :
    getLogs page (fuel + 1) fromId [] = .returned [] := by
  simp [getLogs, h]

end GetLogsLemmas

/-- C16, on the code: `Auth0Pull` after `getLogs` has returned and the flush
has succeeded.  When `getLogs` returned the empty list, which it does when the
first page is empty, `logs[len(logs)-1]` is out of bounds: `Auth0Pull` panics
and saves nothing.  When it returned a non-empty list, the access is in
bounds, the `ID` of the last log is set, and a `save` that succeeds stores
that `ID`. -/
theorem Auth0Pull_last_log_id {E : Type} (env : Env E) (fuel : Nat) (lastLogId : String)
    (logs : List Log) (hload : env.loadLastLogId = .ok lastLogId)
    (hget : getLogs env.page fuel lastLogId [] = .returned logs)
    (hflush : env.Flush logs = none) :
    (env.page lastLogId = .ok [] → logs = []) ∧
    (logs = [] →
      (Auth0Pull env fuel).result = .panicked ∧ (Auth0Pull env fuel).saved = none) ∧
    (logs ≠ [] → ∃ id, logs.getLast? = some { ID := some id } ∧
      (env.save id = none →
        Auth0Pull env fuel = { result := .returned none, logged := logs, saved := some id })) := by
  refine ⟨?_, ?_, ?_⟩
  · intro hpage
    cases fuel with
    | zero => simp [getLogs] at hget
    | succ f =>
      rw [getLogs_first_page_empty env.page f lastLogId hpage] at hget
      cases hget
      rfl
  · intro hnil
    subst hnil
    simp [Auth0Pull, hload, hget, hflush]
  · intro hne
    rcases getLogs_last env.page fuel lastLogId [] logs (Or.inl rfl) hget with h | ⟨id, hid⟩
    · exact absurd h hne
    · refine ⟨id, hid, ?_⟩
      intro hsave
      simp [Auth0Pull, hload, hget, hflush, hid, hsave]

/-- The witness of C16: no log after the stored id.  The first page is empty,
`getLogs` returns the empty list, the flush succeeds, and `Auth0Pull` panics
without saving. -/
theorem Auth0Pull_last_log_id_witness :
    (Auth0Pull quietEnv 1).result = .panicked ∧ (Auth0Pull quietEnv 1).saved = none :=
  (Auth0Pull_last_log_id quietEnv 1 "900" [] rfl rfl rfl).2.1 rfl

/-- Two logs after the stored id: `Auth0Pull` stores the `ID` of the last. -/
theorem Auth0Pull_busy :
    Auth0Pull busyEnv 2
      = { result := .returned none
          logged := [{ ID := some "901" }, { ID := some "902" }]
          saved := some "902" } := by
  decide

end Auth0
